import Mathlib

/-!
Verification development for a LOLCODE-flavored markup compiler
(lexer + recursive-descent parser pipeline).

The definitions below are a shallow embedding of `src/token.rs`,
`src/lexer.rs`, `src/error.rs`, `src/ast.rs` and `src/parser.rs`.
Strings are represented as `List Char`; the lexer's `line`/`col`
counters are omitted because they feed only `Lexical` errors, which
`next_token` never produces (every branch returns `Ok`), so they do
not affect any token or error value.  The parser's loops are encoded
with an explicit fuel parameter (structural recursion on `Nat`); fuel
exhaustion is a distinguished result `PRes.out`, and a sufficiency
theorem shows the chosen fuel is always enough for the top-level
entry point, so `PRes.out` never escapes.
-/

set_option maxHeartbeats 1000000

/-- All keywords in LOL code (`Kw` in `src/token.rs`). -/
inductive Kw where
  | hai | kthxbye
  | obtw | tldr
  | maek | gimmeh | head | title | paragraf | oic
  | bold | italics | newline | soundz | vidz
  | list | item
  | lemme | see
  | i | haz | it | iz
  | mkay
deriving DecidableEq, Repr

/-- Tokens output by the lexer (`Token` in `src/token.rs`). -/
inductive Token where
  | hash
  | word (w : List Char)
  | text (t : List Char)
  | kw (k : Kw)
  | eof
deriving DecidableEq, Repr

/-- Rust `format!("{:?}", k)` on `Kw` (derived `Debug` prints the variant name). -/
def kwDebug : Kw → List Char
  | .hai => "Hai".data
  | .kthxbye => "Kthxbye".data
  | .obtw => "OBTW".data
  | .tldr => "TLDR".data
  | .maek => "Maek".data
  | .gimmeh => "Gimmeh".data
  | .head => "Head".data
  | .title => "Title".data
  | .paragraf => "Paragraf".data
  | .oic => "OIC".data
  | .bold => "Bold".data
  | .italics => "Italics".data
  | .newline => "Newline".data
  | .soundz => "Soundz".data
  | .vidz => "Vidz".data
  | .list => "List".data
  | .item => "Item".data
  | .lemme => "Lemme".data
  | .see => "See".data
  | .i => "I".data
  | .haz => "Haz".data
  | .it => "It".data
  | .iz => "Iz".data
  | .mkay => "Mkay".data

/-- `Token::as_lexeme` from `src/token.rs`. -/
def Token.asLexeme : Token → List Char
  | .hash => "#".data
  | .word w => w
  | .text t => t
  | .kw k => kwDebug k
  | .eof => "<EOF>".data

/-- Word characters: ASCII letters, digits, underscore
(`CharLexer::is_word_char`). -/
def isWordChar (c : Char) : Bool :=
  c.isAlphanum || c = '_'

/-- Rust `char::is_whitespace` (the Unicode White_Space property). -/
def isWsChar (c : Char) : Bool :=
  c = ' ' || c = '\t' || c = '\n' || c = '\x0b' || c = '\x0c' || c = '\r' ||
  c = '\x85' || c = '\xa0' || c = ' ' ||
  ((' ' : Char) ≤ c && c ≤ (' ' : Char)) ||
  c = ' ' || c = ' ' || c = ' ' || c = ' ' || c = '　'

/-- Punctuation characters treated as text (`CharLexer::is_text_punct`). -/
def isTextPunct (c : Char) : Bool :=
  c = ',' || c = '.' || c = '"' || c = ':' || c = '?' || c = '!' || c = '%' || c = '/'

/-- Rust `str::trim` on our character-list strings. -/
def trimChars (l : List Char) : List Char :=
  ((l.dropWhile isWsChar).reverse.dropWhile isWsChar).reverse

/-- First whitespace-delimited piece of a string:
Rust `t.split_whitespace().next().unwrap_or("")`. -/
def firstPiece (l : List Char) : List Char :=
  (l.dropWhile isWsChar).takeWhile (fun c => !isWsChar c)

/-- `CharLexer::map_kw`: convert an (already uppercased) word to a keyword. -/
def mapKw (upper : List Char) : Option Kw :=
  if upper = "HAI".data then some .hai
  else if upper = "KTHXBYE".data then some .kthxbye
  else if upper = "OBTW".data then some .obtw
  else if upper = "TLDR".data then some .tldr
  else if upper = "MAEK".data then some .maek
  else if upper = "GIMMEH".data then some .gimmeh
  else if upper = "HEAD".data then some .head
  else if upper = "TITLE".data then some .title
  else if upper = "PARAGRAF".data then some .paragraf
  else if upper = "OIC".data then some .oic
  else if upper = "BOLD".data then some .bold
  else if upper = "ITALICS".data then some .italics
  else if upper = "NEWLINE".data then some .newline
  else if upper = "SOUNDZ".data then some .soundz
  else if upper = "VIDZ".data then some .vidz
  else if upper = "LIST".data then some .list
  else if upper = "ITEM".data then some .item
  else if upper = "LEMME".data then some .lemme
  else if upper = "SEE".data then some .see
  else if upper = "I".data then some .i
  else if upper = "HAZ".data then some .haz
  else if upper = "IT".data then some .it
  else if upper = "IZ".data then some .iz
  else if upper = "MKAY".data then some .mkay
  else none

/-- `CharLexer::prev_kw_expects_keyword`: keywords after which the next
word must also be interpreted as a keyword. -/
def prevKwExpectsKeyword : Option Kw → Bool
  | some .maek => true
  | some .gimmeh => true
  | some .lemme => true
  | some .i => true
  | some .it => true
  | _ => false

/-- The character-by-character lexer state (`CharLexer` in `src/lexer.rs`).
The `line`/`col` counters are omitted (see the module docstring). -/
structure CharLexer where
  chars : List Char
  afterHash : Bool
  prevKw : Option Kw
deriving DecidableEq, Repr

/-- `CharLexer::new`. -/
def CharLexer.new (input : List Char) : CharLexer :=
  { chars := input, afterHash := false, prevKw := none }

/-- `CharLexer::next_token`.  The Rust function returns `Result<Token>` but
every branch returns `Ok`, so the embedding is total, returning the token
together with the successor lexer state. -/
def nextToken (lx : CharLexer) : Token × CharLexer :=
  match lx.chars with
  | [] => (Token.eof, lx)
  | c :: cs =>
    if c = '#' then
      (Token.hash, { chars := cs, afterHash := true, prevKw := none })
    else if isWsChar c then
      (Token.text ((c :: cs).takeWhile isWsChar),
       { lx with chars := (c :: cs).dropWhile isWsChar })
    else if isWordChar c then
      let word := (c :: cs).takeWhile isWordChar
      let rest := (c :: cs).dropWhile isWordChar
      let upper := word.map Char.toUpper
      let keywordOk := lx.afterHash || prevKwExpectsKeyword lx.prevKw
      match (if keywordOk then mapKw upper else none) with
      | some k => (Token.kw k, { chars := rest, afterHash := false, prevKw := some k })
      | none => (Token.word word, { chars := rest, afterHash := false, prevKw := none })
    else if isTextPunct c then
      (Token.text ((c :: cs).takeWhile isTextPunct),
       { lx with chars := (c :: cs).dropWhile isTextPunct })
    else
      (Token.text [c], { lx with chars := cs })

/-- Error type (`LolError` in `src/error.rs`).  `synErr` is the
`Syntax { expected, found }` variant; `lexical` and `sem` are the other
two variants of the taxonomy (never produced by the embedded core). -/
inductive LolError where
  | lexical (line col : Nat) (msg : List Char)
  | synErr (expected found : List Char)
  | sem (msg : List Char)
deriving DecidableEq, Repr

/-- AST nodes (`Node` in `src/ast.rs`). -/
inductive Node where
  | html (children : List Node)
  | comment (textv : List Char)
  | head (children : List Node)
  | title (textv : List Char)
  | body (children : List Node)
  | paragraph (children : List Node)
  | bold (textv : List Char)
  | italics (textv : List Char)
  | list (children : List Node)
  | listItem (children : List Node)
  | newline
  | audio (url : List Char)
  | video (url : List Char)
  | text (textv : List Char)
  | varDef (name valuev : List Char)
  | varUse (name : List Char)

/-- Parser result: success, syntax error, or fuel exhaustion (`out`). -/
inductive PRes (α : Type) where
  | ok (a : α)
  | err (e : LolError)
  | out

def PRes.bind {α β : Type} : PRes α → (α → PRes β) → PRes β
  | .ok a, f => f a
  | .err e, _ => .err e
  | .out, _ => .out

instance : Monad PRes where
  pure := PRes.ok
  bind := PRes.bind

/-- Parser state (`Parser` in `src/parser.rs`): lexer, single lookahead
token, the root AST accumulator, and the stack of open block scopes.
The Rust `Vec` stack grows at the end; here the top of the stack is the
head of the list. -/
structure PState where
  lex : CharLexer
  look : Token
  ast : List Node
  stack : List (List Node)

/-- `Parser::advance` (total: `next_token` never fails). -/
def advance (s : PState) : PState :=
  let (t, lx) := nextToken s.lex
  { s with look := t, lex := lx }

/-- `Parser::expect_kw`. -/
def expect_kw (k : Kw) (s : PState) : PRes PState :=
  match s.look with
  | .kw k' =>
    if k' = k then .ok (advance s)
    else .err (.synErr (kwDebug k) s.look.asLexeme)
  | _ => .err (.synErr (kwDebug k) s.look.asLexeme)

/-- `Parser::expect_hash`. -/
def expect_hash (s : PState) : PRes PState :=
  match s.look with
  | .hash => .ok (advance s)
  | _ => .err (.synErr "#".data s.look.asLexeme)

/-- `Parser::push_node`: append to the innermost open scope, or to the
root AST when no scope is open. -/
def push_node (n : Node) (s : PState) : PState :=
  match s.stack with
  | [] => { s with ast := s.ast ++ [n] }
  | top :: rest => { s with stack := (top ++ [n]) :: rest }

/-- `Parser::skip_ws`: skip whitespace-only text tokens. -/
def skip_ws : Nat → PState → PRes PState
  | 0, _ => .out
  | n + 1, s =>
    match s.look with
    | .text t =>
      if (trimChars t).isEmpty then skip_ws n (advance s) else .ok s
    | _ => .ok s

/-- Accumulation loop of `Parser::read_text_until_hash`. -/
def readTextLoop : Nat → PState → PRes (List Char × PState)
  | 0, _ => .out
  | n + 1, s =>
    match s.look with
    | .text t => (readTextLoop n (advance s)).bind fun p => .ok (t ++ p.1, p.2)
    | .word w => (readTextLoop n (advance s)).bind fun p => .ok (w ++ p.1, p.2)
    | _ => .ok ([], s)

/-- `Parser::read_text_until_hash`: concatenate `Text`/`Word` tokens until
a `Hash`, `Kw` or `Eof` boundary, trimming the result. -/
def read_text_until_hash (n : Nat) (s : PState) : PRes (List Char × PState) :=
  (readTextLoop n s).bind fun p => .ok (trimChars p.1, p.2)

/-- Accumulation loop of `Parser::parse_text`. -/
def parseTextLoop : Nat → PState → PRes (List Char × PState)
  | 0, _ => .out
  | n + 1, s =>
    match s.look with
    | .text t => (parseTextLoop n (advance s)).bind fun p => .ok (t ++ p.1, p.2)
    | .word w => (parseTextLoop n (advance s)).bind fun p => .ok (w ++ p.1, p.2)
    | _ => .ok ([], s)

/-- `Parser::parse_text`: read a run of plain text tokens and push a `Text`
node unless the run is all whitespace.  Note the pushed string is the raw
(untrimmed) accumulation; `trim` is only used for the emptiness test. -/
def parse_text (n : Nat) (s : PState) : PRes PState :=
  (parseTextLoop n s).bind fun p =>
    if (trimChars p.1).isEmpty then .ok p.2
    else .ok (push_node (.text p.1) p.2)

/-- Collection loop of `Parser::parse_comment`. -/
def commentLoop : Nat → PState → PRes (List Char × PState)
  | 0, _ => .out
  | n + 1, s =>
    match s.look with
    | .hash =>
      (skip_ws n (advance s)).bind fun s1 =>
      (expect_kw .tldr s1).bind fun s2 => .ok ([], s2)
    | .text t => (commentLoop n (advance s)).bind fun p => .ok (t ++ p.1, p.2)
    | .word w => (commentLoop n (advance s)).bind fun p => .ok (w ++ p.1, p.2)
    | .eof => .err (.synErr "#TLDR".data "<EOF>".data)
    | _ => commentLoop n (advance s)

/-- `Parser::parse_comment`: `OBTW ... #TLDR`. -/
def parse_comment (n : Nat) (s : PState) : PRes PState :=
  (expect_kw .obtw s).bind fun s1 =>
  (commentLoop n s1).bind fun p =>
  .ok (push_node (.comment (trimChars p.1)) p.2)

/-- `Parser::parse_title`. -/
def parse_title (n : Nat) (s : PState) : PRes PState :=
  (expect_kw .title s).bind fun s1 =>
  (read_text_until_hash n s1).bind fun p =>
  (expect_hash p.2).bind fun s2 =>
  (expect_kw .mkay s2).bind fun s3 =>
  .ok (push_node (.title p.1) s3)

/-- `Parser::parse_bold`. -/
def parse_bold (n : Nat) (s : PState) : PRes PState :=
  (expect_kw .bold s).bind fun s1 =>
  (read_text_until_hash n s1).bind fun p =>
  (expect_hash p.2).bind fun s2 =>
  (expect_kw .mkay s2).bind fun s3 =>
  .ok (push_node (.bold p.1) s3)

/-- `Parser::parse_italics`. -/
def parse_italics (n : Nat) (s : PState) : PRes PState :=
  (expect_kw .italics s).bind fun s1 =>
  (read_text_until_hash n s1).bind fun p =>
  (expect_hash p.2).bind fun s2 =>
  (expect_kw .mkay s2).bind fun s3 =>
  .ok (push_node (.italics p.1) s3)

/-- `Parser::parse_newline`. -/
def parse_newline (s : PState) : PRes PState :=
  (expect_kw .newline s).bind fun s1 =>
  .ok (push_node .newline s1)

/-- `Parser::parse_audio`. -/
def parse_audio (n : Nat) (s : PState) : PRes PState :=
  (expect_kw .soundz s).bind fun s1 =>
  (read_text_until_hash n s1).bind fun p =>
  (expect_hash p.2).bind fun s2 =>
  (expect_kw .mkay s2).bind fun s3 =>
  .ok (push_node (.audio p.1) s3)

/-- `Parser::parse_video`. -/
def parse_video (n : Nat) (s : PState) : PRes PState :=
  (expect_kw .vidz s).bind fun s1 =>
  (read_text_until_hash n s1).bind fun p =>
  (expect_hash p.2).bind fun s2 =>
  (expect_kw .mkay s2).bind fun s3 =>
  .ok (push_node (.video p.1) s3)

/-- `Parser::parse_list_items`: `ITEM <text> #MKAY`, wrapping the text as a
single-element `ListItem`. -/
def parse_list_items (n : Nat) (s : PState) : PRes PState :=
  (expect_kw .item s).bind fun s1 =>
  (read_text_until_hash n s1).bind fun p =>
  (expect_hash p.2).bind fun s2 =>
  (expect_kw .mkay s2).bind fun s3 =>
  .ok (push_node (.listItem [.text p.1]) s3)

/-- The variable-name match shared by `parse_variable_define` and
`parse_variable_use`: the name comes from the next `Word` token or, as
fallback, the first whitespace-delimited piece of a `Text` token. -/
def parseVarName (s : PState) : PRes (List Char × PState) :=
  match s.look with
  | .word w => .ok (w, advance s)
  | .text t => .ok (firstPiece t, advance s)
  | _ => .err (.synErr "variable name".data s.look.asLexeme)

/-- `Parser::parse_variable_define`: `I HAZ <name> IT IZ <value> #MKAY`. -/
def parse_variable_define (n : Nat) (s : PState) : PRes PState :=
  (expect_kw .i s).bind fun s1 =>
  (expect_kw .haz s1).bind fun s2 =>
  (parseVarName s2).bind fun nm =>
  (expect_kw .it nm.2).bind fun s3 =>
  (expect_kw .iz s3).bind fun s4 =>
  (read_text_until_hash n s4).bind fun p =>
  (expect_hash p.2).bind fun s5 =>
  (expect_kw .mkay s5).bind fun s6 =>
  .ok (push_node (.varDef nm.1 p.1) s6)

/-- `Parser::parse_variable_use`: `LEMME SEE <name> #MKAY`. -/
def parse_variable_use (s : PState) : PRes PState :=
  (expect_kw .lemme s).bind fun s1 =>
  (expect_kw .see s1).bind fun s2 =>
  (parseVarName s2).bind fun nm =>
  (expect_hash nm.2).bind fun s3 =>
  (expect_kw .mkay s3).bind fun s4 =>
  .ok (push_node (.varUse nm.1) s4)

/-- `Parser::parse_body`: dispatch for `#GIMMEH ...`. -/
def parse_body (n : Nat) (s : PState) : PRes PState :=
  (expect_kw .gimmeh s).bind fun s1 =>
  (skip_ws n s1).bind fun s2 =>
  match s2.look with
  | .kw .bold => parse_bold n s2
  | .kw .italics => parse_italics n s2
  | .kw .newline => parse_newline s2
  | .kw .soundz => parse_audio n s2
  | .kw .vidz => parse_video n s2
  | .kw .item => parse_list_items n s2
  | .kw .title => parse_title n s2
  | _ => .err (.synErr "BOLD/ITALICS/NEWLINE/SOUNDZ/VIDZ/ITEM/TITLE".data s2.look.asLexeme)

/-- The loop of `Parser::parse_head`. -/
def headLoop : Nat → PState → PRes PState
  | 0, _ => .out
  | n + 1, s =>
    (skip_ws n s).bind fun s1 =>
    match s1.look with
    | .hash =>
      (skip_ws n (advance s1)).bind fun s3 =>
      (match s3.look with
       | .kw .gimmeh =>
         (skip_ws n (advance s3)).bind fun s5 =>
         (parse_title n s5).bind fun s6 => headLoop n s6
       | .kw .obtw => (parse_comment n s3).bind fun s6 => headLoop n s6
       | .kw .oic => .ok (advance s3)
       | _ => .err (.synErr "GIMMEH TITLE or OBTW or OIC".data s3.look.asLexeme))
    | .eof => .err (.synErr "#OIC".data "<EOF>".data)
    | _ => headLoop n (advance s1)

/-- `Parser::parse_head`: push a scope, run the loop, pop it into a `Head`
node.  The Rust code pops with `unwrap()`; the loop never pops the frame it
was given, so the `[]` case below is unreachable (it mirrors the panic with
a junk value). -/
def parse_head (n : Nat) (s : PState) : PRes PState :=
  (expect_kw .head s).bind fun s1 =>
  (headLoop n { s1 with stack := [] :: s1.stack }).bind fun s2 =>
  match s2.stack with
  | kids :: rest => .ok (push_node (.head kids) { s2 with stack := rest })
  | [] => .ok (push_node (.head []) s2)

/-- The loop of `Parser::parse_paragraph`. -/
def paragraphLoop : Nat → PState → PRes PState
  | 0, _ => .out
  | n + 1, s =>
    (skip_ws n s).bind fun s1 =>
    match s1.look with
    | .hash =>
      (skip_ws n (advance s1)).bind fun s3 =>
      (match s3.look with
       | .kw .gimmeh =>
         (skip_ws n (advance s3)).bind fun s5 =>
         (match s5.look with
          | .kw .bold => (parse_bold n s5).bind fun s6 => paragraphLoop n s6
          | .kw .italics => (parse_italics n s5).bind fun s6 => paragraphLoop n s6
          | .kw .newline => (parse_newline s5).bind fun s6 => paragraphLoop n s6
          | .kw .soundz => (parse_audio n s5).bind fun s6 => paragraphLoop n s6
          | .kw .vidz => (parse_video n s5).bind fun s6 => paragraphLoop n s6
          | _ => .err (.synErr "BOLD/ITALICS/NEWLINE/SOUNDZ/VIDZ".data s5.look.asLexeme))
       | .kw .lemme => (parse_variable_use s3).bind fun s6 => paragraphLoop n s6
       | .kw .i => (parse_variable_define n s3).bind fun s6 => paragraphLoop n s6
       | .kw .obtw => (parse_comment n s3).bind fun s6 => paragraphLoop n s6
       | .kw .oic => .ok (advance s3)
       | _ => .err (.synErr "GIMMEH/LEMME/I/OBTW/OIC".data s3.look.asLexeme))
    | .text _ => (parse_text n s1).bind fun s6 => paragraphLoop n s6
    | .word _ => (parse_text n s1).bind fun s6 => paragraphLoop n s6
    | .eof => .err (.synErr "#OIC".data "<EOF>".data)
    | _ => .err (.synErr "content in PARAGRAF".data s1.look.asLexeme)

/-- `Parser::parse_paragraph` (same push/pop shape as `parse_head`). -/
def parse_paragraph (n : Nat) (s : PState) : PRes PState :=
  (expect_kw .paragraf s).bind fun s1 =>
  (paragraphLoop n { s1 with stack := [] :: s1.stack }).bind fun s2 =>
  match s2.stack with
  | kids :: rest => .ok (push_node (.paragraph kids) { s2 with stack := rest })
  | [] => .ok (push_node (.paragraph []) s2)

/-- The loop of `Parser::parse_list`.  Note: the `Gimmeh` arm calls
`parse_list_items` without advancing past the `GIMMEH` token (unlike the
corresponding arm in `parse_head`), exactly as in the source. -/
def listLoop : Nat → PState → PRes PState
  | 0, _ => .out
  | n + 1, s =>
    (skip_ws n s).bind fun s1 =>
    match s1.look with
    | .hash =>
      (skip_ws n (advance s1)).bind fun s3 =>
      (match s3.look with
       | .kw .gimmeh => (parse_list_items n s3).bind fun s6 => listLoop n s6
       | .kw .obtw => (parse_comment n s3).bind fun s6 => listLoop n s6
       | .kw .oic => .ok (advance s3)
       | _ => .err (.synErr "GIMMEH ITEM or OBTW or OIC".data s3.look.asLexeme))
    | .eof => .err (.synErr "#OIC for LIST".data "<EOF>".data)
    | _ => .err (.synErr "# in LIST".data s1.look.asLexeme)

/-- `Parser::parse_list` (same push/pop shape as `parse_head`). -/
def parse_list (n : Nat) (s : PState) : PRes PState :=
  (expect_kw .list s).bind fun s1 =>
  (listLoop n { s1 with stack := [] :: s1.stack }).bind fun s2 =>
  match s2.stack with
  | kids :: rest => .ok (push_node (.list kids) { s2 with stack := rest })
  | [] => .ok (push_node (.list []) s2)

/-- The main loop of `Parser::parse_lolcode`.  The final catch-all arm
(`_ => {}` in the source) recurses without advancing, mirroring the Rust
`loop` continuing with an unchanged lookahead. -/
def lolcodeLoop : Nat → PState → PRes PState
  | 0, _ => .out
  | n + 1, s =>
    (skip_ws n s).bind fun s1 =>
    match s1.look with
    | .hash =>
      (skip_ws n (advance s1)).bind fun s3 =>
      (match s3.look with
       | .kw .kthxbye => .ok (advance s3)
       | .kw .obtw => (parse_comment n s3).bind fun s6 => lolcodeLoop n s6
       | .kw .maek =>
         (skip_ws n (advance s3)).bind fun s5 =>
         (match s5.look with
          | .kw .head => (parse_head n s5).bind fun s6 => lolcodeLoop n s6
          | .kw .paragraf => (parse_paragraph n s5).bind fun s6 => lolcodeLoop n s6
          | .kw .list => (parse_list n s5).bind fun s6 => lolcodeLoop n s6
          | _ => .err (.synErr "HEAD/PARAGRAF/LIST".data s5.look.asLexeme))
       | .kw .gimmeh => (parse_body n s3).bind fun s6 => lolcodeLoop n s6
       | .kw .lemme => (parse_variable_use s3).bind fun s6 => lolcodeLoop n s6
       | .kw .i => (parse_variable_define n s3).bind fun s6 => lolcodeLoop n s6
       | .kw .head => .err (.synErr "Use #MAEK HEAD ... #OIC".data "HEAD".data)
       | _ => .err (.synErr "valid top-level annotation".data s3.look.asLexeme))
    | .text _ => (parse_text n s1).bind fun s6 => lolcodeLoop n s6
    | .word _ => (parse_text n s1).bind fun s6 => lolcodeLoop n s6
    | .eof => .err (.synErr "#KTHXBYE".data "<EOF>".data)
    | _ => lolcodeLoop n s1

/-- Size of the unread input, counting the lookahead as one pending token
when it is not `Eof`.  Every parser step that advances over a non-`Eof`
lookahead strictly decreases this measure. -/
def tokCost : Token → Nat
  | .eof => 0
  | _ => 1

def mu (s : PState) : Nat :=
  s.lex.chars.length + tokCost s.look

/-- The initial parser state built by `Parser::new` (pulls the first token). -/
def initState (input : List Char) : PState :=
  let p := nextToken (CharLexer.new input)
  { lex := p.2, look := p.1, ast := [], stack := [] }

/-- `Parser::parse_lolcode` followed by reading off the final AST
(`parser.ast` as used by `main.rs`).  The fuel `mu s0 + 1` is proved
sufficient below.  On success the root scope is popped into the AST. -/
def parse_lolcode (input : List Char) : PRes (List Node) :=
  let s0 := initState input
  let fuel := mu s0 + 1
  ((expect_hash s0).bind fun s1 =>
   (expect_kw .hai s1).bind fun s2 =>
   (skip_ws fuel { s2 with stack := [] :: s2.stack }).bind fun s3 =>
   lolcodeLoop fuel s3).bind fun sf =>
  match sf.stack with
  | kids :: _ => .ok kids
  | [] => .ok sf.ast

/-! ## Measure lemmas: every token pulled from a nonempty input consumes
at least one character, so `mu` decreases across `advance`. -/

theorem length_dropWhile_le {α : Type} (p : α → Bool) (l : List α) :
    (l.dropWhile p).length ≤ l.length := by
  induction l with
  | nil => simp
  | cons a l ih =>
    rw [List.dropWhile_cons]
    split
    · exact le_trans ih (Nat.le_succ _)
    · simp

theorem nextToken_mu (lx : CharLexer) :
    (nextToken lx).2.chars.length + tokCost (nextToken lx).1 ≤ lx.chars.length := by
  rcases hc : lx.chars with _ | ⟨c, cs⟩
  · simp [nextToken, hc, tokCost]
  · simp only [nextToken, hc]
    split
    · simp [tokCost]
    · split
      · rename_i hws
        simp only [tokCost]
        rw [List.dropWhile_cons_of_pos hws]
        have := length_dropWhile_le isWsChar cs
        simp only [List.length_cons]
        omega
      · split
        · rename_i hnw hw
          have hdrop : ((c :: cs).dropWhile isWordChar).length ≤ cs.length := by
            rw [List.dropWhile_cons_of_pos hw]
            exact length_dropWhile_le isWordChar cs
          split
          · simp only [tokCost, List.length_cons]; omega
          · simp only [tokCost, List.length_cons]; omega
        · split
          · rename_i hp
            simp only [tokCost]
            rw [List.dropWhile_cons_of_pos hp]
            have := length_dropWhile_le isTextPunct cs
            simp only [List.length_cons]
            omega
          · simp [tokCost]

theorem advance_lex_look (s : PState) :
    (advance s).lex = (nextToken s.lex).2 ∧ (advance s).look = (nextToken s.lex).1 := by
  simp [advance]

theorem advance_ast (s : PState) : (advance s).ast = s.ast := by simp [advance]

theorem advance_stack (s : PState) : (advance s).stack = s.stack := by simp [advance]

theorem mu_advance_le (s : PState) : mu (advance s) ≤ mu s := by
  have h := nextToken_mu s.lex
  simp only [mu, advance]
  have : tokCost s.look ≤ tokCost s.look := le_refl _
  calc (nextToken s.lex).2.chars.length + tokCost (nextToken s.lex).1
      ≤ s.lex.chars.length := h
    _ ≤ s.lex.chars.length + tokCost s.look := Nat.le_add_right _ _

theorem mu_advance_lt (s : PState) (h : s.look ≠ .eof) : mu (advance s) < mu s := by
  have hm := nextToken_mu s.lex
  have hc : tokCost s.look = 1 := by
    cases hl : s.look
    case eof => exact absurd hl h
    all_goals rfl
  simp only [mu, advance]
  omega

theorem push_node_lex (n : Node) (s : PState) : (push_node n s).lex = s.lex := by
  simp only [push_node]; split <;> rfl

theorem push_node_look (n : Node) (s : PState) : (push_node n s).look = s.look := by
  simp only [push_node]; split <;> rfl

theorem mu_push_node (n : Node) (s : PState) : mu (push_node n s) = mu s := by
  simp [mu, push_node_lex, push_node_look]

/-! ## Lexer-state invariants.

`LexInv`: whenever the lookahead is a keyword token, the lexer flags are
exactly those set by the branch of `next_token` that emitted it.  This holds
for every state downstream of an `advance` (and for the initial state).

`TopInv`: the lookahead is never a bare keyword token, and when it is a
word/text token the disambiguation flags license no keyword, so the next
pull cannot produce one.  This is the invariant of the `parse_lolcode`
loop that rules out its non-advancing catch-all arm. -/

def LexInv (s : PState) : Prop :=
  ∀ k, s.look = .kw k → s.lex.afterHash = false ∧ s.lex.prevKw = some k

def TopInv (s : PState) : Prop :=
  (∀ k, s.look ≠ .kw k) ∧
  (((∃ w, s.look = .word w) ∨ (∃ t, s.look = .text t)) →
    s.lex.afterHash = false ∧ prevKwExpectsKeyword s.lex.prevKw = false)

theorem lexInv_of_eq {s s' : PState} (hlex : s'.lex = s.lex) (hlook : s'.look = s.look)
    (h : LexInv s) : LexInv s' := by
  intro k hk
  rw [hlex, hlook] at *
  exact h k hk

theorem topInv_of_eq {s s' : PState} (hlex : s'.lex = s.lex) (hlook : s'.look = s.look)
    (h : TopInv s) : TopInv s' := by
  obtain ⟨h1, h2⟩ := h
  constructor
  · intro k; rw [hlook]; exact h1 k
  · rw [hlook, hlex]; exact h2

theorem lexInv_advance (s : PState) : LexInv (advance s) := by
  intro k hk
  simp only [advance] at hk ⊢
  rcases hc : s.lex.chars with _ | ⟨c, cs⟩
  · simp only [nextToken, hc] at hk; cases hk
  · simp only [nextToken, hc] at hk ⊢
    split at hk
    · cases hk
    · split at hk
      · cases hk
      · split at hk
        · split at hk
          · rename_i k' hks
            simp only [Token.kw.injEq] at hk
            subst hk
            simp_all
          · cases hk
        · split at hk
          · cases hk
          · cases hk

theorem lexInv_initState (input : List Char) : LexInv (initState input) := by
  intro k hk
  simp only [initState] at hk ⊢
  rcases hc : (CharLexer.new input).chars with _ | ⟨c, cs⟩
  · simp only [nextToken, hc] at hk; cases hk
  · simp only [nextToken, hc] at hk ⊢
    split at hk
    · cases hk
    · split at hk
      · cases hk
      · split at hk
        · split at hk
          · rename_i k' hks
            simp only [Token.kw.injEq] at hk
            subst hk
            simp_all
          · cases hk
        · split at hk
          · cases hk
          · cases hk

/-- With `after_hash` clear and a non-triggering previous keyword,
`next_token` never emits a `Kw` token, and the successor flags are again
safe unless the emitted token is a `Hash`. -/
theorem nextToken_flags (lx : CharLexer) (h1 : lx.afterHash = false)
    (h2 : prevKwExpectsKeyword lx.prevKw = false) :
    (∀ k, (nextToken lx).1 ≠ .kw k) ∧
    ((nextToken lx).2.afterHash = false ∧
      prevKwExpectsKeyword (nextToken lx).2.prevKw = false ∨
     (nextToken lx).1 = .hash) := by
  rcases hc : lx.chars with _ | ⟨c, cs⟩
  · refine ⟨by simp [nextToken, hc], Or.inl ?_⟩
    simp [nextToken, hc, h1, h2]
  · simp only [nextToken, hc]
    split
    · exact ⟨by simp, Or.inr rfl⟩
    · split
      · exact ⟨by simp, Or.inl ⟨h1, h2⟩⟩
      · split
        · simp only [h1, h2, Bool.or_self, Bool.false_eq_true, if_false]
          refine ⟨by simp, Or.inl ⟨?_, ?_⟩⟩ <;> simp [prevKwExpectsKeyword]
        · split
          · exact ⟨by simp, Or.inl ⟨h1, h2⟩⟩
          · exact ⟨by simp, Or.inl ⟨h1, h2⟩⟩

/-- Core of the keyword-as-prose property: with `after_hash` clear and a
non-triggering previous keyword, `next_token` never emits a `Kw` token. -/
theorem nextToken_no_kw (lx : CharLexer) (h1 : lx.afterHash = false)
    (h2 : prevKwExpectsKeyword lx.prevKw = false) :
    ∀ k, (nextToken lx).1 ≠ .kw k :=
  (nextToken_flags lx h1 h2).1

/-- With safe flags, the state after one `advance` satisfies `TopInv`. -/
theorem advance_topInv (s : PState) (h1 : s.lex.afterHash = false)
    (h2 : prevKwExpectsKeyword s.lex.prevKw = false) : TopInv (advance s) := by
  obtain ⟨hk, hrest⟩ := nextToken_flags s.lex h1 h2
  constructor
  · intro k hkk
    exact hk k (by simpa [advance] using hkk)
  · intro hwt
    rcases hrest with hsafe | hhash
    · simpa [advance] using hsafe
    · exfalso
      have hlook : (advance s).look = .hash := by simp [advance, hhash]
      rcases hwt with ⟨w, hw⟩ | ⟨t, ht⟩
      · rw [hlook] at hw; cases hw
      · rw [hlook] at ht; cases ht

/-- Advancing over a non-triggering keyword lookahead lands in `TopInv`. -/
theorem closer_topInv (s : PState) (k : Kw) (hk : s.look = .kw k)
    (hnt : prevKwExpectsKeyword (some k) = false) (hinv : LexInv s) :
    TopInv (advance s) := by
  obtain ⟨hah, hpv⟩ := hinv k hk
  exact advance_topInv s hah (by rw [hpv]; exact hnt)

/-! ## `expect_kw` / `expect_hash` inversions and evaluations. -/

theorem expect_kw_ok {k : Kw} {s s' : PState} (h : expect_kw k s = .ok s') :
    s.look = .kw k ∧ s' = advance s := by
  unfold expect_kw at h
  rcases hl : s.look with _ | w | t | k' | _ <;> rw [hl] at h
  case kw =>
    by_cases hk : k' = k
    · subst hk; simp only [if_true, PRes.ok.injEq] at h; exact ⟨rfl, h.symm⟩
    · simp [hk] at h
  all_goals cases h

theorem expect_kw_eval {k : Kw} {s : PState} (h : s.look = .kw k) :
    expect_kw k s = .ok (advance s) := by
  unfold expect_kw
  rw [h]
  simp

theorem expect_kw_not_out (k : Kw) (s : PState) : expect_kw k s ≠ .out := by
  unfold expect_kw
  rcases s.look with _ | w | t | k' | _ <;> simp
  split <;> simp

theorem expect_hash_ok {s s' : PState} (h : expect_hash s = .ok s') :
    s.look = .hash ∧ s' = advance s := by
  unfold expect_hash at h
  rcases hl : s.look with _ | w | t | k' | _ <;> rw [hl] at h
  case hash => simp only [PRes.ok.injEq] at h; exact ⟨rfl, h.symm⟩
  all_goals cases h

theorem expect_hash_eval {s : PState} (h : s.look = .hash) :
    expect_hash s = .ok (advance s) := by
  unfold expect_hash
  rw [h]

theorem expect_hash_not_out (s : PState) : expect_hash s ≠ .out := by
  unfold expect_hash
  rcases s.look with _ | w | t | k' | _ <;> simp

/-! ## `skip_ws`: totality given fuel, measure monotonicity, fuel
irrelevance, invariant preservation, and evaluation rules. -/

theorem skip_ws_mu : ∀ n {s s' : PState}, skip_ws n s = .ok s' → mu s' ≤ mu s := by
  intro n
  induction n with
  | zero => intro s s' h; cases h
  | succ n ih =>
    intro s s' h
    rcases hl : s.look with _ | w | t | k | _ <;> simp only [skip_ws, hl] at h
    case text =>
      split at h
      · have hrec := ih h
        have hlt : mu (advance s) < mu s := mu_advance_lt s (by rw [hl]; simp)
        omega
      · cases h; exact le_refl _
    all_goals cases h; exact le_refl _

theorem skip_ws_total : ∀ n s, mu s < n → ∃ s', skip_ws n s = .ok s' := by
  intro n
  induction n with
  | zero => intro s h; omega
  | succ n ih =>
    intro s h
    rcases hl : s.look with _ | w | t | k | _
    case text =>
      by_cases he : (trimChars t).isEmpty
      · have hlt : mu (advance s) < mu s := mu_advance_lt s (by rw [hl]; simp)
        obtain ⟨s', hs'⟩ := ih (advance s) (by omega)
        refine ⟨s', ?_⟩
        simp only [skip_ws, hl, he, if_true]
        exact hs'
      · refine ⟨s, ?_⟩
        simp only [skip_ws, hl]
        rw [if_neg (by simpa using he)]
    all_goals exact ⟨s, by simp only [skip_ws, hl]⟩

theorem skip_ws_fuel : ∀ n m s, mu s < n → mu s < m → skip_ws n s = skip_ws m s := by
  intro n
  induction n with
  | zero => intro m s h; omega
  | succ n ih =>
    intro m s h hm
    rcases m with _ | m
    · omega
    · rcases hl : s.look with _ | w | t | k | _ <;> simp only [skip_ws, hl]
      case text =>
        split
        · have hlt : mu (advance s) < mu s := mu_advance_lt s (by rw [hl]; simp)
          exact ih m (advance s) (by omega) (by omega)
        · rfl

theorem skip_ws_lexInv : ∀ n {s s' : PState}, skip_ws n s = .ok s' → LexInv s → LexInv s' := by
  intro n
  induction n with
  | zero => intro s s' h; cases h
  | succ n ih =>
    intro s s' h hs
    rcases hl : s.look with _ | w | t | k | _ <;> simp only [skip_ws, hl] at h
    case text =>
      split at h
      · exact ih h (lexInv_advance s)
      · cases h; exact hs
    all_goals cases h; exact hs

theorem skip_ws_topInv : ∀ n {s s' : PState}, skip_ws n s = .ok s' → TopInv s → TopInv s' := by
  intro n
  induction n with
  | zero => intro s s' h; cases h
  | succ n ih =>
    intro s s' h hs
    rcases hl : s.look with _ | w | t | k | _ <;> simp only [skip_ws, hl] at h
    case text =>
      split at h
      · refine ih h ?_
        have hfl := hs.2 (Or.inr ⟨t, hl⟩)
        exact advance_topInv s hfl.1 hfl.2
      · cases h; exact hs
    all_goals cases h; exact hs

/-- `skip_ws` is the identity whenever the lookahead is not a text token. -/
theorem skip_ws_nontext {n : Nat} {s : PState} (hn : 0 < n)
    (h : ∀ t, s.look ≠ .text t) : skip_ws n s = .ok s := by
  rcases n with _ | n
  · omega
  · rcases hl : s.look with _ | w | t | k | _ <;> simp only [skip_ws, hl]
    case text => exact absurd hl (h t)

/-- One whitespace-skipping step. -/
theorem skip_ws_step {n : Nat} {s : PState} {t : List Char} (hl : s.look = .text t)
    (he : (trimChars t).isEmpty) (hn : 0 < n) :
    skip_ws n s = skip_ws (n - 1) (advance s) := by
  rcases n with _ | n
  · omega
  · simp only [skip_ws, hl, he, if_true, Nat.add_sub_cancel]

theorem skip_ws_ast : ∀ n {s s' : PState}, skip_ws n s = .ok s' →
    s'.ast = s.ast ∧ s'.stack = s.stack := by
  intro n
  induction n with
  | zero => intro s s' h; cases h
  | succ n ih =>
    intro s s' h
    rcases hl : s.look with _ | w | t | k | _ <;> simp only [skip_ws, hl] at h
    case text =>
      split at h
      · have hrec := ih h
        simpa [advance_ast, advance_stack] using hrec
      · cases h; exact ⟨rfl, rfl⟩
    all_goals cases h; exact ⟨rfl, rfl⟩

/-! ## The text-accumulation loops. -/

theorem readTextLoop_mu : ∀ n {s : PState} {t : List Char} {s' : PState},
    readTextLoop n s = .ok (t, s') → mu s' ≤ mu s := by
  intro n
  induction n with
  | zero => intro s t s' h; cases h
  | succ n ih =>
    intro s t s' h
    rcases hl : s.look with _ | w | tt | k | _ <;> simp only [readTextLoop, hl] at h
    case word =>
      cases hres : readTextLoop n (advance s) with
      | ok a =>
        rw [hres] at h; cases h
        have hrec := ih hres
        have hlt : mu (advance s) < mu s := mu_advance_lt s (by rw [hl]; simp)
        omega
      | err e => rw [hres] at h; cases h
      | out => rw [hres] at h; cases h
    case text =>
      cases hres : readTextLoop n (advance s) with
      | ok a =>
        rw [hres] at h; cases h
        have hrec := ih hres
        have hlt : mu (advance s) < mu s := mu_advance_lt s (by rw [hl]; simp)
        omega
      | err e => rw [hres] at h; cases h
      | out => rw [hres] at h; cases h
    all_goals cases h; exact le_refl _

theorem readTextLoop_total : ∀ n s, mu s < n →
    ∃ t s', readTextLoop n s = .ok (t, s') := by
  intro n
  induction n with
  | zero => intro s h; omega
  | succ n ih =>
    intro s h
    rcases hl : s.look with _ | w | tt | k | _
    case word =>
      have hlt : mu (advance s) < mu s := mu_advance_lt s (by rw [hl]; simp)
      obtain ⟨t2, s2, hs2⟩ := ih (advance s) (by omega)
      exact ⟨w ++ t2, s2, by simp only [readTextLoop, hl, hs2, PRes.bind]⟩
    case text =>
      have hlt : mu (advance s) < mu s := mu_advance_lt s (by rw [hl]; simp)
      obtain ⟨t2, s2, hs2⟩ := ih (advance s) (by omega)
      exact ⟨tt ++ t2, s2, by simp only [readTextLoop, hl, hs2, PRes.bind]⟩
    all_goals exact ⟨[], s, by simp only [readTextLoop, hl]⟩

theorem readTextLoop_fuel : ∀ n m s, mu s < n → mu s < m →
    readTextLoop n s = readTextLoop m s := by
  intro n
  induction n with
  | zero => intro m s h; omega
  | succ n ih =>
    intro m s h hm
    rcases m with _ | m
    · omega
    · rcases hl : s.look with _ | w | tt | k | _ <;> simp only [readTextLoop, hl]
      case word =>
        have hlt : mu (advance s) < mu s := mu_advance_lt s (by rw [hl]; simp)
        rw [ih m (advance s) (by omega) (by omega)]
      case text =>
        have hlt : mu (advance s) < mu s := mu_advance_lt s (by rw [hl]; simp)
        rw [ih m (advance s) (by omega) (by omega)]

theorem readTextLoop_ast : ∀ n {s : PState} {t : List Char} {s' : PState},
    readTextLoop n s = .ok (t, s') → s'.ast = s.ast ∧ s'.stack = s.stack := by
  intro n
  induction n with
  | zero => intro s t s' h; cases h
  | succ n ih =>
    intro s t s' h
    rcases hl : s.look with _ | w | tt | k | _ <;> simp only [readTextLoop, hl] at h
    case word =>
      cases hres : readTextLoop n (advance s) with
      | ok a =>
        rw [hres] at h; cases h
        have hrec := ih hres
        simpa [advance_ast, advance_stack] using hrec
      | err e => rw [hres] at h; cases h
      | out => rw [hres] at h; cases h
    case text =>
      cases hres : readTextLoop n (advance s) with
      | ok a =>
        rw [hres] at h; cases h
        have hrec := ih hres
        simpa [advance_ast, advance_stack] using hrec
      | err e => rw [hres] at h; cases h
      | out => rw [hres] at h; cases h
    all_goals cases h; exact ⟨rfl, rfl⟩

theorem read_text_until_hash_mu {n : Nat} {s : PState} {t : List Char} {s' : PState}
    (h : read_text_until_hash n s = .ok (t, s')) : mu s' ≤ mu s := by
  unfold read_text_until_hash at h
  cases hres : readTextLoop n s with
  | ok a =>
    rw [hres] at h
    cases h
    exact readTextLoop_mu n hres
  | err e => rw [hres] at h; cases h
  | out => rw [hres] at h; cases h

theorem read_text_until_hash_total {n : Nat} {s : PState} (h : mu s < n) :
    ∃ t s', read_text_until_hash n s = .ok (t, s') := by
  obtain ⟨t, s', hs'⟩ := readTextLoop_total n s h
  exact ⟨trimChars t, s', by unfold read_text_until_hash; rw [hs']; rfl⟩

theorem read_text_until_hash_fuel {n m : Nat} {s : PState} (h : mu s < n) (hm : mu s < m) :
    read_text_until_hash n s = read_text_until_hash m s := by
  unfold read_text_until_hash
  rw [readTextLoop_fuel n m s h hm]

theorem read_text_until_hash_ast {n : Nat} {s : PState} {t : List Char} {s' : PState}
    (h : read_text_until_hash n s = .ok (t, s')) : s'.ast = s.ast ∧ s'.stack = s.stack := by
  unfold read_text_until_hash at h
  cases hres : readTextLoop n s with
  | ok a =>
    rw [hres] at h
    cases h
    exact readTextLoop_ast n hres
  | err e => rw [hres] at h; cases h
  | out => rw [hres] at h; cases h

/-- `parseTextLoop` and `readTextLoop` have identical bodies (the source
loops differ only in what is done with the accumulated string). -/
theorem parseTextLoop_eq : ∀ n s, parseTextLoop n s = readTextLoop n s := by
  intro n
  induction n with
  | zero => intro s; rfl
  | succ n ih =>
    intro s
    rcases hl : s.look with _ | w | tt | k | _ <;>
      simp only [parseTextLoop, readTextLoop, hl, ih]

theorem readTextLoop_topInv : ∀ n {s : PState} {t : List Char} {s' : PState},
    readTextLoop n s = .ok (t, s') → TopInv s → TopInv s' := by
  intro n
  induction n with
  | zero => intro s t s' h; cases h
  | succ n ih =>
    intro s t s' h hs
    rcases hl : s.look with _ | w | tt | k | _ <;> simp only [readTextLoop, hl] at h
    case word =>
      cases hres : readTextLoop n (advance s) with
      | ok a =>
        rw [hres] at h; cases h
        have hfl := hs.2 (Or.inl ⟨w, hl⟩)
        exact ih hres (advance_topInv s hfl.1 hfl.2)
      | err e => rw [hres] at h; cases h
      | out => rw [hres] at h; cases h
    case text =>
      cases hres : readTextLoop n (advance s) with
      | ok a =>
        rw [hres] at h; cases h
        have hfl := hs.2 (Or.inr ⟨tt, hl⟩)
        exact ih hres (advance_topInv s hfl.1 hfl.2)
      | err e => rw [hres] at h; cases h
      | out => rw [hres] at h; cases h
    all_goals cases h; exact hs

theorem readTextLoop_mu_strict {n : Nat} {s : PState} {t : List Char} {s' : PState}
    (h : readTextLoop n s = .ok (t, s'))
    (hl : (∃ w, s.look = .word w) ∨ (∃ tt, s.look = .text tt)) : mu s' < mu s := by
  rcases n with _ | n
  · cases h
  · rcases hl with ⟨w, hw⟩ | ⟨tt, ht⟩
    · simp only [readTextLoop, hw] at h
      cases hres : readTextLoop n (advance s) with
      | ok a =>
        rw [hres] at h; cases h
        have hrec := readTextLoop_mu n hres
        have hlt : mu (advance s) < mu s := mu_advance_lt s (by rw [hw]; simp)
        omega
      | err e => rw [hres] at h; cases h
      | out => rw [hres] at h; cases h
    · simp only [readTextLoop, ht] at h
      cases hres : readTextLoop n (advance s) with
      | ok a =>
        rw [hres] at h; cases h
        have hrec := readTextLoop_mu n hres
        have hlt : mu (advance s) < mu s := mu_advance_lt s (by rw [ht]; simp)
        omega
      | err e => rw [hres] at h; cases h
      | out => rw [hres] at h; cases h

/-! ## `parse_text`: lifted lemmas. -/

theorem parse_text_mu {n : Nat} {s s' : PState} (h : parse_text n s = .ok s') :
    mu s' ≤ mu s := by
  unfold parse_text at h
  rw [parseTextLoop_eq] at h
  cases hres : readTextLoop n s with
  | ok a =>
    rw [hres] at h
    simp only [PRes.bind] at h
    split at h <;> cases h
    · exact readTextLoop_mu n hres
    · rw [mu_push_node]; exact readTextLoop_mu n hres
  | err e => rw [hres] at h; cases h
  | out => rw [hres] at h; cases h

theorem parse_text_total {n : Nat} {s : PState} (h : mu s < n) :
    ∃ s', parse_text n s = .ok s' := by
  obtain ⟨t, s2, hs2⟩ := readTextLoop_total n s h
  unfold parse_text
  rw [parseTextLoop_eq, hs2]
  simp only [PRes.bind]
  split
  · exact ⟨s2, rfl⟩
  · exact ⟨push_node (.text t) s2, rfl⟩

theorem parse_text_fuel {n m : Nat} {s : PState} (h : mu s < n) (hm : mu s < m) :
    parse_text n s = parse_text m s := by
  unfold parse_text
  rw [parseTextLoop_eq, parseTextLoop_eq, readTextLoop_fuel n m s h hm]

theorem parse_text_topInv {n : Nat} {s s' : PState} (h : parse_text n s = .ok s')
    (hs : TopInv s) : TopInv s' := by
  unfold parse_text at h
  rw [parseTextLoop_eq] at h
  cases hres : readTextLoop n s with
  | ok a =>
    rw [hres] at h
    simp only [PRes.bind] at h
    have hinv := readTextLoop_topInv n hres hs
    split at h <;> cases h
    · exact hinv
    · exact topInv_of_eq (push_node_lex _ _) (push_node_look _ _) hinv
  | err e => rw [hres] at h; cases h
  | out => rw [hres] at h; cases h

theorem parse_text_mu_strict {n : Nat} {s s' : PState} (h : parse_text n s = .ok s')
    (hl : (∃ w, s.look = .word w) ∨ (∃ tt, s.look = .text tt)) : mu s' < mu s := by
  unfold parse_text at h
  rw [parseTextLoop_eq] at h
  cases hres : readTextLoop n s with
  | ok a =>
    rw [hres] at h
    simp only [PRes.bind] at h
    have hstrict := readTextLoop_mu_strict hres hl
    split at h <;> cases h
    · exact hstrict
    · rw [mu_push_node]; exact hstrict
  | err e => rw [hres] at h; cases h
  | out => rw [hres] at h; cases h

/-! ## Document-part tracking: the `(ast, stack)` component of the state,
and how parser operations extend the innermost open scope. -/

def doc (s : PState) : List Node × List (List Node) :=
  (s.ast, s.stack)

def docAppend (new : List Node) (d : List Node × List (List Node)) :
    List Node × List (List Node) :=
  match d.2 with
  | [] => (d.1 ++ new, [])
  | top :: rest => (d.1, (top ++ new) :: rest)

theorem docAppend_nil (d : List Node × List (List Node)) : docAppend [] d = d := by
  rcases d with ⟨a, _ | ⟨top, rest⟩⟩ <;> simp [docAppend]

theorem docAppend_append (n1 n2 : List Node) (d : List Node × List (List Node)) :
    docAppend n2 (docAppend n1 d) = docAppend (n1 ++ n2) d := by
  rcases d with ⟨a, _ | ⟨top, rest⟩⟩ <;> simp [docAppend]

theorem doc_push_node (nd : Node) (s : PState) :
    doc (push_node nd s) = docAppend [nd] (doc s) := by
  rcases hs : s.stack with _ | ⟨top, rest⟩ <;>
    simp [doc, push_node, docAppend, hs]

theorem doc_advance (s : PState) : doc (advance s) = doc s := by
  simp [doc, advance]

/-- `s'` extends `s` by appending, at the innermost open scope, a batch of
nodes all satisfying `P`. -/
def DocExt (P : Node → Prop) (s s' : PState) : Prop :=
  ∃ new, (∀ x ∈ new, P x) ∧ doc s' = docAppend new (doc s)

theorem docExt_refl (P : Node → Prop) {s s' : PState} (h : doc s' = doc s) :
    DocExt P s s' :=
  ⟨[], by simp, by rw [docAppend_nil]; exact h⟩

theorem docExt_push (P : Node → Prop) {nd : Node} (hnd : P nd) (s : PState) :
    DocExt P s (push_node nd s) :=
  ⟨[nd], by simpa using hnd, doc_push_node nd s⟩

theorem docExt_trans {P : Node → Prop} {s s' s'' : PState}
    (h1 : DocExt P s s') (h2 : DocExt P s' s'') : DocExt P s s'' := by
  obtain ⟨n1, hp1, hd1⟩ := h1
  obtain ⟨n2, hp2, hd2⟩ := h2
  refine ⟨n1 ++ n2, ?_, ?_⟩
  · intro x hx
    rcases List.mem_append.mp hx with hx | hx
    · exact hp1 x hx
    · exact hp2 x hx
  · rw [hd2, hd1, docAppend_append]

theorem docExt_mono {P Q : Node → Prop} (h : ∀ x, P x → Q x) {s s' : PState}
    (hd : DocExt P s s') : DocExt Q s s' := by
  obtain ⟨new, hp, hdoc⟩ := hd
  exact ⟨new, fun x hx => h x (hp x hx), hdoc⟩

/-! ## `parse_comment` and its loop. -/

theorem commentLoop_mu : ∀ n {s : PState} {t : List Char} {s' : PState},
    commentLoop n s = .ok (t, s') → mu s' ≤ mu s := by
  intro n
  induction n with
  | zero => intro s t s' h; cases h
  | succ n ih =>
    intro s t s' h
    rcases hl : s.look with _ | w | tt | k | _ <;> simp only [commentLoop, hl] at h
    case hash =>
      cases hws : skip_ws n (advance s) with
      | ok s1 =>
        rw [hws] at h
        simp only [PRes.bind] at h
        cases hek : expect_kw .tldr s1 with
        | ok s2 =>
          rw [hek] at h
          simp only [PRes.bind] at h
          cases h
          obtain ⟨-, hs2⟩ := expect_kw_ok hek
          subst hs2
          have h1 := mu_advance_le s1
          have h2 := skip_ws_mu n hws
          have h3 := mu_advance_le s
          omega
        | err e => rw [hek] at h; cases h
        | out => rw [hek] at h; cases h
      | err e => rw [hws] at h; cases h
      | out => rw [hws] at h; cases h
    case word =>
      cases hres : commentLoop n (advance s) with
      | ok a =>
        rw [hres] at h; cases h
        have hrec := ih hres
        have hlt : mu (advance s) < mu s := mu_advance_lt s (by rw [hl]; simp)
        omega
      | err e => rw [hres] at h; cases h
      | out => rw [hres] at h; cases h
    case text =>
      cases hres : commentLoop n (advance s) with
      | ok a =>
        rw [hres] at h; cases h
        have hrec := ih hres
        have hlt : mu (advance s) < mu s := mu_advance_lt s (by rw [hl]; simp)
        omega
      | err e => rw [hres] at h; cases h
      | out => rw [hres] at h; cases h
    case kw =>
      have hrec := ih h
      have hlt : mu (advance s) < mu s := mu_advance_lt s (by rw [hl]; simp)
      omega
    case eof => cases h

/-! ## Result-monad inversion helpers. -/

theorem bind_ok {α β : Type} {r : PRes α} {f : α → PRes β} {b : β}
    (h : r.bind f = .ok b) : ∃ a, r = .ok a ∧ f a = .ok b := by
  cases r with
  | ok a => exact ⟨a, rfl, h⟩
  | err e => cases h
  | out => cases h

theorem bind_not_out {α β : Type} {r : PRes α} {f : α → PRes β}
    (h1 : r ≠ .out) (h2 : ∀ a, r = .ok a → f a ≠ .out) : r.bind f ≠ .out := by
  cases r with
  | ok a => exact h2 a rfl
  | err e => simp [PRes.bind]
  | out => exact absurd rfl h1

theorem bind_congr' {α β : Type} {r r' : PRes α} {f g : α → PRes β}
    (h1 : r = r') (h2 : ∀ a, r = .ok a → f a = g a) : r.bind f = r'.bind g := by
  subst h1
  cases hr : r with
  | ok a => simp only [PRes.bind]; exact h2 a hr
  | err e => rfl
  | out => rfl

theorem commentLoop_total : ∀ n s, mu s < n → commentLoop n s ≠ .out := by
  intro n
  induction n with
  | zero => intro s h; omega
  | succ n ih =>
    intro s h
    rcases hl : s.look with _ | w | tt | k | _ <;> simp only [commentLoop, hl]
    case hash =>
      have hadv : mu (advance s) < mu s := mu_advance_lt s (by rw [hl]; simp)
      obtain ⟨s1, hs1⟩ := skip_ws_total n (advance s) (by omega)
      refine bind_not_out (by rw [hs1]; simp) ?_
      intro a ha
      refine bind_not_out (expect_kw_not_out _ _) ?_
      intro a2 _
      simp
    case word =>
      have hadv : mu (advance s) < mu s := mu_advance_lt s (by rw [hl]; simp)
      refine bind_not_out (ih (advance s) (by omega)) ?_
      intro a _
      simp
    case text =>
      have hadv : mu (advance s) < mu s := mu_advance_lt s (by rw [hl]; simp)
      refine bind_not_out (ih (advance s) (by omega)) ?_
      intro a _
      simp
    case kw =>
      have hadv : mu (advance s) < mu s := mu_advance_lt s (by rw [hl]; simp)
      exact ih (advance s) (by omega)
    case eof => simp

theorem commentLoop_fuel : ∀ n m s, mu s < n → mu s < m →
    commentLoop n s = commentLoop m s := by
  intro n
  induction n with
  | zero => intro m s h; omega
  | succ n ih =>
    intro m s h hm
    rcases m with _ | m
    · omega
    · rcases hl : s.look with _ | w | tt | k | _ <;> simp only [commentLoop, hl]
      case hash =>
        have hadv : mu (advance s) < mu s := mu_advance_lt s (by rw [hl]; simp)
        refine bind_congr' (skip_ws_fuel n m (advance s) (by omega) (by omega)) ?_
        intro a _
        rfl
      case word =>
        have hadv : mu (advance s) < mu s := mu_advance_lt s (by rw [hl]; simp)
        rw [ih m (advance s) (by omega) (by omega)]
      case text =>
        have hadv : mu (advance s) < mu s := mu_advance_lt s (by rw [hl]; simp)
        rw [ih m (advance s) (by omega) (by omega)]
      case kw =>
        have hadv : mu (advance s) < mu s := mu_advance_lt s (by rw [hl]; simp)
        exact ih m (advance s) (by omega) (by omega)

theorem commentLoop_topInv : ∀ n {s : PState} {t : List Char} {s' : PState},
    commentLoop n s = .ok (t, s') → TopInv s' := by
  intro n
  induction n with
  | zero => intro s t s' h; cases h
  | succ n ih =>
    intro s t s' h
    rcases hl : s.look with _ | w | tt | k | _ <;> simp only [commentLoop, hl] at h
    case hash =>
      obtain ⟨s1, hs1, h⟩ := bind_ok h
      obtain ⟨s2, hs2, h⟩ := bind_ok h
      cases h
      obtain ⟨hlook, hs2'⟩ := expect_kw_ok hs2
      subst hs2'
      exact closer_topInv s1 .tldr hlook rfl
        (skip_ws_lexInv n hs1 (lexInv_advance s))
    case word =>
      obtain ⟨a, hres, h⟩ := bind_ok h
      cases h
      exact ih hres
    case text =>
      obtain ⟨a, hres, h⟩ := bind_ok h
      cases h
      exact ih hres
    case kw => exact ih h
    case eof => cases h

theorem commentLoop_doc : ∀ n {s : PState} {t : List Char} {s' : PState},
    commentLoop n s = .ok (t, s') → doc s' = doc s := by
  intro n
  induction n with
  | zero => intro s t s' h; cases h
  | succ n ih =>
    intro s t s' h
    rcases hl : s.look with _ | w | tt | k | _ <;> simp only [commentLoop, hl] at h
    case hash =>
      obtain ⟨s1, hs1, h⟩ := bind_ok h
      obtain ⟨s2, hs2, h⟩ := bind_ok h
      cases h
      obtain ⟨-, hs2'⟩ := expect_kw_ok hs2
      subst hs2'
      obtain ⟨ha, hs⟩ := skip_ws_ast n hs1
      calc doc (advance s1) = doc s1 := doc_advance s1
        _ = doc (advance s) := by simp [doc, ha, hs]
        _ = doc s := doc_advance s
    case word =>
      obtain ⟨a, hres, h⟩ := bind_ok h
      cases h
      rw [ih hres, doc_advance]
    case text =>
      obtain ⟨a, hres, h⟩ := bind_ok h
      cases h
      rw [ih hres, doc_advance]
    case kw => rw [ih h, doc_advance]
    case eof => cases h

theorem parse_comment_mu {n : Nat} {s s' : PState} (h : parse_comment n s = .ok s') :
    mu s' ≤ mu s := by
  unfold parse_comment at h
  obtain ⟨s1, hs1, h⟩ := bind_ok h
  obtain ⟨p, hp, h⟩ := bind_ok h
  cases h
  obtain ⟨-, hs1'⟩ := expect_kw_ok hs1
  subst hs1'
  have h1 := commentLoop_mu n hp
  have h2 := mu_advance_le s
  rw [mu_push_node]
  omega

theorem parse_comment_total {n : Nat} {s : PState} (h : mu s < n) :
    parse_comment n s ≠ .out := by
  unfold parse_comment
  refine bind_not_out (expect_kw_not_out _ _) ?_
  intro s1 hs1
  obtain ⟨hlook, hs1'⟩ := expect_kw_ok hs1
  subst hs1'
  have hadv : mu (advance s) ≤ mu s := mu_advance_le s
  refine bind_not_out (commentLoop_total n (advance s) (by omega)) ?_
  intro a _
  simp

theorem parse_comment_fuel {n m : Nat} {s : PState} (h : mu s < n) (hm : mu s < m) :
    parse_comment n s = parse_comment m s := by
  unfold parse_comment
  refine bind_congr' rfl ?_
  intro s1 hs1
  obtain ⟨hlook, hs1'⟩ := expect_kw_ok hs1
  subst hs1'
  have hadv : mu (advance s) ≤ mu s := mu_advance_le s
  refine bind_congr' (commentLoop_fuel n m (advance s) (by omega) (by omega)) ?_
  intro a _
  rfl

theorem parse_comment_topInv {n : Nat} {s s' : PState} (h : parse_comment n s = .ok s') :
    TopInv s' := by
  unfold parse_comment at h
  obtain ⟨s1, hs1, h⟩ := bind_ok h
  obtain ⟨p, hp, h⟩ := bind_ok h
  cases h
  exact topInv_of_eq (push_node_lex _ _) (push_node_look _ _) (commentLoop_topInv n hp)

theorem parse_comment_doc {n : Nat} {s s' : PState} (h : parse_comment n s = .ok s') :
    DocExt (fun nd => ∃ t, nd = .comment t) s s' := by
  unfold parse_comment at h
  obtain ⟨s1, hs1, h⟩ := bind_ok h
  obtain ⟨p, hp, h⟩ := bind_ok h
  cases h
  obtain ⟨-, hs1'⟩ := expect_kw_ok hs1
  subst hs1'
  refine ⟨[.comment (trimChars p.1)], by simp, ?_⟩
  rw [doc_push_node, commentLoop_doc n hp, doc_advance]

/-! ## The leaf rules `KEYWORD <text-until-hash> #MKAY` share one body. -/

def leafBody (k : Kw) (f : List Char → Node) (n : Nat) (s : PState) : PRes PState :=
  (expect_kw k s).bind fun s1 =>
  (read_text_until_hash n s1).bind fun p =>
  (expect_hash p.2).bind fun s2 =>
  (expect_kw .mkay s2).bind fun s3 =>
  .ok (push_node (f p.1) s3)

theorem parse_title_eq (n : Nat) (s : PState) :
    parse_title n s = leafBody .title Node.title n s := rfl

theorem parse_bold_eq (n : Nat) (s : PState) :
    parse_bold n s = leafBody .bold Node.bold n s := rfl

theorem parse_italics_eq (n : Nat) (s : PState) :
    parse_italics n s = leafBody .italics Node.italics n s := rfl

theorem parse_audio_eq (n : Nat) (s : PState) :
    parse_audio n s = leafBody .soundz Node.audio n s := rfl

theorem parse_video_eq (n : Nat) (s : PState) :
    parse_video n s = leafBody .vidz Node.video n s := rfl

theorem parse_list_items_eq (n : Nat) (s : PState) :
    parse_list_items n s = leafBody .item (fun t => .listItem [.text t]) n s := rfl

theorem leafBody_mu {k : Kw} {f : List Char → Node} {n : Nat} {s s' : PState}
    (h : leafBody k f n s = .ok s') : mu s' ≤ mu s := by
  unfold leafBody at h
  obtain ⟨s1, hs1, h⟩ := bind_ok h
  obtain ⟨p, hp, h⟩ := bind_ok h
  obtain ⟨s2, hs2, h⟩ := bind_ok h
  obtain ⟨s3, hs3, h⟩ := bind_ok h
  cases h
  obtain ⟨-, e1⟩ := expect_kw_ok hs1; subst e1
  obtain ⟨-, e2⟩ := expect_hash_ok hs2; subst e2
  obtain ⟨-, e3⟩ := expect_kw_ok hs3; subst e3
  have h1 := mu_advance_le s
  have h2 := read_text_until_hash_mu hp
  have h3 := mu_advance_le p.2
  have h4 := mu_advance_le (advance p.2)
  rw [mu_push_node]
  omega

theorem leafBody_total {k : Kw} {f : List Char → Node} {n : Nat} {s : PState}
    (h : mu s < n) : leafBody k f n s ≠ .out := by
  unfold leafBody
  refine bind_not_out (expect_kw_not_out _ _) ?_
  intro s1 hs1
  obtain ⟨-, e1⟩ := expect_kw_ok hs1; subst e1
  have h1 := mu_advance_le s
  obtain ⟨t, s2, hts⟩ := @read_text_until_hash_total n (advance s) (by omega)
  refine bind_not_out (by rw [hts]; simp) ?_
  intro p _
  refine bind_not_out (expect_hash_not_out _) ?_
  intro s3 _
  refine bind_not_out (expect_kw_not_out _ _) ?_
  intro s4 _
  simp

theorem leafBody_fuel {k : Kw} {f : List Char → Node} {n m : Nat} {s : PState}
    (h : mu s < n) (hm : mu s < m) : leafBody k f n s = leafBody k f m s := by
  unfold leafBody
  refine bind_congr' rfl ?_
  intro s1 hs1
  obtain ⟨-, e1⟩ := expect_kw_ok hs1; subst e1
  have h1 := mu_advance_le s
  refine bind_congr' (read_text_until_hash_fuel (by omega) (by omega)) ?_
  intro p _
  rfl

theorem leafBody_topInv {k : Kw} {f : List Char → Node} {n : Nat} {s s' : PState}
    (h : leafBody k f n s = .ok s') : TopInv s' := by
  unfold leafBody at h
  obtain ⟨s1, hs1, h⟩ := bind_ok h
  obtain ⟨p, hp, h⟩ := bind_ok h
  obtain ⟨s2, hs2, h⟩ := bind_ok h
  obtain ⟨s3, hs3, h⟩ := bind_ok h
  cases h
  obtain ⟨hlook3, e3⟩ := expect_kw_ok hs3; subst e3
  obtain ⟨-, e2⟩ := expect_hash_ok hs2; subst e2
  refine topInv_of_eq (push_node_lex _ _) (push_node_look _ _) ?_
  exact closer_topInv (advance p.2) .mkay hlook3 rfl (lexInv_advance p.2)

theorem leafBody_doc {k : Kw} {f : List Char → Node} {n : Nat} {s s' : PState}
    (h : leafBody k f n s = .ok s') : DocExt (fun nd => ∃ t, nd = f t) s s' := by
  unfold leafBody at h
  obtain ⟨s1, hs1, h⟩ := bind_ok h
  obtain ⟨p, hp, h⟩ := bind_ok h
  obtain ⟨s2, hs2, h⟩ := bind_ok h
  obtain ⟨s3, hs3, h⟩ := bind_ok h
  cases h
  obtain ⟨-, e1⟩ := expect_kw_ok hs1; subst e1
  obtain ⟨-, e2⟩ := expect_hash_ok hs2; subst e2
  obtain ⟨-, e3⟩ := expect_kw_ok hs3; subst e3
  obtain ⟨ha, hs⟩ := read_text_until_hash_ast hp
  refine ⟨[f p.1], by simp, ?_⟩
  rw [doc_push_node, doc_advance, doc_advance]
  have : doc p.2 = doc (advance s) := by simp [doc, ha, hs]
  rw [this, doc_advance]

/-! ## `parse_newline`, variable rules, and `parse_body`. -/

theorem parse_newline_ok {s s' : PState} (h : parse_newline s = .ok s') :
    s.look = .kw .newline ∧ s' = push_node .newline (advance s) := by
  unfold parse_newline at h
  obtain ⟨s1, hs1, h⟩ := bind_ok h
  cases h
  obtain ⟨hlook, e1⟩ := expect_kw_ok hs1; subst e1
  exact ⟨hlook, rfl⟩

theorem parse_newline_mu {s s' : PState} (h : parse_newline s = .ok s') :
    mu s' ≤ mu s := by
  obtain ⟨-, e⟩ := parse_newline_ok h
  subst e
  rw [mu_push_node]
  exact mu_advance_le s

theorem parse_newline_total (s : PState) : parse_newline s ≠ .out := by
  unfold parse_newline
  refine bind_not_out (expect_kw_not_out _ _) ?_
  intro s1 _
  simp

theorem parse_newline_topInv {s s' : PState} (h : parse_newline s = .ok s')
    (hinv : LexInv s) : TopInv s' := by
  obtain ⟨hlook, e⟩ := parse_newline_ok h
  subst e
  refine topInv_of_eq (push_node_lex _ _) (push_node_look _ _) ?_
  exact closer_topInv s .newline hlook rfl hinv

theorem parse_newline_doc {s s' : PState} (h : parse_newline s = .ok s') :
    DocExt (fun nd => nd = .newline) s s' := by
  obtain ⟨-, e⟩ := parse_newline_ok h
  subst e
  refine ⟨[.newline], by simp, ?_⟩
  rw [doc_push_node, doc_advance]

theorem parseVarName_ok {s : PState} {nm : List Char} {s' : PState}
    (h : parseVarName s = .ok (nm, s')) : s' = advance s := by
  unfold parseVarName at h
  rcases hl : s.look with _ | w | t | k | _ <;> rw [hl] at h <;> cases h <;> rfl

theorem parseVarName_not_out (s : PState) : parseVarName s ≠ .out := by
  unfold parseVarName
  rcases s.look with _ | w | t | k | _ <;> simp

theorem parse_variable_define_mu {n : Nat} {s s' : PState}
    (h : parse_variable_define n s = .ok s') : mu s' ≤ mu s := by
  unfold parse_variable_define at h
  obtain ⟨s1, hs1, h⟩ := bind_ok h
  obtain ⟨s2, hs2, h⟩ := bind_ok h
  obtain ⟨nm, hnm, h⟩ := bind_ok h
  obtain ⟨s3, hs3, h⟩ := bind_ok h
  obtain ⟨s4, hs4, h⟩ := bind_ok h
  obtain ⟨p, hp, h⟩ := bind_ok h
  obtain ⟨s5, hs5, h⟩ := bind_ok h
  obtain ⟨s6, hs6, h⟩ := bind_ok h
  cases h
  obtain ⟨-, e1⟩ := expect_kw_ok hs1; subst e1
  obtain ⟨-, e2⟩ := expect_kw_ok hs2; subst e2
  have env := parseVarName_ok hnm
  obtain ⟨-, e3⟩ := expect_kw_ok hs3; subst e3
  obtain ⟨-, e4⟩ := expect_kw_ok hs4; subst e4
  obtain ⟨-, e5⟩ := expect_hash_ok hs5; subst e5
  obtain ⟨-, e6⟩ := expect_kw_ok hs6; subst e6
  have h1 := mu_advance_le s
  have h2 := mu_advance_le (advance s)
  have h3 := mu_advance_le (advance (advance s))
  have h4 : mu nm.2 ≤ mu (advance (advance s)) := by
    rw [env]; exact mu_advance_le _
  have h5 := mu_advance_le nm.2
  have h6 := mu_advance_le (advance nm.2)
  have h7 := read_text_until_hash_mu hp
  have h8 := mu_advance_le p.2
  have h9 := mu_advance_le (advance p.2)
  rw [mu_push_node]
  omega

theorem parse_variable_define_total {n : Nat} {s : PState} (h : mu s < n) :
    parse_variable_define n s ≠ .out := by
  unfold parse_variable_define
  refine bind_not_out (expect_kw_not_out _ _) ?_
  intro s1 hs1
  obtain ⟨-, e1⟩ := expect_kw_ok hs1; subst e1
  refine bind_not_out (expect_kw_not_out _ _) ?_
  intro s2 hs2
  obtain ⟨-, e2⟩ := expect_kw_ok hs2; subst e2
  refine bind_not_out (parseVarName_not_out _) ?_
  intro nm hnm
  have env := parseVarName_ok hnm
  refine bind_not_out (expect_kw_not_out _ _) ?_
  intro s3 hs3
  obtain ⟨-, e3⟩ := expect_kw_ok hs3; subst e3
  refine bind_not_out (expect_kw_not_out _ _) ?_
  intro s4 hs4
  obtain ⟨-, e4⟩ := expect_kw_ok hs4; subst e4
  have h1 := mu_advance_le s
  have h2 := mu_advance_le (advance s)
  have h3 : mu nm.2 ≤ mu (advance (advance s)) := by
    rw [env]; exact mu_advance_le _
  have h4 := mu_advance_le (advance (advance s))
  have h5 := mu_advance_le nm.2
  have h6 := mu_advance_le (advance nm.2)
  obtain ⟨t, sr, hts⟩ := @read_text_until_hash_total n (advance (advance nm.2)) (by omega)
  refine bind_not_out (by rw [hts]; simp) ?_
  intro p _
  refine bind_not_out (expect_hash_not_out _) ?_
  intro s5 _
  refine bind_not_out (expect_kw_not_out _ _) ?_
  intro s6 _
  simp

theorem parse_variable_define_fuel {n m : Nat} {s : PState} (h : mu s < n) (hm : mu s < m) :
    parse_variable_define n s = parse_variable_define m s := by
  unfold parse_variable_define
  refine bind_congr' rfl ?_
  intro s1 hs1
  obtain ⟨-, e1⟩ := expect_kw_ok hs1; subst e1
  refine bind_congr' rfl ?_
  intro s2 hs2
  obtain ⟨-, e2⟩ := expect_kw_ok hs2; subst e2
  refine bind_congr' rfl ?_
  intro nm hnm
  have env := parseVarName_ok hnm
  refine bind_congr' rfl ?_
  intro s3 hs3
  obtain ⟨-, e3⟩ := expect_kw_ok hs3; subst e3
  refine bind_congr' rfl ?_
  intro s4 hs4
  obtain ⟨-, e4⟩ := expect_kw_ok hs4; subst e4
  have h1 := mu_advance_le s
  have h2 := mu_advance_le (advance s)
  have h3 : mu nm.2 ≤ mu (advance (advance s)) := by
    rw [env]; exact mu_advance_le _
  have h4 := mu_advance_le (advance (advance s))
  have h5 := mu_advance_le nm.2
  have h6 := mu_advance_le (advance nm.2)
  refine bind_congr' (read_text_until_hash_fuel (by omega) (by omega)) ?_
  intro p _
  rfl

theorem parse_variable_define_topInv {n : Nat} {s s' : PState}
    (h : parse_variable_define n s = .ok s') : TopInv s' := by
  unfold parse_variable_define at h
  obtain ⟨s1, hs1, h⟩ := bind_ok h
  obtain ⟨s2, hs2, h⟩ := bind_ok h
  obtain ⟨nm, hnm, h⟩ := bind_ok h
  obtain ⟨s3, hs3, h⟩ := bind_ok h
  obtain ⟨s4, hs4, h⟩ := bind_ok h
  obtain ⟨p, hp, h⟩ := bind_ok h
  obtain ⟨s5, hs5, h⟩ := bind_ok h
  obtain ⟨s6, hs6, h⟩ := bind_ok h
  cases h
  obtain ⟨hlook6, e6⟩ := expect_kw_ok hs6; subst e6
  obtain ⟨-, e5⟩ := expect_hash_ok hs5; subst e5
  refine topInv_of_eq (push_node_lex _ _) (push_node_look _ _) ?_
  exact closer_topInv (advance p.2) .mkay hlook6 rfl (lexInv_advance p.2)

theorem parse_variable_define_doc {n : Nat} {s s' : PState}
    (h : parse_variable_define n s = .ok s') :
    DocExt (fun nd => ∃ a b, nd = .varDef a b) s s' := by
  unfold parse_variable_define at h
  obtain ⟨s1, hs1, h⟩ := bind_ok h
  obtain ⟨s2, hs2, h⟩ := bind_ok h
  obtain ⟨nm, hnm, h⟩ := bind_ok h
  obtain ⟨s3, hs3, h⟩ := bind_ok h
  obtain ⟨s4, hs4, h⟩ := bind_ok h
  obtain ⟨p, hp, h⟩ := bind_ok h
  obtain ⟨s5, hs5, h⟩ := bind_ok h
  obtain ⟨s6, hs6, h⟩ := bind_ok h
  cases h
  obtain ⟨-, e1⟩ := expect_kw_ok hs1; subst e1
  obtain ⟨-, e2⟩ := expect_kw_ok hs2; subst e2
  have env := parseVarName_ok hnm
  obtain ⟨-, e3⟩ := expect_kw_ok hs3; subst e3
  obtain ⟨-, e4⟩ := expect_kw_ok hs4; subst e4
  obtain ⟨-, e5⟩ := expect_hash_ok hs5; subst e5
  obtain ⟨-, e6⟩ := expect_kw_ok hs6; subst e6
  obtain ⟨ha, hs⟩ := read_text_until_hash_ast hp
  refine ⟨[.varDef nm.1 p.1], by simp, ?_⟩
  rw [doc_push_node, doc_advance, doc_advance]
  have hdp : doc p.2 = doc (advance (advance nm.2)) := by simp [doc, ha, hs]
  rw [hdp, doc_advance, doc_advance, env, doc_advance, doc_advance, doc_advance]

theorem parse_variable_use_mu {s s' : PState}
    (h : parse_variable_use s = .ok s') : mu s' ≤ mu s := by
  unfold parse_variable_use at h
  obtain ⟨s1, hs1, h⟩ := bind_ok h
  obtain ⟨s2, hs2, h⟩ := bind_ok h
  obtain ⟨nm, hnm, h⟩ := bind_ok h
  obtain ⟨s3, hs3, h⟩ := bind_ok h
  obtain ⟨s4, hs4, h⟩ := bind_ok h
  cases h
  obtain ⟨-, e1⟩ := expect_kw_ok hs1; subst e1
  obtain ⟨-, e2⟩ := expect_kw_ok hs2; subst e2
  have env := parseVarName_ok hnm
  obtain ⟨-, e3⟩ := expect_hash_ok hs3; subst e3
  obtain ⟨-, e4⟩ := expect_kw_ok hs4; subst e4
  have h1 := mu_advance_le s
  have h2 := mu_advance_le (advance s)
  have h3 : mu nm.2 ≤ mu (advance (advance s)) := by
    rw [env]; exact mu_advance_le _
  have h4 := mu_advance_le nm.2
  have h5 := mu_advance_le (advance nm.2)
  rw [mu_push_node]
  omega

theorem parse_variable_use_total (s : PState) : parse_variable_use s ≠ .out := by
  unfold parse_variable_use
  refine bind_not_out (expect_kw_not_out _ _) ?_
  intro s1 _
  refine bind_not_out (expect_kw_not_out _ _) ?_
  intro s2 _
  refine bind_not_out (parseVarName_not_out _) ?_
  intro nm _
  refine bind_not_out (expect_hash_not_out _) ?_
  intro s3 _
  refine bind_not_out (expect_kw_not_out _ _) ?_
  intro s4 _
  simp

theorem parse_variable_use_topInv {s s' : PState}
    (h : parse_variable_use s = .ok s') : TopInv s' := by
  unfold parse_variable_use at h
  obtain ⟨s1, hs1, h⟩ := bind_ok h
  obtain ⟨s2, hs2, h⟩ := bind_ok h
  obtain ⟨nm, hnm, h⟩ := bind_ok h
  obtain ⟨s3, hs3, h⟩ := bind_ok h
  obtain ⟨s4, hs4, h⟩ := bind_ok h
  cases h
  obtain ⟨hlook4, e4⟩ := expect_kw_ok hs4; subst e4
  obtain ⟨-, e3⟩ := expect_hash_ok hs3; subst e3
  refine topInv_of_eq (push_node_lex _ _) (push_node_look _ _) ?_
  exact closer_topInv (advance nm.2) .mkay hlook4 rfl (lexInv_advance nm.2)

theorem parse_variable_use_doc {s s' : PState}
    (h : parse_variable_use s = .ok s') :
    DocExt (fun nd => ∃ a, nd = .varUse a) s s' := by
  unfold parse_variable_use at h
  obtain ⟨s1, hs1, h⟩ := bind_ok h
  obtain ⟨s2, hs2, h⟩ := bind_ok h
  obtain ⟨nm, hnm, h⟩ := bind_ok h
  obtain ⟨s3, hs3, h⟩ := bind_ok h
  obtain ⟨s4, hs4, h⟩ := bind_ok h
  cases h
  obtain ⟨-, e1⟩ := expect_kw_ok hs1; subst e1
  obtain ⟨-, e2⟩ := expect_kw_ok hs2; subst e2
  have env := parseVarName_ok hnm
  obtain ⟨-, e3⟩ := expect_hash_ok hs3; subst e3
  obtain ⟨-, e4⟩ := expect_kw_ok hs4; subst e4
  refine ⟨[.varUse nm.1], by simp, ?_⟩
  rw [doc_push_node, doc_advance, doc_advance, env, doc_advance, doc_advance, doc_advance]

/-- The node shapes `parse_body` can push. -/
def BodyElem (nd : Node) : Prop :=
  (∃ t, nd = .bold t) ∨ (∃ t, nd = .italics t) ∨ nd = .newline ∨
  (∃ t, nd = .audio t) ∨ (∃ t, nd = .video t) ∨
  (∃ t, nd = .listItem [.text t]) ∨ (∃ t, nd = .title t)

theorem parse_body_mu {n : Nat} {s s' : PState} (h : parse_body n s = .ok s') :
    mu s' ≤ mu s := by
  unfold parse_body at h
  obtain ⟨s1, hs1, h⟩ := bind_ok h
  obtain ⟨s2, hs2, hmt⟩ := bind_ok h
  obtain ⟨-, e1⟩ := expect_kw_ok hs1; subst e1
  have hm1 := mu_advance_le s
  have hm2 := skip_ws_mu _ hs2
  have key : mu s' ≤ mu s2 := by
    rcases hl : s2.look with _ | w | t | k | _
    case kw =>
      rcases k
      case bold =>
        simp only [hl] at hmt; rw [parse_bold_eq] at hmt; exact leafBody_mu hmt
      case italics =>
        simp only [hl] at hmt; rw [parse_italics_eq] at hmt; exact leafBody_mu hmt
      case newline =>
        simp only [hl] at hmt; exact parse_newline_mu hmt
      case soundz =>
        simp only [hl] at hmt; rw [parse_audio_eq] at hmt; exact leafBody_mu hmt
      case vidz =>
        simp only [hl] at hmt; rw [parse_video_eq] at hmt; exact leafBody_mu hmt
      case item =>
        simp only [hl] at hmt; rw [parse_list_items_eq] at hmt; exact leafBody_mu hmt
      case title =>
        simp only [hl] at hmt; rw [parse_title_eq] at hmt; exact leafBody_mu hmt
      all_goals simp only [hl] at hmt; cases hmt
    all_goals simp only [hl] at hmt; cases hmt
  omega

theorem parse_body_total {n : Nat} {s : PState} (h : mu s < n) :
    parse_body n s ≠ .out := by
  unfold parse_body
  refine bind_not_out (expect_kw_not_out _ _) ?_
  intro s1 hs1
  obtain ⟨-, e1⟩ := expect_kw_ok hs1; subst e1
  have hm1 := mu_advance_le s
  refine bind_not_out (by
    obtain ⟨s2, hs2⟩ := skip_ws_total n (advance s) (by omega)
    rw [hs2]; simp) ?_
  intro s2 hs2
  have hm2 := skip_ws_mu _ hs2
  rcases hl : s2.look with _ | w | t | k | _
  case kw =>
    rcases k
    case bold =>
      simp only [hl]; rw [parse_bold_eq]; exact leafBody_total (by omega)
    case italics =>
      simp only [hl]; rw [parse_italics_eq]; exact leafBody_total (by omega)
    case newline =>
      simp only [hl]; exact parse_newline_total s2
    case soundz =>
      simp only [hl]; rw [parse_audio_eq]; exact leafBody_total (by omega)
    case vidz =>
      simp only [hl]; rw [parse_video_eq]; exact leafBody_total (by omega)
    case item =>
      simp only [hl]; rw [parse_list_items_eq]; exact leafBody_total (by omega)
    case title =>
      simp only [hl]; rw [parse_title_eq]; exact leafBody_total (by omega)
    all_goals simp only [hl]; simp
  all_goals simp only [hl]; simp

theorem parse_body_fuel {n m : Nat} {s : PState} (h : mu s < n) (hm : mu s < m) :
    parse_body n s = parse_body m s := by
  unfold parse_body
  refine bind_congr' rfl ?_
  intro s1 hs1
  obtain ⟨-, e1⟩ := expect_kw_ok hs1; subst e1
  have hm1 := mu_advance_le s
  refine bind_congr' (skip_ws_fuel n m (advance s) (by omega) (by omega)) ?_
  intro s2 hs2
  have hm2 := skip_ws_mu _ hs2
  rcases hl : s2.look with _ | w | t | k | _
  case kw =>
    rcases k
    case bold =>
      simp only [hl]; rw [parse_bold_eq, parse_bold_eq]
      exact leafBody_fuel (by omega) (by omega)
    case italics =>
      simp only [hl]; rw [parse_italics_eq, parse_italics_eq]
      exact leafBody_fuel (by omega) (by omega)
    case newline => simp only [hl]
    case soundz =>
      simp only [hl]; rw [parse_audio_eq, parse_audio_eq]
      exact leafBody_fuel (by omega) (by omega)
    case vidz =>
      simp only [hl]; rw [parse_video_eq, parse_video_eq]
      exact leafBody_fuel (by omega) (by omega)
    case item =>
      simp only [hl]; rw [parse_list_items_eq, parse_list_items_eq]
      exact leafBody_fuel (by omega) (by omega)
    case title =>
      simp only [hl]; rw [parse_title_eq, parse_title_eq]
      exact leafBody_fuel (by omega) (by omega)
    all_goals simp only [hl]
  all_goals simp only [hl]

theorem parse_body_topInv {n : Nat} {s s' : PState} (h : parse_body n s = .ok s') :
    TopInv s' := by
  unfold parse_body at h
  obtain ⟨s1, hs1, h⟩ := bind_ok h
  obtain ⟨s2, hs2, hmt⟩ := bind_ok h
  obtain ⟨-, e1⟩ := expect_kw_ok hs1; subst e1
  have hinv : LexInv s2 := skip_ws_lexInv _ hs2 (lexInv_advance s)
  rcases hl : s2.look with _ | w | t | k | _
  case kw =>
    rcases k
    case bold =>
      simp only [hl] at hmt; rw [parse_bold_eq] at hmt; exact leafBody_topInv hmt
    case italics =>
      simp only [hl] at hmt; rw [parse_italics_eq] at hmt; exact leafBody_topInv hmt
    case newline =>
      simp only [hl] at hmt; exact parse_newline_topInv hmt hinv
    case soundz =>
      simp only [hl] at hmt; rw [parse_audio_eq] at hmt; exact leafBody_topInv hmt
    case vidz =>
      simp only [hl] at hmt; rw [parse_video_eq] at hmt; exact leafBody_topInv hmt
    case item =>
      simp only [hl] at hmt; rw [parse_list_items_eq] at hmt; exact leafBody_topInv hmt
    case title =>
      simp only [hl] at hmt; rw [parse_title_eq] at hmt; exact leafBody_topInv hmt
    all_goals simp only [hl] at hmt; cases hmt
  all_goals simp only [hl] at hmt; cases hmt

theorem parse_body_doc {n : Nat} {s s' : PState} (h : parse_body n s = .ok s') :
    DocExt BodyElem s s' := by
  unfold parse_body at h
  obtain ⟨s1, hs1, h⟩ := bind_ok h
  obtain ⟨s2, hs2, hmt⟩ := bind_ok h
  obtain ⟨-, e1⟩ := expect_kw_ok hs1; subst e1
  have hpre : DocExt BodyElem s s2 := by
    refine docExt_refl _ ?_
    obtain ⟨ha, hst⟩ := skip_ws_ast _ hs2
    simp [doc, ha, hst, advance_ast, advance_stack]
  refine docExt_trans hpre ?_
  rcases hl : s2.look with _ | w | t | k | _
  case kw =>
    rcases k
    case bold =>
      simp only [hl] at hmt; rw [parse_bold_eq] at hmt
      exact docExt_mono (fun x hx => Or.inl hx) (leafBody_doc hmt)
    case italics =>
      simp only [hl] at hmt; rw [parse_italics_eq] at hmt
      exact docExt_mono (fun x hx => Or.inr (Or.inl hx)) (leafBody_doc hmt)
    case newline =>
      simp only [hl] at hmt
      exact docExt_mono (fun x hx => Or.inr (Or.inr (Or.inl hx)))
        (parse_newline_doc hmt)
    case soundz =>
      simp only [hl] at hmt; rw [parse_audio_eq] at hmt
      exact docExt_mono (fun x hx => Or.inr (Or.inr (Or.inr (Or.inl hx))))
        (leafBody_doc hmt)
    case vidz =>
      simp only [hl] at hmt; rw [parse_video_eq] at hmt
      exact docExt_mono (fun x hx => Or.inr (Or.inr (Or.inr (Or.inr (Or.inl hx)))))
        (leafBody_doc hmt)
    case item =>
      simp only [hl] at hmt; rw [parse_list_items_eq] at hmt
      exact docExt_mono (fun x hx => Or.inr (Or.inr (Or.inr (Or.inr (Or.inr (Or.inl hx))))))
        (leafBody_doc hmt)
    case title =>
      simp only [hl] at hmt; rw [parse_title_eq] at hmt
      exact docExt_mono (fun x hx => Or.inr (Or.inr (Or.inr (Or.inr (Or.inr (Or.inr hx))))))
        (leafBody_doc hmt)
    all_goals simp only [hl] at hmt; cases hmt
  all_goals simp only [hl] at hmt; cases hmt

theorem parse_text_doc {n : Nat} {s s' : PState} (h : parse_text n s = .ok s') :
    DocExt (fun nd => ∃ t, nd = .text t) s s' := by
  unfold parse_text at h
  rw [parseTextLoop_eq] at h
  obtain ⟨p, hp, h⟩ := bind_ok h
  obtain ⟨ha, hst⟩ := readTextLoop_ast n hp
  have hd : doc p.2 = doc s := by simp [doc, ha, hst]
  split at h <;> cases h
  · exact docExt_refl _ hd
  · refine ⟨[.text p.1], by simp, ?_⟩
    rw [doc_push_node, hd]

theorem mu_stack_set (s : PState) (st : List (List Node)) :
    mu { s with stack := st } = mu s := rfl

/-- What `parse_head`'s loop may push into the open scope. -/
def HeadKid (nd : Node) : Prop :=
  (∃ t, nd = .title t) ∨ (∃ t, nd = .comment t)

theorem headLoop_mu : ∀ n {s s' : PState}, headLoop n s = .ok s' → mu s' ≤ mu s := by
  intro n
  induction n with
  | zero => intro s s' h; cases h
  | succ n ih =>
    intro s s' h
    simp only [headLoop] at h
    obtain ⟨s1, hs1, h2⟩ := bind_ok h
    have hm1 := skip_ws_mu _ hs1
    rcases hl1 : s1.look with _ | w | t | k | _ <;> simp only [hl1] at h2
    case hash =>
      obtain ⟨s3, hs3, h3⟩ := bind_ok h2
      have hma : mu (advance s1) < mu s1 := mu_advance_lt s1 (by rw [hl1]; simp)
      have hm3 := skip_ws_mu _ hs3
      rcases hl3 : s3.look with _ | w3 | t3 | k3 | _ <;> simp only [hl3] at h3
      case kw =>
        rcases k3 <;> simp only at h3
        case gimmeh =>
          obtain ⟨s5, hs5, h4⟩ := bind_ok h3
          obtain ⟨s6, hs6, h5⟩ := bind_ok h4
          have hm5 := skip_ws_mu _ hs5
          have hma3 : mu (advance s3) ≤ mu s3 := mu_advance_le s3
          rw [parse_title_eq] at hs6
          have hm6 := leafBody_mu hs6
          have hrec := ih h5
          omega
        case obtw =>
          obtain ⟨s6, hs6, h4⟩ := bind_ok h3
          have hm6 := parse_comment_mu hs6
          have hrec := ih h4
          omega
        case oic =>
          cases h3
          have := mu_advance_le s3
          omega
        all_goals cases h3
      all_goals cases h3
    case eof => cases h2
    all_goals
      have hma : mu (advance s1) ≤ mu s1 := mu_advance_le s1
      have hrec := ih h2
      omega

theorem headLoop_total : ∀ n s, mu s + 1 < n → headLoop n s ≠ .out := by
  intro n
  induction n with
  | zero => intro s h; omega
  | succ n ih =>
    intro s h
    simp only [headLoop]
    obtain ⟨s1, hs1⟩ := skip_ws_total n s (by omega)
    refine bind_not_out (by rw [hs1]; simp) ?_
    intro s1' hs1'
    rw [hs1] at hs1'
    cases hs1'
    have hm1 := skip_ws_mu _ hs1
    rcases hl1 : s1.look with _ | w | t | k | _
    case hash =>
      simp only [hl1]
      have hma : mu (advance s1) < mu s1 := mu_advance_lt s1 (by rw [hl1]; simp)
      obtain ⟨s3, hs3⟩ := skip_ws_total n (advance s1) (by omega)
      refine bind_not_out (by rw [hs3]; simp) ?_
      intro s3' hs3'
      rw [hs3] at hs3'
      cases hs3'
      have hm3 := skip_ws_mu _ hs3
      rcases hl3 : s3.look with _ | w3 | t3 | k3 | _
      case kw =>
        rcases k3
        case gimmeh =>
          simp only [hl3]
          have hma3 : mu (advance s3) ≤ mu s3 := mu_advance_le s3
          obtain ⟨s5, hs5⟩ := skip_ws_total n (advance s3) (by omega)
          refine bind_not_out (by rw [hs5]; simp) ?_
          intro s5' hs5'
          rw [hs5] at hs5'
          cases hs5'
          have hm5 := skip_ws_mu _ hs5
          refine bind_not_out (by rw [parse_title_eq]; exact leafBody_total (by omega)) ?_
          intro s6 hs6
          rw [parse_title_eq] at hs6
          have hm6 := leafBody_mu hs6
          exact ih s6 (by omega)
        case obtw =>
          simp only [hl3]
          refine bind_not_out (parse_comment_total (by omega)) ?_
          intro s6 hs6
          have hm6 := parse_comment_mu hs6
          exact ih s6 (by omega)
        all_goals simp [hl3]
      all_goals simp [hl3]
    case eof => simp [hl1]
    all_goals
      simp only [hl1]
      have hma : mu (advance s1) < mu s1 := mu_advance_lt s1 (by rw [hl1]; simp)
      exact ih (advance s1) (by omega)

theorem headLoop_fuel : ∀ n m s, mu s + 1 < n → mu s + 1 < m →
    headLoop n s = headLoop m s := by
  intro n
  induction n with
  | zero => intro m s h; omega
  | succ n ih =>
    intro m s h hm
    rcases m with _ | m
    · omega
    · simp only [headLoop]
      refine bind_congr' (skip_ws_fuel n m s (by omega) (by omega)) ?_
      intro s1 hs1
      have hm1 := skip_ws_mu _ hs1
      rcases hl1 : s1.look with _ | w | t | k | _
      case hash =>
        simp only [hl1]
        have hma : mu (advance s1) < mu s1 := mu_advance_lt s1 (by rw [hl1]; simp)
        refine bind_congr' (skip_ws_fuel n m (advance s1) (by omega) (by omega)) ?_
        intro s3 hs3
        have hm3 := skip_ws_mu _ hs3
        rcases hl3 : s3.look with _ | w3 | t3 | k3 | _
        case kw =>
          rcases k3
          case gimmeh =>
            simp only [hl3]
            have hma3 : mu (advance s3) ≤ mu s3 := mu_advance_le s3
            refine bind_congr' (skip_ws_fuel n m (advance s3) (by omega) (by omega)) ?_
            intro s5 hs5
            have hm5 := skip_ws_mu _ hs5
            rw [parse_title_eq]
            refine bind_congr' (leafBody_fuel (by omega) (by omega)) ?_
            intro s6 hs6
            have hm6 := leafBody_mu hs6
            exact ih m s6 (by omega) (by omega)
          case obtw =>
            simp only [hl3]
            refine bind_congr' (parse_comment_fuel (by omega) (by omega)) ?_
            intro s6 hs6
            have hm6 := parse_comment_mu hs6
            exact ih m s6 (by omega) (by omega)
          all_goals simp [hl3]
        all_goals simp [hl3]
      case eof => simp [hl1]
      all_goals
        simp only [hl1]
        have hma : mu (advance s1) < mu s1 := mu_advance_lt s1 (by rw [hl1]; simp)
        exact ih m (advance s1) (by omega) (by omega)

theorem headLoop_topInv : ∀ n {s s' : PState}, headLoop n s = .ok s' → TopInv s' := by
  intro n
  induction n with
  | zero => intro s s' h; cases h
  | succ n ih =>
    intro s s' h
    simp only [headLoop] at h
    obtain ⟨s1, hs1, h2⟩ := bind_ok h
    rcases hl1 : s1.look with _ | w | t | k | _ <;> simp only [hl1] at h2
    case hash =>
      obtain ⟨s3, hs3, h3⟩ := bind_ok h2
      rcases hl3 : s3.look with _ | w3 | t3 | k3 | _ <;> simp only [hl3] at h3
      case kw =>
        rcases k3 <;> simp only at h3
        case gimmeh =>
          obtain ⟨s5, hs5, h4⟩ := bind_ok h3
          obtain ⟨s6, hs6, h5⟩ := bind_ok h4
          exact ih h5
        case obtw =>
          obtain ⟨s6, hs6, h4⟩ := bind_ok h3
          exact ih h4
        case oic =>
          cases h3
          exact closer_topInv s3 .oic hl3 rfl
            (skip_ws_lexInv n hs3 (lexInv_advance s1))
        all_goals cases h3
      all_goals cases h3
    case eof => cases h2
    all_goals exact ih h2

theorem headLoop_doc : ∀ n {s s' : PState}, headLoop n s = .ok s' →
    DocExt HeadKid s s' := by
  intro n
  induction n with
  | zero => intro s s' h; cases h
  | succ n ih =>
    intro s s' h
    simp only [headLoop] at h
    obtain ⟨s1, hs1, h2⟩ := bind_ok h
    have hd1 : doc s1 = doc s := by
      obtain ⟨ha, hst⟩ := skip_ws_ast _ hs1
      simp [doc, ha, hst]
    rcases hl1 : s1.look with _ | w | t | k | _ <;> simp only [hl1] at h2
    case hash =>
      obtain ⟨s3, hs3, h3⟩ := bind_ok h2
      have hd3 : doc s3 = doc s := by
        obtain ⟨ha, hst⟩ := skip_ws_ast _ hs3
        have e1 : s1.ast = s.ast := congrArg Prod.fst hd1
        have e2 : s1.stack = s.stack := congrArg Prod.snd hd1
        simp [doc, ha, hst, advance_ast, advance_stack, e1, e2]
      rcases hl3 : s3.look with _ | w3 | t3 | k3 | _ <;> simp only [hl3] at h3
      case kw =>
        rcases k3 <;> simp only at h3
        case gimmeh =>
          obtain ⟨s5, hs5, h4⟩ := bind_ok h3
          obtain ⟨s6, hs6, h5⟩ := bind_ok h4
          have hd5 : doc s5 = doc s := by
            obtain ⟨ha, hst⟩ := skip_ws_ast _ hs5
            have e1 : s3.ast = s.ast := congrArg Prod.fst hd3
            have e2 : s3.stack = s.stack := congrArg Prod.snd hd3
            simp [doc, ha, hst, advance_ast, advance_stack, e1, e2]
          rw [parse_title_eq] at hs6
          refine docExt_trans (docExt_refl _ hd5) ?_
          refine docExt_trans ?_ (ih h5)
          exact docExt_mono (fun x hx => Or.inl hx) (leafBody_doc hs6)
        case obtw =>
          obtain ⟨s6, hs6, h4⟩ := bind_ok h3
          refine docExt_trans (docExt_refl _ hd3) ?_
          refine docExt_trans ?_ (ih h4)
          exact docExt_mono (fun x hx => Or.inr hx) (parse_comment_doc hs6)
        case oic =>
          cases h3
          refine docExt_refl _ ?_
          rw [doc_advance, hd3]
        all_goals cases h3
      all_goals cases h3
    case eof => cases h2
    all_goals
      refine docExt_trans (docExt_refl _ hd1) ?_
      refine docExt_trans (docExt_refl _ (doc_advance s1)) (ih h2)

/-- The node a successful `parse_head` pushes. -/
def HeadNode (nd : Node) : Prop :=
  ∃ kids, nd = .head kids ∧ ∀ x ∈ kids, HeadKid x

theorem parse_head_mu {n : Nat} {s s' : PState} (h : parse_head n s = .ok s') :
    mu s' ≤ mu s := by
  unfold parse_head at h
  obtain ⟨s1, hs1, h2⟩ := bind_ok h
  obtain ⟨s2, hs2, h3⟩ := bind_ok h2
  obtain ⟨-, e1⟩ := expect_kw_ok hs1; subst e1
  have hm1 := mu_advance_le s
  have hm2 : mu s2 ≤ mu (advance s) := by
    have := headLoop_mu _ hs2
    rwa [mu_stack_set] at this
  rcases hstk : s2.stack with _ | ⟨kids, rest⟩ <;> simp only [hstk] at h3 <;> cases h3
  · rw [mu_push_node]; omega
  · rw [mu_push_node, mu_stack_set]; omega

theorem parse_head_total {n : Nat} {s : PState} (h : mu s < n) :
    parse_head n s ≠ .out := by
  unfold parse_head
  refine bind_not_out (expect_kw_not_out _ _) ?_
  intro s1 hs1
  obtain ⟨hlook, e1⟩ := expect_kw_ok hs1; subst e1
  have hma : mu (advance s) < mu s := mu_advance_lt s (by rw [hlook]; simp)
  refine bind_not_out ?_ ?_
  · apply headLoop_total
    rw [mu_stack_set]
    omega
  · intro s2 _
    rcases s2.stack with _ | ⟨kids, rest⟩ <;> simp

theorem parse_head_fuel {n m : Nat} {s : PState} (h : mu s < n) (hm : mu s < m) :
    parse_head n s = parse_head m s := by
  unfold parse_head
  refine bind_congr' rfl ?_
  intro s1 hs1
  obtain ⟨hlook, e1⟩ := expect_kw_ok hs1; subst e1
  have hma : mu (advance s) < mu s := mu_advance_lt s (by rw [hlook]; simp)
  refine bind_congr' ?_ ?_
  · apply headLoop_fuel <;> rw [mu_stack_set] <;> omega
  · intro a _
    rfl

theorem parse_head_topInv {n : Nat} {s s' : PState} (h : parse_head n s = .ok s') :
    TopInv s' := by
  unfold parse_head at h
  obtain ⟨s1, hs1, h2⟩ := bind_ok h
  obtain ⟨s2, hs2, h3⟩ := bind_ok h2
  have hinv := headLoop_topInv _ hs2
  rcases hstk : s2.stack with _ | ⟨kids, rest⟩ <;> simp only [hstk] at h3 <;> cases h3
  · exact topInv_of_eq (push_node_lex _ _) (push_node_look _ _) hinv
  · refine topInv_of_eq (push_node_lex _ _) (push_node_look _ _) ?_
    exact topInv_of_eq rfl rfl hinv

theorem parse_head_doc {n : Nat} {s s' : PState} (h : parse_head n s = .ok s') :
    DocExt HeadNode s s' := by
  unfold parse_head at h
  obtain ⟨s1, hs1, h2⟩ := bind_ok h
  obtain ⟨s2, hs2, h3⟩ := bind_ok h2
  obtain ⟨-, e1⟩ := expect_kw_ok hs1; subst e1
  obtain ⟨new, hP, hdoc⟩ := headLoop_doc _ hs2
  have hast : s2.ast = (advance s).ast := by
    have := congrArg Prod.fst hdoc
    simpa [doc, docAppend] using this
  have hstk : s2.stack = new :: (advance s).stack := by
    have := congrArg Prod.snd hdoc
    simpa [doc, docAppend] using this
  rw [hstk] at h3
  simp only at h3
  cases h3
  refine ⟨[.head new], ?_, ?_⟩
  · intro x hx
    simp only [List.mem_singleton] at hx
    subst hx
    exact ⟨new, rfl, hP⟩
  · rw [doc_push_node]
    have : doc { s2 with stack := (advance s).stack } = doc (advance s) := by
      simp [doc, hast]
    rw [this, doc_advance]

theorem paragraphLoop_mu : ∀ n {s s' : PState}, paragraphLoop n s = .ok s' → mu s' ≤ mu s := by
  intro n
  induction n with
  | zero => intro s s' h; cases h
  | succ n ih =>
    intro s s' h
    simp only [paragraphLoop] at h
    obtain ⟨s1, hs1, h2⟩ := bind_ok h
    have hm1 := skip_ws_mu _ hs1
    rcases hl1 : s1.look with _ | w | t | k | _ <;> simp only [hl1] at h2
    case hash =>
      obtain ⟨s3, hs3, h3⟩ := bind_ok h2
      have hma : mu (advance s1) < mu s1 := mu_advance_lt s1 (by rw [hl1]; simp)
      have hm3 := skip_ws_mu _ hs3
      rcases hl3 : s3.look with _ | w3 | t3 | k3 | _ <;> simp only [hl3] at h3
      case kw =>
        rcases k3 <;> simp only at h3
        case gimmeh =>
          obtain ⟨s5, hs5, h4⟩ := bind_ok h3
          have hm5 := skip_ws_mu _ hs5
          have hma3 : mu (advance s3) ≤ mu s3 := mu_advance_le s3
          rcases hl5 : s5.look with _ | w5 | t5 | k5 | _ <;> simp only [hl5] at h4
          case kw =>
            rcases k5 <;> simp only at h4
            case bold =>
              obtain ⟨s6, hs6, h5⟩ := bind_ok h4
              rw [parse_bold_eq] at hs6
              have hm6 := leafBody_mu hs6
              have hrec := ih h5
              omega
            case italics =>
              obtain ⟨s6, hs6, h5⟩ := bind_ok h4
              rw [parse_italics_eq] at hs6
              have hm6 := leafBody_mu hs6
              have hrec := ih h5
              omega
            case newline =>
              obtain ⟨s6, hs6, h5⟩ := bind_ok h4
              have hm6 := parse_newline_mu hs6
              have hrec := ih h5
              omega
            case soundz =>
              obtain ⟨s6, hs6, h5⟩ := bind_ok h4
              rw [parse_audio_eq] at hs6
              have hm6 := leafBody_mu hs6
              have hrec := ih h5
              omega
            case vidz =>
              obtain ⟨s6, hs6, h5⟩ := bind_ok h4
              rw [parse_video_eq] at hs6
              have hm6 := leafBody_mu hs6
              have hrec := ih h5
              omega
            all_goals cases h4
          all_goals cases h4
        case lemme =>
          obtain ⟨s6, hs6, h5⟩ := bind_ok h3
          have hm6 := parse_variable_use_mu hs6
          have hrec := ih h5
          omega
        case i =>
          obtain ⟨s6, hs6, h5⟩ := bind_ok h3
          have hm6 := parse_variable_define_mu hs6
          have hrec := ih h5
          omega
        case obtw =>
          obtain ⟨s6, hs6, h5⟩ := bind_ok h3
          have hm6 := parse_comment_mu hs6
          have hrec := ih h5
          omega
        case oic =>
          cases h3
          have := mu_advance_le s3
          omega
        all_goals cases h3
      all_goals cases h3
    case word =>
      obtain ⟨s6, hs6, h5⟩ := bind_ok h2
      have hm6 := parse_text_mu hs6
      have hrec := ih h5
      omega
    case text =>
      obtain ⟨s6, hs6, h5⟩ := bind_ok h2
      have hm6 := parse_text_mu hs6
      have hrec := ih h5
      omega
    all_goals cases h2

theorem paragraphLoop_total : ∀ n s, mu s + 1 < n → paragraphLoop n s ≠ .out := by
  intro n
  induction n with
  | zero => intro s h; omega
  | succ n ih =>
    intro s h
    simp only [paragraphLoop]
    obtain ⟨s1, hs1⟩ := skip_ws_total n s (by omega)
    refine bind_not_out (by rw [hs1]; simp) ?_
    intro s1' hs1'
    rw [hs1] at hs1'
    cases hs1'
    have hm1 := skip_ws_mu _ hs1
    rcases hl1 : s1.look with _ | w | t | k | _
    case hash =>
      simp only [hl1]
      have hma : mu (advance s1) < mu s1 := mu_advance_lt s1 (by rw [hl1]; simp)
      obtain ⟨s3, hs3⟩ := skip_ws_total n (advance s1) (by omega)
      refine bind_not_out (by rw [hs3]; simp) ?_
      intro s3' hs3'
      rw [hs3] at hs3'
      cases hs3'
      have hm3 := skip_ws_mu _ hs3
      rcases hl3 : s3.look with _ | w3 | t3 | k3 | _
      case kw =>
        rcases k3
        case gimmeh =>
          simp only [hl3]
          have hma3 : mu (advance s3) ≤ mu s3 := mu_advance_le s3
          obtain ⟨s5, hs5⟩ := skip_ws_total n (advance s3) (by omega)
          refine bind_not_out (by rw [hs5]; simp) ?_
          intro s5' hs5'
          rw [hs5] at hs5'
          cases hs5'
          have hm5 := skip_ws_mu _ hs5
          rcases hl5 : s5.look with _ | w5 | t5 | k5 | _
          case kw =>
            rcases k5
            case bold =>
              simp only [hl5]
              refine bind_not_out (by rw [parse_bold_eq]; exact leafBody_total (by omega)) ?_
              intro s6 hs6
              rw [parse_bold_eq] at hs6
              have hm6 := leafBody_mu hs6
              exact ih s6 (by omega)
            case italics =>
              simp only [hl5]
              refine bind_not_out (by rw [parse_italics_eq]; exact leafBody_total (by omega)) ?_
              intro s6 hs6
              rw [parse_italics_eq] at hs6
              have hm6 := leafBody_mu hs6
              exact ih s6 (by omega)
            case newline =>
              simp only [hl5]
              refine bind_not_out (parse_newline_total _) ?_
              intro s6 hs6
              have hm6 := parse_newline_mu hs6
              exact ih s6 (by omega)
            case soundz =>
              simp only [hl5]
              refine bind_not_out (by rw [parse_audio_eq]; exact leafBody_total (by omega)) ?_
              intro s6 hs6
              rw [parse_audio_eq] at hs6
              have hm6 := leafBody_mu hs6
              exact ih s6 (by omega)
            case vidz =>
              simp only [hl5]
              refine bind_not_out (by rw [parse_video_eq]; exact leafBody_total (by omega)) ?_
              intro s6 hs6
              rw [parse_video_eq] at hs6
              have hm6 := leafBody_mu hs6
              exact ih s6 (by omega)
            all_goals simp [hl5]
          all_goals simp [hl5]
        case lemme =>
          simp only [hl3]
          refine bind_not_out (parse_variable_use_total _) ?_
          intro s6 hs6
          have hm6 := parse_variable_use_mu hs6
          exact ih s6 (by omega)
        case i =>
          simp only [hl3]
          refine bind_not_out (parse_variable_define_total (by omega)) ?_
          intro s6 hs6
          have hm6 := parse_variable_define_mu hs6
          exact ih s6 (by omega)
        case obtw =>
          simp only [hl3]
          refine bind_not_out (parse_comment_total (by omega)) ?_
          intro s6 hs6
          have hm6 := parse_comment_mu hs6
          exact ih s6 (by omega)
        all_goals simp [hl3]
      all_goals simp [hl3]
    case word =>
      simp only [hl1]
      refine bind_not_out (by
        obtain ⟨s6, hs6⟩ := @parse_text_total n s1 (by omega)
        rw [hs6]; simp) ?_
      intro s6 hs6
      have hm6 := parse_text_mu_strict hs6 (Or.inl ⟨w, hl1⟩)
      exact ih s6 (by omega)
    case text =>
      simp only [hl1]
      refine bind_not_out (by
        obtain ⟨s6, hs6⟩ := @parse_text_total n s1 (by omega)
        rw [hs6]; simp) ?_
      intro s6 hs6
      have hm6 := parse_text_mu_strict hs6 (Or.inr ⟨t, hl1⟩)
      exact ih s6 (by omega)
    all_goals simp [hl1]

theorem paragraphLoop_fuel : ∀ n m s, mu s + 1 < n → mu s + 1 < m →
    paragraphLoop n s = paragraphLoop m s := by
  intro n
  induction n with
  | zero => intro m s h; omega
  | succ n ih =>
    intro m s h hm
    rcases m with _ | m
    · omega
    · simp only [paragraphLoop]
      refine bind_congr' (skip_ws_fuel n m s (by omega) (by omega)) ?_
      intro s1 hs1
      have hm1 := skip_ws_mu _ hs1
      rcases hl1 : s1.look with _ | w | t | k | _
      case hash =>
        simp only [hl1]
        have hma : mu (advance s1) < mu s1 := mu_advance_lt s1 (by rw [hl1]; simp)
        refine bind_congr' (skip_ws_fuel n m (advance s1) (by omega) (by omega)) ?_
        intro s3 hs3
        have hm3 := skip_ws_mu _ hs3
        rcases hl3 : s3.look with _ | w3 | t3 | k3 | _
        case kw =>
          rcases k3
          case gimmeh =>
            simp only [hl3]
            have hma3 : mu (advance s3) ≤ mu s3 := mu_advance_le s3
            refine bind_congr' (skip_ws_fuel n m (advance s3) (by omega) (by omega)) ?_
            intro s5 hs5
            have hm5 := skip_ws_mu _ hs5
            rcases hl5 : s5.look with _ | w5 | t5 | k5 | _
            case kw =>
              rcases k5
              case bold =>
                simp only [hl5]
                rw [parse_bold_eq]
                refine bind_congr' (leafBody_fuel (by omega) (by omega)) ?_
                intro s6 hs6
                have hm6 := leafBody_mu hs6
                exact ih m s6 (by omega) (by omega)
              case italics =>
                simp only [hl5]
                rw [parse_italics_eq]
                refine bind_congr' (leafBody_fuel (by omega) (by omega)) ?_
                intro s6 hs6
                have hm6 := leafBody_mu hs6
                exact ih m s6 (by omega) (by omega)
              case newline =>
                simp only [hl5]
                refine bind_congr' rfl ?_
                intro s6 hs6
                have hm6 := parse_newline_mu hs6
                exact ih m s6 (by omega) (by omega)
              case soundz =>
                simp only [hl5]
                rw [parse_audio_eq]
                refine bind_congr' (leafBody_fuel (by omega) (by omega)) ?_
                intro s6 hs6
                have hm6 := leafBody_mu hs6
                exact ih m s6 (by omega) (by omega)
              case vidz =>
                simp only [hl5]
                rw [parse_video_eq]
                refine bind_congr' (leafBody_fuel (by omega) (by omega)) ?_
                intro s6 hs6
                have hm6 := leafBody_mu hs6
                exact ih m s6 (by omega) (by omega)
              all_goals simp [hl5]
            all_goals simp [hl5]
          case lemme =>
            simp only [hl3]
            refine bind_congr' rfl ?_
            intro s6 hs6
            have hm6 := parse_variable_use_mu hs6
            exact ih m s6 (by omega) (by omega)
          case i =>
            simp only [hl3]
            refine bind_congr' (parse_variable_define_fuel (by omega) (by omega)) ?_
            intro s6 hs6
            have hm6 := parse_variable_define_mu hs6
            exact ih m s6 (by omega) (by omega)
          case obtw =>
            simp only [hl3]
            refine bind_congr' (parse_comment_fuel (by omega) (by omega)) ?_
            intro s6 hs6
            have hm6 := parse_comment_mu hs6
            exact ih m s6 (by omega) (by omega)
          all_goals simp [hl3]
        all_goals simp [hl3]
      case word =>
        simp only [hl1]
        refine bind_congr' (parse_text_fuel (by omega) (by omega)) ?_
        intro s6 hs6
        have hm6 := parse_text_mu_strict hs6 (Or.inl ⟨w, hl1⟩)
        exact ih m s6 (by omega) (by omega)
      case text =>
        simp only [hl1]
        refine bind_congr' (parse_text_fuel (by omega) (by omega)) ?_
        intro s6 hs6
        have hm6 := parse_text_mu_strict hs6 (Or.inr ⟨t, hl1⟩)
        exact ih m s6 (by omega) (by omega)
      all_goals simp [hl1]

theorem paragraphLoop_topInv : ∀ n {s s' : PState},
    paragraphLoop n s = .ok s' → TopInv s' := by
  intro n
  induction n with
  | zero => intro s s' h; cases h
  | succ n ih =>
    intro s s' h
    simp only [paragraphLoop] at h
    obtain ⟨s1, hs1, h2⟩ := bind_ok h
    rcases hl1 : s1.look with _ | w | t | k | _ <;> simp only [hl1] at h2
    case hash =>
      obtain ⟨s3, hs3, h3⟩ := bind_ok h2
      rcases hl3 : s3.look with _ | w3 | t3 | k3 | _ <;> simp only [hl3] at h3
      case kw =>
        rcases k3 <;> simp only at h3
        case gimmeh =>
          obtain ⟨s5, hs5, h4⟩ := bind_ok h3
          rcases hl5 : s5.look with _ | w5 | t5 | k5 | _ <;> simp only [hl5] at h4
          case kw =>
            rcases k5 <;> simp only at h4
            case bold =>
              obtain ⟨s6, hs6, h5⟩ := bind_ok h4
              exact ih h5
            case italics =>
              obtain ⟨s6, hs6, h5⟩ := bind_ok h4
              exact ih h5
            case newline =>
              obtain ⟨s6, hs6, h5⟩ := bind_ok h4
              exact ih h5
            case soundz =>
              obtain ⟨s6, hs6, h5⟩ := bind_ok h4
              exact ih h5
            case vidz =>
              obtain ⟨s6, hs6, h5⟩ := bind_ok h4
              exact ih h5
            all_goals cases h4
          all_goals cases h4
        case lemme =>
          obtain ⟨s6, hs6, h5⟩ := bind_ok h3
          exact ih h5
        case i =>
          obtain ⟨s6, hs6, h5⟩ := bind_ok h3
          exact ih h5
        case obtw =>
          obtain ⟨s6, hs6, h5⟩ := bind_ok h3
          exact ih h5
        case oic =>
          cases h3
          exact closer_topInv s3 .oic hl3 rfl
            (skip_ws_lexInv n hs3 (lexInv_advance s1))
        all_goals cases h3
      all_goals cases h3
    case word =>
      obtain ⟨s6, hs6, h5⟩ := bind_ok h2
      exact ih h5
    case text =>
      obtain ⟨s6, hs6, h5⟩ := bind_ok h2
      exact ih h5
    all_goals cases h2

/-- What `parse_paragraph`'s loop may push into the open scope. -/
def ParKid (nd : Node) : Prop :=
  (∃ t, nd = .text t) ∨ (∃ t, nd = .bold t) ∨ (∃ t, nd = .italics t) ∨
  nd = .newline ∨ (∃ t, nd = .audio t) ∨ (∃ t, nd = .video t) ∨
  (∃ a b, nd = .varDef a b) ∨ (∃ a, nd = .varUse a) ∨ (∃ t, nd = .comment t)

theorem paragraphLoop_doc : ∀ n {s s' : PState},
    paragraphLoop n s = .ok s' → DocExt ParKid s s' := by
  intro n
  induction n with
  | zero => intro s s' h; cases h
  | succ n ih =>
    intro s s' h
    simp only [paragraphLoop] at h
    obtain ⟨s1, hs1, h2⟩ := bind_ok h
    have hd1 : doc s1 = doc s := by
      obtain ⟨ha, hst⟩ := skip_ws_ast _ hs1
      simp [doc, ha, hst]
    rcases hl1 : s1.look with _ | w | t | k | _ <;> simp only [hl1] at h2
    case hash =>
      obtain ⟨s3, hs3, h3⟩ := bind_ok h2
      have hd3 : doc s3 = doc s := by
        obtain ⟨ha, hst⟩ := skip_ws_ast _ hs3
        have e1 : s1.ast = s.ast := congrArg Prod.fst hd1
        have e2 : s1.stack = s.stack := congrArg Prod.snd hd1
        simp [doc, ha, hst, advance_ast, advance_stack, e1, e2]
      rcases hl3 : s3.look with _ | w3 | t3 | k3 | _ <;> simp only [hl3] at h3
      case kw =>
        rcases k3 <;> simp only at h3
        case gimmeh =>
          obtain ⟨s5, hs5, h4⟩ := bind_ok h3
          have hd5 : doc s5 = doc s := by
            obtain ⟨ha, hst⟩ := skip_ws_ast _ hs5
            have e1 : s3.ast = s.ast := congrArg Prod.fst hd3
            have e2 : s3.stack = s.stack := congrArg Prod.snd hd3
            simp [doc, ha, hst, advance_ast, advance_stack, e1, e2]
          rcases hl5 : s5.look with _ | w5 | t5 | k5 | _ <;> simp only [hl5] at h4
          case kw =>
            rcases k5 <;> simp only at h4
            case bold =>
              obtain ⟨s6, hs6, h5⟩ := bind_ok h4
              rw [parse_bold_eq] at hs6
              refine docExt_trans (docExt_refl _ hd5) (docExt_trans ?_ (ih h5))
              exact docExt_mono (fun x hx => Or.inr (Or.inl hx)) (leafBody_doc hs6)
            case italics =>
              obtain ⟨s6, hs6, h5⟩ := bind_ok h4
              rw [parse_italics_eq] at hs6
              refine docExt_trans (docExt_refl _ hd5) (docExt_trans ?_ (ih h5))
              exact docExt_mono (fun x hx => Or.inr (Or.inr (Or.inl hx))) (leafBody_doc hs6)
            case newline =>
              obtain ⟨s6, hs6, h5⟩ := bind_ok h4
              refine docExt_trans (docExt_refl _ hd5) (docExt_trans ?_ (ih h5))
              exact docExt_mono (fun x hx => Or.inr (Or.inr (Or.inr (Or.inl hx))))
                (parse_newline_doc hs6)
            case soundz =>
              obtain ⟨s6, hs6, h5⟩ := bind_ok h4
              rw [parse_audio_eq] at hs6
              refine docExt_trans (docExt_refl _ hd5) (docExt_trans ?_ (ih h5))
              exact docExt_mono (fun x hx => Or.inr (Or.inr (Or.inr (Or.inr (Or.inl hx)))))
                (leafBody_doc hs6)
            case vidz =>
              obtain ⟨s6, hs6, h5⟩ := bind_ok h4
              rw [parse_video_eq] at hs6
              refine docExt_trans (docExt_refl _ hd5) (docExt_trans ?_ (ih h5))
              exact docExt_mono
                (fun x hx => Or.inr (Or.inr (Or.inr (Or.inr (Or.inr (Or.inl hx))))))
                (leafBody_doc hs6)
            all_goals cases h4
          all_goals cases h4
        case lemme =>
          obtain ⟨s6, hs6, h5⟩ := bind_ok h3
          refine docExt_trans (docExt_refl _ hd3) (docExt_trans ?_ (ih h5))
          exact docExt_mono
            (fun x hx => Or.inr (Or.inr (Or.inr (Or.inr (Or.inr (Or.inr (Or.inr (Or.inl hx))))))))
            (parse_variable_use_doc hs6)
        case i =>
          obtain ⟨s6, hs6, h5⟩ := bind_ok h3
          refine docExt_trans (docExt_refl _ hd3) (docExt_trans ?_ (ih h5))
          exact docExt_mono
            (fun x hx => Or.inr (Or.inr (Or.inr (Or.inr (Or.inr (Or.inr (Or.inl hx)))))))
            (parse_variable_define_doc hs6)
        case obtw =>
          obtain ⟨s6, hs6, h5⟩ := bind_ok h3
          refine docExt_trans (docExt_refl _ hd3) (docExt_trans ?_ (ih h5))
          exact docExt_mono
            (fun x hx =>
              Or.inr (Or.inr (Or.inr (Or.inr (Or.inr (Or.inr (Or.inr (Or.inr hx))))))))
            (parse_comment_doc hs6)
        case oic =>
          cases h3
          refine docExt_refl _ ?_
          rw [doc_advance, hd3]
        all_goals cases h3
      all_goals cases h3
    case word =>
      obtain ⟨s6, hs6, h5⟩ := bind_ok h2
      refine docExt_trans (docExt_refl _ hd1) (docExt_trans ?_ (ih h5))
      exact docExt_mono (fun x hx => Or.inl hx) (parse_text_doc hs6)
    case text =>
      obtain ⟨s6, hs6, h5⟩ := bind_ok h2
      refine docExt_trans (docExt_refl _ hd1) (docExt_trans ?_ (ih h5))
      exact docExt_mono (fun x hx => Or.inl hx) (parse_text_doc hs6)
    all_goals cases h2

/-- The node a successful `parse_paragraph` pushes. -/
def ParagraphNode (nd : Node) : Prop :=
  ∃ kids, nd = .paragraph kids ∧ ∀ x ∈ kids, ParKid x

theorem parse_paragraph_mu {n : Nat} {s s' : PState} (h : parse_paragraph n s = .ok s') :
    mu s' ≤ mu s := by
  unfold parse_paragraph at h
  obtain ⟨s1, hs1, h2⟩ := bind_ok h
  obtain ⟨s2, hs2, h3⟩ := bind_ok h2
  obtain ⟨-, e1⟩ := expect_kw_ok hs1; subst e1
  have hm1 := mu_advance_le s
  have hm2 : mu s2 ≤ mu (advance s) := by
    have := paragraphLoop_mu _ hs2
    rwa [mu_stack_set] at this
  rcases hstk : s2.stack with _ | ⟨kids, rest⟩ <;> simp only [hstk] at h3 <;> cases h3
  · rw [mu_push_node]; omega
  · rw [mu_push_node, mu_stack_set]; omega

theorem parse_paragraph_total {n : Nat} {s : PState} (h : mu s < n) :
    parse_paragraph n s ≠ .out := by
  unfold parse_paragraph
  refine bind_not_out (expect_kw_not_out _ _) ?_
  intro s1 hs1
  obtain ⟨hlook, e1⟩ := expect_kw_ok hs1; subst e1
  have hma : mu (advance s) < mu s := mu_advance_lt s (by rw [hlook]; simp)
  refine bind_not_out ?_ ?_
  · apply paragraphLoop_total
    rw [mu_stack_set]
    omega
  · intro s2 _
    rcases s2.stack with _ | ⟨kids, rest⟩ <;> simp

theorem parse_paragraph_fuel {n m : Nat} {s : PState} (h : mu s < n) (hm : mu s < m) :
    parse_paragraph n s = parse_paragraph m s := by
  unfold parse_paragraph
  refine bind_congr' rfl ?_
  intro s1 hs1
  obtain ⟨hlook, e1⟩ := expect_kw_ok hs1; subst e1
  have hma : mu (advance s) < mu s := mu_advance_lt s (by rw [hlook]; simp)
  refine bind_congr' ?_ ?_
  · apply paragraphLoop_fuel <;> rw [mu_stack_set] <;> omega
  · intro a _
    rfl

theorem parse_paragraph_topInv {n : Nat} {s s' : PState}
    (h : parse_paragraph n s = .ok s') : TopInv s' := by
  unfold parse_paragraph at h
  obtain ⟨s1, hs1, h2⟩ := bind_ok h
  obtain ⟨s2, hs2, h3⟩ := bind_ok h2
  have hinv := paragraphLoop_topInv _ hs2
  rcases hstk : s2.stack with _ | ⟨kids, rest⟩ <;> simp only [hstk] at h3 <;> cases h3
  · exact topInv_of_eq (push_node_lex _ _) (push_node_look _ _) hinv
  · refine topInv_of_eq (push_node_lex _ _) (push_node_look _ _) ?_
    exact topInv_of_eq rfl rfl hinv

theorem parse_paragraph_doc {n : Nat} {s s' : PState}
    (h : parse_paragraph n s = .ok s') : DocExt ParagraphNode s s' := by
  unfold parse_paragraph at h
  obtain ⟨s1, hs1, h2⟩ := bind_ok h
  obtain ⟨s2, hs2, h3⟩ := bind_ok h2
  obtain ⟨-, e1⟩ := expect_kw_ok hs1; subst e1
  obtain ⟨new, hP, hdoc⟩ := paragraphLoop_doc _ hs2
  have hast : s2.ast = (advance s).ast := by
    have := congrArg Prod.fst hdoc
    simpa [doc, docAppend] using this
  have hstk : s2.stack = new :: (advance s).stack := by
    have := congrArg Prod.snd hdoc
    simpa [doc, docAppend] using this
  rw [hstk] at h3
  simp only at h3
  cases h3
  refine ⟨[.paragraph new], ?_, ?_⟩
  · intro x hx
    simp only [List.mem_singleton] at hx
    subst hx
    exact ⟨new, rfl, hP⟩
  · rw [doc_push_node]
    have : doc { s2 with stack := (advance s).stack } = doc (advance s) := by
      simp [doc, hast]
    rw [this, doc_advance]

theorem listLoop_mu : ∀ n {s s' : PState}, listLoop n s = .ok s' → mu s' ≤ mu s := by
  intro n
  induction n with
  | zero => intro s s' h; cases h
  | succ n ih =>
    intro s s' h
    simp only [listLoop] at h
    obtain ⟨s1, hs1, h2⟩ := bind_ok h
    have hm1 := skip_ws_mu _ hs1
    rcases hl1 : s1.look with _ | w | t | k | _ <;> simp only [hl1] at h2
    case hash =>
      obtain ⟨s3, hs3, h3⟩ := bind_ok h2
      have hma : mu (advance s1) < mu s1 := mu_advance_lt s1 (by rw [hl1]; simp)
      have hm3 := skip_ws_mu _ hs3
      rcases hl3 : s3.look with _ | w3 | t3 | k3 | _ <;> simp only [hl3] at h3
      case kw =>
        rcases k3 <;> simp only at h3
        case gimmeh =>
          obtain ⟨s6, hs6, h5⟩ := bind_ok h3
          rw [parse_list_items_eq] at hs6
          have hm6 := leafBody_mu hs6
          have hrec := ih h5
          omega
        case obtw =>
          obtain ⟨s6, hs6, h5⟩ := bind_ok h3
          have hm6 := parse_comment_mu hs6
          have hrec := ih h5
          omega
        case oic =>
          cases h3
          have := mu_advance_le s3
          omega
        all_goals cases h3
      all_goals cases h3
    all_goals cases h2

theorem listLoop_total : ∀ n s, mu s + 1 < n → listLoop n s ≠ .out := by
  intro n
  induction n with
  | zero => intro s h; omega
  | succ n ih =>
    intro s h
    simp only [listLoop]
    obtain ⟨s1, hs1⟩ := skip_ws_total n s (by omega)
    refine bind_not_out (by rw [hs1]; simp) ?_
    intro s1' hs1'
    rw [hs1] at hs1'
    cases hs1'
    have hm1 := skip_ws_mu _ hs1
    rcases hl1 : s1.look with _ | w | t | k | _
    case hash =>
      simp only [hl1]
      have hma : mu (advance s1) < mu s1 := mu_advance_lt s1 (by rw [hl1]; simp)
      obtain ⟨s3, hs3⟩ := skip_ws_total n (advance s1) (by omega)
      refine bind_not_out (by rw [hs3]; simp) ?_
      intro s3' hs3'
      rw [hs3] at hs3'
      cases hs3'
      have hm3 := skip_ws_mu _ hs3
      rcases hl3 : s3.look with _ | w3 | t3 | k3 | _
      case kw =>
        rcases k3
        case gimmeh =>
          simp only [hl3]
          refine bind_not_out
            (by rw [parse_list_items_eq]; exact leafBody_total (by omega)) ?_
          intro s6 hs6
          rw [parse_list_items_eq] at hs6
          have hm6 := leafBody_mu hs6
          exact ih s6 (by omega)
        case obtw =>
          simp only [hl3]
          refine bind_not_out (parse_comment_total (by omega)) ?_
          intro s6 hs6
          have hm6 := parse_comment_mu hs6
          exact ih s6 (by omega)
        all_goals simp [hl3]
      all_goals simp [hl3]
    all_goals simp [hl1]

theorem listLoop_fuel : ∀ n m s, mu s + 1 < n → mu s + 1 < m →
    listLoop n s = listLoop m s := by
  intro n
  induction n with
  | zero => intro m s h; omega
  | succ n ih =>
    intro m s h hm
    rcases m with _ | m
    · omega
    · simp only [listLoop]
      refine bind_congr' (skip_ws_fuel n m s (by omega) (by omega)) ?_
      intro s1 hs1
      have hm1 := skip_ws_mu _ hs1
      rcases hl1 : s1.look with _ | w | t | k | _
      case hash =>
        simp only [hl1]
        have hma : mu (advance s1) < mu s1 := mu_advance_lt s1 (by rw [hl1]; simp)
        refine bind_congr' (skip_ws_fuel n m (advance s1) (by omega) (by omega)) ?_
        intro s3 hs3
        have hm3 := skip_ws_mu _ hs3
        rcases hl3 : s3.look with _ | w3 | t3 | k3 | _
        case kw =>
          rcases k3
          case gimmeh =>
            simp only [hl3]
            rw [parse_list_items_eq]
            refine bind_congr' (leafBody_fuel (by omega) (by omega)) ?_
            intro s6 hs6
            have hm6 := leafBody_mu hs6
            exact ih m s6 (by omega) (by omega)
          case obtw =>
            simp only [hl3]
            refine bind_congr' (parse_comment_fuel (by omega) (by omega)) ?_
            intro s6 hs6
            have hm6 := parse_comment_mu hs6
            exact ih m s6 (by omega) (by omega)
          all_goals simp [hl3]
        all_goals simp [hl3]
      all_goals simp [hl1]

theorem listLoop_topInv : ∀ n {s s' : PState}, listLoop n s = .ok s' → TopInv s' := by
  intro n
  induction n with
  | zero => intro s s' h; cases h
  | succ n ih =>
    intro s s' h
    simp only [listLoop] at h
    obtain ⟨s1, hs1, h2⟩ := bind_ok h
    rcases hl1 : s1.look with _ | w | t | k | _ <;> simp only [hl1] at h2
    case hash =>
      obtain ⟨s3, hs3, h3⟩ := bind_ok h2
      rcases hl3 : s3.look with _ | w3 | t3 | k3 | _ <;> simp only [hl3] at h3
      case kw =>
        rcases k3 <;> simp only at h3
        case gimmeh =>
          obtain ⟨s6, hs6, h5⟩ := bind_ok h3
          exact ih h5
        case obtw =>
          obtain ⟨s6, hs6, h5⟩ := bind_ok h3
          exact ih h5
        case oic =>
          cases h3
          exact closer_topInv s3 .oic hl3 rfl
            (skip_ws_lexInv n hs3 (lexInv_advance s1))
        all_goals cases h3
      all_goals cases h3
    all_goals cases h2

/-- What `parse_list`'s loop may push into the open scope. -/
def ListKid (nd : Node) : Prop :=
  (∃ t, nd = .listItem [.text t]) ∨ (∃ t, nd = .comment t)

theorem listLoop_doc : ∀ n {s s' : PState}, listLoop n s = .ok s' →
    DocExt ListKid s s' := by
  intro n
  induction n with
  | zero => intro s s' h; cases h
  | succ n ih =>
    intro s s' h
    simp only [listLoop] at h
    obtain ⟨s1, hs1, h2⟩ := bind_ok h
    have hd1 : doc s1 = doc s := by
      obtain ⟨ha, hst⟩ := skip_ws_ast _ hs1
      simp [doc, ha, hst]
    rcases hl1 : s1.look with _ | w | t | k | _ <;> simp only [hl1] at h2
    case hash =>
      obtain ⟨s3, hs3, h3⟩ := bind_ok h2
      have hd3 : doc s3 = doc s := by
        obtain ⟨ha, hst⟩ := skip_ws_ast _ hs3
        have e1 : s1.ast = s.ast := congrArg Prod.fst hd1
        have e2 : s1.stack = s.stack := congrArg Prod.snd hd1
        simp [doc, ha, hst, advance_ast, advance_stack, e1, e2]
      rcases hl3 : s3.look with _ | w3 | t3 | k3 | _ <;> simp only [hl3] at h3
      case kw =>
        rcases k3 <;> simp only at h3
        case gimmeh =>
          obtain ⟨s6, hs6, h5⟩ := bind_ok h3
          rw [parse_list_items_eq] at hs6
          refine docExt_trans (docExt_refl _ hd3) (docExt_trans ?_ (ih h5))
          exact docExt_mono (fun x hx => Or.inl hx) (leafBody_doc hs6)
        case obtw =>
          obtain ⟨s6, hs6, h5⟩ := bind_ok h3
          refine docExt_trans (docExt_refl _ hd3) (docExt_trans ?_ (ih h5))
          exact docExt_mono (fun x hx => Or.inr hx) (parse_comment_doc hs6)
        case oic =>
          cases h3
          refine docExt_refl _ ?_
          rw [doc_advance, hd3]
        all_goals cases h3
      all_goals cases h3
    all_goals cases h2

/-- The node a successful `parse_list` pushes. -/
def ListNode (nd : Node) : Prop :=
  ∃ kids, nd = .list kids ∧ ∀ x ∈ kids, ListKid x

theorem parse_list_mu {n : Nat} {s s' : PState} (h : parse_list n s = .ok s') :
    mu s' ≤ mu s := by
  unfold parse_list at h
  obtain ⟨s1, hs1, h2⟩ := bind_ok h
  obtain ⟨s2, hs2, h3⟩ := bind_ok h2
  obtain ⟨-, e1⟩ := expect_kw_ok hs1; subst e1
  have hm1 := mu_advance_le s
  have hm2 : mu s2 ≤ mu (advance s) := by
    have := listLoop_mu _ hs2
    rwa [mu_stack_set] at this
  rcases hstk : s2.stack with _ | ⟨kids, rest⟩ <;> simp only [hstk] at h3 <;> cases h3
  · rw [mu_push_node]; omega
  · rw [mu_push_node, mu_stack_set]; omega

theorem parse_list_total {n : Nat} {s : PState} (h : mu s < n) :
    parse_list n s ≠ .out := by
  unfold parse_list
  refine bind_not_out (expect_kw_not_out _ _) ?_
  intro s1 hs1
  obtain ⟨hlook, e1⟩ := expect_kw_ok hs1; subst e1
  have hma : mu (advance s) < mu s := mu_advance_lt s (by rw [hlook]; simp)
  refine bind_not_out ?_ ?_
  · apply listLoop_total
    rw [mu_stack_set]
    omega
  · intro s2 _
    rcases s2.stack with _ | ⟨kids, rest⟩ <;> simp

theorem parse_list_fuel {n m : Nat} {s : PState} (h : mu s < n) (hm : mu s < m) :
    parse_list n s = parse_list m s := by
  unfold parse_list
  refine bind_congr' rfl ?_
  intro s1 hs1
  obtain ⟨hlook, e1⟩ := expect_kw_ok hs1; subst e1
  have hma : mu (advance s) < mu s := mu_advance_lt s (by rw [hlook]; simp)
  refine bind_congr' ?_ ?_
  · apply listLoop_fuel <;> rw [mu_stack_set] <;> omega
  · intro a _
    rfl

theorem parse_list_topInv {n : Nat} {s s' : PState} (h : parse_list n s = .ok s') :
    TopInv s' := by
  unfold parse_list at h
  obtain ⟨s1, hs1, h2⟩ := bind_ok h
  obtain ⟨s2, hs2, h3⟩ := bind_ok h2
  have hinv := listLoop_topInv _ hs2
  rcases hstk : s2.stack with _ | ⟨kids, rest⟩ <;> simp only [hstk] at h3 <;> cases h3
  · exact topInv_of_eq (push_node_lex _ _) (push_node_look _ _) hinv
  · refine topInv_of_eq (push_node_lex _ _) (push_node_look _ _) ?_
    exact topInv_of_eq rfl rfl hinv

theorem parse_list_doc {n : Nat} {s s' : PState} (h : parse_list n s = .ok s') :
    DocExt ListNode s s' := by
  unfold parse_list at h
  obtain ⟨s1, hs1, h2⟩ := bind_ok h
  obtain ⟨s2, hs2, h3⟩ := bind_ok h2
  obtain ⟨-, e1⟩ := expect_kw_ok hs1; subst e1
  obtain ⟨new, hP, hdoc⟩ := listLoop_doc _ hs2
  have hast : s2.ast = (advance s).ast := by
    have := congrArg Prod.fst hdoc
    simpa [doc, docAppend] using this
  have hstk : s2.stack = new :: (advance s).stack := by
    have := congrArg Prod.snd hdoc
    simpa [doc, docAppend] using this
  rw [hstk] at h3
  simp only at h3
  cases h3
  refine ⟨[.list new], ?_, ?_⟩
  · intro x hx
    simp only [List.mem_singleton] at hx
    subst hx
    exact ⟨new, rfl, hP⟩
  · rw [doc_push_node]
    have : doc { s2 with stack := (advance s).stack } = doc (advance s) := by
      simp [doc, hast]
    rw [this, doc_advance]

theorem lolcodeLoop_total : ∀ n s, mu s + 1 < n → TopInv s → lolcodeLoop n s ≠ .out := by
  intro n
  induction n with
  | zero => intro s h; omega
  | succ n ih =>
    intro s h hinv
    simp only [lolcodeLoop]
    obtain ⟨s1, hs1⟩ := skip_ws_total n s (by omega)
    refine bind_not_out (by rw [hs1]; simp) ?_
    intro s1' hs1'
    rw [hs1] at hs1'
    cases hs1'
    have hm1 := skip_ws_mu _ hs1
    have hinv1 : TopInv s1 := skip_ws_topInv n hs1 hinv
    rcases hl1 : s1.look with _ | w | t | k | _
    case hash =>
      simp only [hl1]
      have hma : mu (advance s1) < mu s1 := mu_advance_lt s1 (by rw [hl1]; simp)
      obtain ⟨s3, hs3⟩ := skip_ws_total n (advance s1) (by omega)
      refine bind_not_out (by rw [hs3]; simp) ?_
      intro s3' hs3'
      rw [hs3] at hs3'
      cases hs3'
      have hm3 := skip_ws_mu _ hs3
      rcases hl3 : s3.look with _ | w3 | t3 | k3 | _
      case kw =>
        rcases k3
        case kthxbye => simp [hl3]
        case obtw =>
          simp only [hl3]
          refine bind_not_out (parse_comment_total (by omega)) ?_
          intro s6 hs6
          have hm6 := parse_comment_mu hs6
          exact ih s6 (by omega) (parse_comment_topInv hs6)
        case maek =>
          simp only [hl3]
          have hma3 : mu (advance s3) ≤ mu s3 := mu_advance_le s3
          obtain ⟨s5, hs5⟩ := skip_ws_total n (advance s3) (by omega)
          refine bind_not_out (by rw [hs5]; simp) ?_
          intro s5' hs5'
          rw [hs5] at hs5'
          cases hs5'
          have hm5 := skip_ws_mu _ hs5
          rcases hl5 : s5.look with _ | w5 | t5 | k5 | _
          case kw =>
            rcases k5
            case head =>
              simp only [hl5]
              refine bind_not_out (parse_head_total (by omega)) ?_
              intro s6 hs6
              have hm6 := parse_head_mu hs6
              exact ih s6 (by omega) (parse_head_topInv hs6)
            case paragraf =>
              simp only [hl5]
              refine bind_not_out (parse_paragraph_total (by omega)) ?_
              intro s6 hs6
              have hm6 := parse_paragraph_mu hs6
              exact ih s6 (by omega) (parse_paragraph_topInv hs6)
            case list =>
              simp only [hl5]
              refine bind_not_out (parse_list_total (by omega)) ?_
              intro s6 hs6
              have hm6 := parse_list_mu hs6
              exact ih s6 (by omega) (parse_list_topInv hs6)
            all_goals simp [hl5]
          all_goals simp [hl5]
        case gimmeh =>
          simp only [hl3]
          refine bind_not_out (parse_body_total (by omega)) ?_
          intro s6 hs6
          have hm6 := parse_body_mu hs6
          exact ih s6 (by omega) (parse_body_topInv hs6)
        case lemme =>
          simp only [hl3]
          refine bind_not_out (parse_variable_use_total _) ?_
          intro s6 hs6
          have hm6 := parse_variable_use_mu hs6
          exact ih s6 (by omega) (parse_variable_use_topInv hs6)
        case i =>
          simp only [hl3]
          refine bind_not_out (parse_variable_define_total (by omega)) ?_
          intro s6 hs6
          have hm6 := parse_variable_define_mu hs6
          exact ih s6 (by omega) (parse_variable_define_topInv hs6)
        all_goals simp [hl3]
      all_goals simp [hl3]
    case word =>
      simp only [hl1]
      refine bind_not_out (by
        obtain ⟨s6, hs6⟩ := @parse_text_total n s1 (by omega)
        rw [hs6]; simp) ?_
      intro s6 hs6
      have hm6 := parse_text_mu_strict hs6 (Or.inl ⟨w, hl1⟩)
      exact ih s6 (by omega) (parse_text_topInv hs6 hinv1)
    case text =>
      simp only [hl1]
      refine bind_not_out (by
        obtain ⟨s6, hs6⟩ := @parse_text_total n s1 (by omega)
        rw [hs6]; simp) ?_
      intro s6 hs6
      have hm6 := parse_text_mu_strict hs6 (Or.inr ⟨t, hl1⟩)
      exact ih s6 (by omega) (parse_text_topInv hs6 hinv1)
    case eof => simp [hl1]
    case kw => exact absurd hl1 (hinv1.1 k)

theorem lolcodeLoop_fuel : ∀ n m s, mu s + 1 < n → mu s + 1 < m → TopInv s →
    lolcodeLoop n s = lolcodeLoop m s := by
  intro n
  induction n with
  | zero => intro m s h; omega
  | succ n ih =>
    intro m s h hm hinv
    rcases m with _ | m
    · omega
    · simp only [lolcodeLoop]
      refine bind_congr' (skip_ws_fuel n m s (by omega) (by omega)) ?_
      intro s1 hs1
      have hm1 := skip_ws_mu _ hs1
      have hinv1 : TopInv s1 := skip_ws_topInv n hs1 hinv
      rcases hl1 : s1.look with _ | w | t | k | _
      case hash =>
        simp only [hl1]
        have hma : mu (advance s1) < mu s1 := mu_advance_lt s1 (by rw [hl1]; simp)
        refine bind_congr' (skip_ws_fuel n m (advance s1) (by omega) (by omega)) ?_
        intro s3 hs3
        have hm3 := skip_ws_mu _ hs3
        rcases hl3 : s3.look with _ | w3 | t3 | k3 | _
        case kw =>
          rcases k3
          case kthxbye => simp [hl3]
          case obtw =>
            simp only [hl3]
            refine bind_congr' (parse_comment_fuel (by omega) (by omega)) ?_
            intro s6 hs6
            have hm6 := parse_comment_mu hs6
            exact ih m s6 (by omega) (by omega) (parse_comment_topInv hs6)
          case maek =>
            simp only [hl3]
            have hma3 : mu (advance s3) ≤ mu s3 := mu_advance_le s3
            refine bind_congr' (skip_ws_fuel n m (advance s3) (by omega) (by omega)) ?_
            intro s5 hs5
            have hm5 := skip_ws_mu _ hs5
            rcases hl5 : s5.look with _ | w5 | t5 | k5 | _
            case kw =>
              rcases k5
              case head =>
                simp only [hl5]
                refine bind_congr' (parse_head_fuel (by omega) (by omega)) ?_
                intro s6 hs6
                have hm6 := parse_head_mu hs6
                exact ih m s6 (by omega) (by omega) (parse_head_topInv hs6)
              case paragraf =>
                simp only [hl5]
                refine bind_congr' (parse_paragraph_fuel (by omega) (by omega)) ?_
                intro s6 hs6
                have hm6 := parse_paragraph_mu hs6
                exact ih m s6 (by omega) (by omega) (parse_paragraph_topInv hs6)
              case list =>
                simp only [hl5]
                refine bind_congr' (parse_list_fuel (by omega) (by omega)) ?_
                intro s6 hs6
                have hm6 := parse_list_mu hs6
                exact ih m s6 (by omega) (by omega) (parse_list_topInv hs6)
              all_goals simp [hl5]
            all_goals simp [hl5]
          case gimmeh =>
            simp only [hl3]
            refine bind_congr' (parse_body_fuel (by omega) (by omega)) ?_
            intro s6 hs6
            have hm6 := parse_body_mu hs6
            exact ih m s6 (by omega) (by omega) (parse_body_topInv hs6)
          case lemme =>
            simp only [hl3]
            refine bind_congr' rfl ?_
            intro s6 hs6
            have hm6 := parse_variable_use_mu hs6
            exact ih m s6 (by omega) (by omega) (parse_variable_use_topInv hs6)
          case i =>
            simp only [hl3]
            refine bind_congr' (parse_variable_define_fuel (by omega) (by omega)) ?_
            intro s6 hs6
            have hm6 := parse_variable_define_mu hs6
            exact ih m s6 (by omega) (by omega) (parse_variable_define_topInv hs6)
          all_goals simp [hl3]
        all_goals simp [hl3]
      case word =>
        simp only [hl1]
        refine bind_congr' (parse_text_fuel (by omega) (by omega)) ?_
        intro s6 hs6
        have hm6 := parse_text_mu_strict hs6 (Or.inl ⟨w, hl1⟩)
        exact ih m s6 (by omega) (by omega) (parse_text_topInv hs6 hinv1)
      case text =>
        simp only [hl1]
        refine bind_congr' (parse_text_fuel (by omega) (by omega)) ?_
        intro s6 hs6
        have hm6 := parse_text_mu_strict hs6 (Or.inr ⟨t, hl1⟩)
        exact ih m s6 (by omega) (by omega) (parse_text_topInv hs6 hinv1)
      case eof => simp [hl1]
      case kw => exact absurd hl1 (hinv1.1 k)

/-- The node shapes that can appear at the innermost open scope of the
top-level loop (the document root). -/
def RootElem (nd : Node) : Prop :=
  (∃ t, nd = .comment t) ∨ HeadNode nd ∨ ParagraphNode nd ∨ ListNode nd ∨
  BodyElem nd ∨ (∃ t, nd = .text t) ∨ (∃ a b, nd = .varDef a b) ∨
  (∃ a, nd = .varUse a)

theorem lolcodeLoop_doc : ∀ n {s s' : PState}, lolcodeLoop n s = .ok s' →
    DocExt RootElem s s' := by
  intro n
  induction n with
  | zero => intro s s' h; cases h
  | succ n ih =>
    intro s s' h
    simp only [lolcodeLoop] at h
    obtain ⟨s1, hs1, h2⟩ := bind_ok h
    have hd1 : doc s1 = doc s := by
      obtain ⟨ha, hst⟩ := skip_ws_ast _ hs1
      simp [doc, ha, hst]
    rcases hl1 : s1.look with _ | w | t | k | _ <;> simp only [hl1] at h2
    case hash =>
      obtain ⟨s3, hs3, h3⟩ := bind_ok h2
      have hd3 : doc s3 = doc s := by
        obtain ⟨ha, hst⟩ := skip_ws_ast _ hs3
        have e1 : s1.ast = s.ast := congrArg Prod.fst hd1
        have e2 : s1.stack = s.stack := congrArg Prod.snd hd1
        simp [doc, ha, hst, advance_ast, advance_stack, e1, e2]
      rcases hl3 : s3.look with _ | w3 | t3 | k3 | _ <;> simp only [hl3] at h3
      case kw =>
        rcases k3 <;> simp only at h3
        case kthxbye =>
          cases h3
          refine docExt_refl _ ?_
          rw [doc_advance, hd3]
        case obtw =>
          obtain ⟨s6, hs6, h5⟩ := bind_ok h3
          refine docExt_trans (docExt_refl _ hd3) (docExt_trans ?_ (ih h5))
          exact docExt_mono (fun x hx => Or.inl hx) (parse_comment_doc hs6)
        case maek =>
          obtain ⟨s5, hs5, h4⟩ := bind_ok h3
          have hd5 : doc s5 = doc s := by
            obtain ⟨ha, hst⟩ := skip_ws_ast _ hs5
            have e1 : s3.ast = s.ast := congrArg Prod.fst hd3
            have e2 : s3.stack = s.stack := congrArg Prod.snd hd3
            simp [doc, ha, hst, advance_ast, advance_stack, e1, e2]
          rcases hl5 : s5.look with _ | w5 | t5 | k5 | _ <;> simp only [hl5] at h4
          case kw =>
            rcases k5 <;> simp only at h4
            case head =>
              obtain ⟨s6, hs6, h5⟩ := bind_ok h4
              refine docExt_trans (docExt_refl _ hd5) (docExt_trans ?_ (ih h5))
              exact docExt_mono (fun x hx => Or.inr (Or.inl hx)) (parse_head_doc hs6)
            case paragraf =>
              obtain ⟨s6, hs6, h5⟩ := bind_ok h4
              refine docExt_trans (docExt_refl _ hd5) (docExt_trans ?_ (ih h5))
              exact docExt_mono (fun x hx => Or.inr (Or.inr (Or.inl hx)))
                (parse_paragraph_doc hs6)
            case list =>
              obtain ⟨s6, hs6, h5⟩ := bind_ok h4
              refine docExt_trans (docExt_refl _ hd5) (docExt_trans ?_ (ih h5))
              exact docExt_mono (fun x hx => Or.inr (Or.inr (Or.inr (Or.inl hx))))
                (parse_list_doc hs6)
            all_goals cases h4
          all_goals cases h4
        case gimmeh =>
          obtain ⟨s6, hs6, h5⟩ := bind_ok h3
          refine docExt_trans (docExt_refl _ hd3) (docExt_trans ?_ (ih h5))
          exact docExt_mono (fun x hx => Or.inr (Or.inr (Or.inr (Or.inr (Or.inl hx)))))
            (parse_body_doc hs6)
        case lemme =>
          obtain ⟨s6, hs6, h5⟩ := bind_ok h3
          refine docExt_trans (docExt_refl _ hd3) (docExt_trans ?_ (ih h5))
          exact docExt_mono
            (fun x hx => Or.inr (Or.inr (Or.inr (Or.inr (Or.inr (Or.inr (Or.inr hx)))))))
            (parse_variable_use_doc hs6)
        case i =>
          obtain ⟨s6, hs6, h5⟩ := bind_ok h3
          refine docExt_trans (docExt_refl _ hd3) (docExt_trans ?_ (ih h5))
          exact docExt_mono
            (fun x hx => Or.inr (Or.inr (Or.inr (Or.inr (Or.inr (Or.inr (Or.inl hx)))))))
            (parse_variable_define_doc hs6)
        all_goals cases h3
      all_goals cases h3
    case word =>
      obtain ⟨s6, hs6, h5⟩ := bind_ok h2
      refine docExt_trans (docExt_refl _ hd1) (docExt_trans ?_ (ih h5))
      exact docExt_mono (fun x hx => Or.inr (Or.inr (Or.inr (Or.inr (Or.inr (Or.inl hx))))))
        (parse_text_doc hs6)
    case text =>
      obtain ⟨s6, hs6, h5⟩ := bind_ok h2
      refine docExt_trans (docExt_refl _ hd1) (docExt_trans ?_ (ih h5))
      exact docExt_mono (fun x hx => Or.inr (Or.inr (Or.inr (Or.inr (Or.inr (Or.inl hx))))))
        (parse_text_doc hs6)
    case kw =>
      refine docExt_trans (docExt_refl _ hd1) (ih h2)
    case eof => cases h2

theorem initState_lexInv (input : List Char) : LexInv (initState input) :=
  lexInv_initState input

/-- Fuel sufficiency for the top-level entry point: `parse_lolcode` never
runs out of fuel, on any input. -/
theorem parse_lolcode_not_out (input : List Char) : parse_lolcode input ≠ .out := by
  simp only [parse_lolcode]
  refine bind_not_out ?_ ?_
  · refine bind_not_out (expect_hash_not_out _) ?_
    intro s1 hs1
    obtain ⟨hlook0, e1⟩ := expect_hash_ok hs1; subst e1
    refine bind_not_out (expect_kw_not_out _ _) ?_
    intro s2 hs2
    obtain ⟨hlook1, e2⟩ := expect_kw_ok hs2; subst e2
    have hm1 : mu (advance (initState input)) < mu (initState input) :=
      mu_advance_lt _ (by rw [hlook0]; simp)
    have hm2 : mu (advance (advance (initState input))) < mu (advance (initState input)) :=
      mu_advance_lt _ (by rw [hlook1]; simp)
    refine bind_not_out (by
      obtain ⟨s3, hs3⟩ := skip_ws_total (mu (initState input) + 1)
        { advance (advance (initState input)) with
            stack := [] :: (advance (advance (initState input))).stack }
        (by rw [mu_stack_set]; omega)
      rw [hs3]; simp) ?_
    intro s3 hs3
    have hm3pre := skip_ws_mu _ hs3
    have hm3 : mu s3 ≤ mu (advance (advance (initState input))) := hm3pre
    have hinv3 : TopInv s3 := by
      refine skip_ws_topInv _ hs3 ?_
      refine topInv_of_eq rfl rfl ?_
      exact closer_topInv (advance (initState input)) .hai hlook1 rfl
        (lexInv_advance (initState input))
    exact lolcodeLoop_total _ s3 (by omega) hinv3
  · intro sf _
    rcases sf.stack with _ | ⟨kids, rest⟩ <;> simp

/-- Everything `parse_lolcode` returns at the root is a `RootElem`. -/
theorem parse_lolcode_doc {input : List Char} {ns : List Node}
    (h : parse_lolcode input = .ok ns) : ∀ x ∈ ns, RootElem x := by
  simp only [parse_lolcode] at h
  obtain ⟨sf, hrun, hfinal⟩ := bind_ok h
  obtain ⟨s1, hs1, hrun2⟩ := bind_ok hrun
  obtain ⟨s2, hs2, hrun3⟩ := bind_ok hrun2
  obtain ⟨s3, hws, hloop⟩ := bind_ok hrun3
  obtain ⟨-, e1⟩ := expect_hash_ok hs1; subst e1
  obtain ⟨-, e2⟩ := expect_kw_ok hs2; subst e2
  obtain ⟨hast3, hstk3⟩ := skip_ws_ast _ hws
  have hast3' : s3.ast = [] := by
    rw [hast3]
    simp [advance_ast, initState]
  have hstk3' : s3.stack = [[]] := by
    rw [hstk3]
    simp [advance_stack, initState]
  obtain ⟨new, hP, hdoc⟩ := lolcodeLoop_doc _ hloop
  have hstkf : sf.stack = [new] := by
    have := congrArg Prod.snd hdoc
    simpa [doc, docAppend, hstk3'] using this
  rw [hstkf] at hfinal
  simp only at hfinal
  cases hfinal
  exact hP

/-! ## Placement of `ListItem` and `Title` nodes in the tree.

`NodePlaced il ih ir nd` says that inside the subtree `nd` every
`ListItem` occurs only as a direct child of a `List` and every `Title`
only as a direct child of a `Head`, where the flags grant the node `nd`
itself the right to be a list item (`il`), a title (`ih`), or one of the
root-placed exceptions (`ir`). -/

inductive NodePlaced : Bool → Bool → Bool → Node → Prop where
  | html {il ih ir cs} :
      (∀ x ∈ cs, NodePlaced false false false x) → NodePlaced il ih ir (.html cs)
  | comment {il ih ir t} : NodePlaced il ih ir (.comment t)
  | head {il ih ir cs} :
      (∀ x ∈ cs, NodePlaced false true false x) → NodePlaced il ih ir (.head cs)
  | title {il ih ir t} : (ih = true ∨ ir = true) → NodePlaced il ih ir (.title t)
  | body {il ih ir cs} :
      (∀ x ∈ cs, NodePlaced false false false x) → NodePlaced il ih ir (.body cs)
  | paragraph {il ih ir cs} :
      (∀ x ∈ cs, NodePlaced false false false x) → NodePlaced il ih ir (.paragraph cs)
  | bold {il ih ir t} : NodePlaced il ih ir (.bold t)
  | italics {il ih ir t} : NodePlaced il ih ir (.italics t)
  | list {il ih ir cs} :
      (∀ x ∈ cs, NodePlaced true false false x) → NodePlaced il ih ir (.list cs)
  | listItem {il ih ir cs} : (il = true ∨ ir = true) →
      (∀ x ∈ cs, NodePlaced false false false x) → NodePlaced il ih ir (.listItem cs)
  | newline {il ih ir} : NodePlaced il ih ir .newline
  | audio {il ih ir t} : NodePlaced il ih ir (.audio t)
  | video {il ih ir t} : NodePlaced il ih ir (.video t)
  | text {il ih ir t} : NodePlaced il ih ir (.text t)
  | varDef {il ih ir a b} : NodePlaced il ih ir (.varDef a b)
  | varUse {il ih ir a} : NodePlaced il ih ir (.varUse a)

theorem headKid_placed {x : Node} (h : HeadKid x) : NodePlaced false true false x := by
  rcases h with ⟨t, rfl⟩ | ⟨t, rfl⟩
  · exact .title (Or.inl rfl)
  · exact .comment

theorem parKid_placed {x : Node} (h : ParKid x) : NodePlaced false false false x := by
  rcases h with ⟨t, rfl⟩ | ⟨t, rfl⟩ | ⟨t, rfl⟩ | rfl | ⟨t, rfl⟩ | ⟨t, rfl⟩ |
    ⟨a, b, rfl⟩ | ⟨a, rfl⟩ | ⟨t, rfl⟩
  · exact .text
  · exact .bold
  · exact .italics
  · exact .newline
  · exact .audio
  · exact .video
  · exact .varDef
  · exact .varUse
  · exact .comment

theorem listKid_placed {x : Node} (h : ListKid x) : NodePlaced true false false x := by
  rcases h with ⟨t, rfl⟩ | ⟨t, rfl⟩
  · refine .listItem (Or.inl rfl) ?_
    intro y hy
    simp only [List.mem_singleton] at hy
    subst hy
    exact .text
  · exact .comment

theorem bodyElem_placed {x : Node} (h : BodyElem x) : NodePlaced false false true x := by
  rcases h with ⟨t, rfl⟩ | ⟨t, rfl⟩ | rfl | ⟨t, rfl⟩ | ⟨t, rfl⟩ | ⟨t, rfl⟩ | ⟨t, rfl⟩
  · exact .bold
  · exact .italics
  · exact .newline
  · exact .audio
  · exact .video
  · refine .listItem (Or.inr rfl) ?_
    intro y hy
    simp only [List.mem_singleton] at hy
    subst hy
    exact .text
  · exact .title (Or.inr rfl)

theorem rootElem_placed {x : Node} (h : RootElem x) : NodePlaced false false true x := by
  rcases h with ⟨t, rfl⟩ | ⟨kids, rfl, hk⟩ | ⟨kids, rfl, hk⟩ | ⟨kids, rfl, hk⟩ |
    hb | ⟨t, rfl⟩ | ⟨a, b, rfl⟩ | ⟨a, rfl⟩
  · exact .comment
  · exact .head (fun y hy => headKid_placed (hk y hy))
  · exact .paragraph (fun y hy => parKid_placed (hk y hy))
  · exact .list (fun y hy => listKid_placed (hk y hy))
  · exact bodyElem_placed hb
  · exact .text
  · exact .varDef
  · exact .varUse

/-! ## Word characters are never whitespace. -/

theorem isWordChar_val {c : Char} (h : isWordChar c = true) :
    (48 ≤ c.val.toNat ∧ c.val.toNat ≤ 57) ∨ (65 ≤ c.val.toNat ∧ c.val.toNat ≤ 90) ∨
    (97 ≤ c.val.toNat ∧ c.val.toNat ≤ 122) ∨ c.val.toNat = 95 := by
  unfold isWordChar at h
  simp only [Char.isAlphanum, Char.isAlpha, Char.isUpper, Char.isLower, Char.isDigit,
    Bool.or_eq_true, Bool.and_eq_true, decide_eq_true_eq, ge_iff_le] at h
  rcases h with ((⟨h1, h2⟩ | ⟨h1, h2⟩) | ⟨h1, h2⟩) | h
  · exact Or.inr (Or.inl ⟨h1, h2⟩)
  · exact Or.inr (Or.inr (Or.inl ⟨h1, h2⟩))
  · exact Or.inl ⟨h1, h2⟩
  · subst h
    exact Or.inr (Or.inr (Or.inr rfl))

theorem isWordChar_not_ws {c : Char} (h : isWordChar c = true) : isWsChar c = false := by
  have hv := isWordChar_val h
  rcases hb : isWsChar c with _ | _
  · rfl
  · exfalso
    unfold isWsChar at hb
    simp only [Bool.or_eq_true, Bool.and_eq_true, decide_eq_true_eq, Char.le_def] at hb
    rcases hb with (((((((((((((he | he) | he) | he) | he) | he) | he) | he) | he) |
        ⟨hr1, hr2⟩) | he) | he) | he) | he) | he
    all_goals try (subst he; exact absurd hv (by decide))
    have r1 : 0x2000 ≤ c.val.toNat := hr1
    have r2 : c.val.toNat ≤ 0x200A := hr2
    omega

/-! ## Lexing a generic word at an input boundary. -/

theorem takeWhile_append_cons {p : Char → Bool} (w : List Char) (c : Char) (r : List Char)
    (hw : ∀ x ∈ w, p x = true) (hc : p c = false) :
    (w ++ c :: r).takeWhile p = w ∧ (w ++ c :: r).dropWhile p = c :: r := by
  induction w with
  | nil =>
    constructor
    · simp [List.takeWhile_cons, hc]
    · simp [List.dropWhile_cons, hc]
  | cons a w ih =>
    have ha : p a = true := hw a (by simp)
    obtain ⟨ih1, ih2⟩ := ih (fun x hx => hw x (by simp [hx]))
    constructor
    · simp [List.takeWhile_cons, ha, ih1]
    · simp [List.dropWhile_cons, ha, ih2]

theorem dropWhile_eq_self {p : Char → Bool} {l : List Char} (h : ∀ c ∈ l, p c = false) :
    l.dropWhile p = l := by
  cases l with
  | nil => rfl
  | cons a l =>
    rw [List.dropWhile_cons_of_neg]
    simp [h a (by simp)]

theorem takeWhile_eq_nil {p : Char → Bool} {l : List Char}
    (h : ∀ c ∈ l, p c = false) : l.takeWhile p = [] := by
  cases l with
  | nil => rfl
  | cons a l =>
    rw [List.takeWhile_cons_of_neg]
    simp [h a (by simp)]

/-- Trimming a word wrapped in single spaces yields the word. -/
theorem trim_space_wrap {w : List Char} (hw : ∀ c ∈ w, isWsChar c = false)
    (hne : w ≠ []) : trimChars (' ' :: (w ++ [' '])) = w := by
  unfold trimChars
  have h1 : (' ' :: (w ++ [' '])).dropWhile isWsChar = w ++ [' '] := by
    rw [List.dropWhile_cons_of_pos (by decide)]
    rcases w with _ | ⟨a, w'⟩
    · exact absurd rfl hne
    · rw [List.cons_append, List.dropWhile_cons_of_neg (by simp [hw a (by simp)])]
  rw [h1]
  have h2 : (w ++ [' ']).reverse = ' ' :: w.reverse := by simp
  rw [h2, List.dropWhile_cons_of_pos (by decide)]
  rw [dropWhile_eq_self (fun c hc => hw c (by simpa using hc))]
  simp

/-! ## Claim theorems. -/

/-- C1: the spec's list scenario
`#HAI#MAEK LIST#GIMMEH ITEM one#MKAY#GIMMEH ITEM two#MKAY#OIC#KTHXBYE`
does NOT parse to `[List [ListItem [Text "one"], ListItem [Text "two"]]]`:
the code returns the Syntax error `expected Item, found Gimmeh`, because the
`Gimmeh` arm of `parse_list`'s loop calls `parse_list_items` without
advancing past the `GIMMEH` token (unlike the corresponding arm of
`parse_head`), so `expect_kw Item` meets the `Gimmeh` lookahead.  An empty
`#MAEK LIST#OIC` block does parse, confirming the failure is specific to
the item arm. -/
theorem C1_list_scenario_fails :
    parse_lolcode "#HAI#MAEK LIST#GIMMEH ITEM one#MKAY#GIMMEH ITEM two#MKAY#OIC#KTHXBYE".data
      = .err (.synErr "Item".data "Gimmeh".data) ∧
    parse_lolcode "#HAI#MAEK LIST#OIC#KTHXBYE".data = .ok [.list []] :=
  ⟨rfl, rfl⟩

/-- C2: the whitespace-separated variable forms `#I HAZ x IT IZ y #MKAY` and
`#LEMME SEE x #MKAY` do NOT parse: `expect_kw` does not skip whitespace, so
the `Text " "` token after `I` (resp. `LEMME`) fails `expect_kw Haz`
(resp. `expect_kw See`) with the whitespace itself as the found lexeme. -/
theorem C2_variable_forms_fail :
    parse_lolcode "#HAI#I HAZ x IT IZ y #MKAY#KTHXBYE".data
      = .err (.synErr "Haz".data " ".data) ∧
    parse_lolcode "#HAI#LEMME SEE x #MKAY#KTHXBYE".data
      = .err (.synErr "See".data " ".data) :=
  ⟨rfl, rfl⟩

/-- C3 counterexample: the round-trip input does NOT parse to
`[Paragraph [Text "hello", Bold "world"]]` — `parse_text` pushes the raw
accumulated run, so the text node keeps its trailing space. -/
theorem C3_roundtrip_cex :
    parse_lolcode "#HAI#MAEK PARAGRAF hello #GIMMEH BOLD world#MKAY #OIC#KTHXBYE".data
      ≠ .ok [.paragraph [.text "hello".data, .bold "world".data]] := by
  intro hc
  rw [show parse_lolcode
      "#HAI#MAEK PARAGRAF hello #GIMMEH BOLD world#MKAY #OIC#KTHXBYE".data
      = .ok [.paragraph [.text "hello ".data, .bold "world".data]] from rfl] at hc
  injection hc with h1
  injection h1 with h2 h3
  injection h2 with h4
  injection h4 with h5 h6
  injection h5 with h7
  exact absurd h7 (by decide)

/-- C3 amended: the round-trip input parses to
`[Paragraph [Text "hello ", Bold "world"]]`: leading whitespace before the
text run is skipped by `skip_ws`, but the run itself is pushed untrimmed
(trimming is only used to drop all-whitespace runs). -/
theorem C3_roundtrip_amended :
    parse_lolcode "#HAI#MAEK PARAGRAF hello #GIMMEH BOLD world#MKAY #OIC#KTHXBYE".data
      = .ok [.paragraph [.text "hello ".data, .bold "world".data]] := rfl

/-- C4 counterexample: a top-level `#GIMMEH ITEM one#MKAY` parses
successfully and places a `ListItem` node directly at the document root,
not as a child of any `List`, refuting the strict nesting invariant. -/
theorem C4_nesting_cex :
    parse_lolcode "#HAI#GIMMEH ITEM one#MKAY#KTHXBYE".data
      = .ok [.listItem [.text "one".data]] ∧
    ¬ NodePlaced false false false (.listItem [.text "one".data]) := by
  refine ⟨rfl, ?_⟩
  intro hp
  cases hp with
  | listItem hflag _ => rcases hflag with h | h <;> cases h

/-- C4 amended: in every successfully parsed document, a `ListItem` appears
only as a direct child of a `List` node or directly at the document root
(via top-level `#GIMMEH ITEM`), and a `Title` only as a direct child of a
`Head` node or directly at the root (via top-level `#GIMMEH TITLE`); no
other container ever holds them. -/
theorem C4_nesting_amended {input : List Char} {ns : List Node}
    (h : parse_lolcode input = .ok ns) : ∀ x ∈ ns, NodePlaced false false true x :=
  fun x hx => rootElem_placed (parse_lolcode_doc h x hx)

/-- Witness for C4: the amended invariant, instantiated on a concrete
successful parse. -/
theorem C4_nesting_amended_witness :
    NodePlaced false false true (.head [.title "My Page".data]) :=
  @C4_nesting_amended "#HAI#MAEK HEAD#GIMMEH TITLE My Page#MKAY#OIC#KTHXBYE".data
    [.head [.title "My Page".data]]
    rfl (.head [.title "My Page".data]) (by simp)

/-- C7: for every block kind and inline construct, a document that opens the
construct and reaches end-of-input without its closer yields a Syntax error
whose found lexeme is `<EOF>`: HEAD, PARAGRAF and LIST report their missing
`#OIC`, the `#MKAY`-closed inline forms report the missing `#`, and the
variable forms report the next expected keyword. -/
theorem C7_missing_closers :
    parse_lolcode "#HAI#MAEK HEAD".data = .err (.synErr "#OIC".data "<EOF>".data) ∧
    parse_lolcode "#HAI#MAEK PARAGRAF hello".data
      = .err (.synErr "#OIC".data "<EOF>".data) ∧
    parse_lolcode "#HAI#MAEK LIST".data
      = .err (.synErr "#OIC for LIST".data "<EOF>".data) ∧
    parse_lolcode "#HAI#GIMMEH BOLD hi".data = .err (.synErr "#".data "<EOF>".data) ∧
    parse_lolcode "#HAI#GIMMEH ITALICS hi".data = .err (.synErr "#".data "<EOF>".data) ∧
    parse_lolcode "#HAI#GIMMEH TITLE hi".data = .err (.synErr "#".data "<EOF>".data) ∧
    parse_lolcode "#HAI#GIMMEH SOUNDZ a.mp3".data = .err (.synErr "#".data "<EOF>".data) ∧
    parse_lolcode "#HAI#GIMMEH VIDZ a.mp4".data = .err (.synErr "#".data "<EOF>".data) ∧
    parse_lolcode "#HAI#GIMMEH ITEM one".data = .err (.synErr "#".data "<EOF>".data) ∧
    parse_lolcode "#HAI#I".data = .err (.synErr "Haz".data "<EOF>".data) ∧
    parse_lolcode "#HAI#LEMME".data = .err (.synErr "See".data "<EOF>".data) ∧
    parse_lolcode "#HAI#OBTW never closed".data
      = .err (.synErr "#TLDR".data "<EOF>".data) :=
  ⟨rfl, rfl, rfl, rfl, rfl, rfl, rfl, rfl, rfl, rfl, rfl, rfl⟩

/-- C8: whenever the lexer's `after_hash` flag is clear and the previously
emitted keyword is not one of the triggering set (MAEK, GIMMEH, LEMME, I,
IT), `next_token` never emits a `Kw` token — any word, including every
keyword spelling, comes through as a `Word`/`Text` (or `Hash`/`Eof`)
token and is parsed as prose. -/
theorem C8_keyword_as_prose (lx : CharLexer) (h1 : lx.afterHash = false)
    (h2 : prevKwExpectsKeyword lx.prevKw = false) :
    (∀ k, (nextToken lx).1 ≠ .kw k) ∧
    ((∃ w, (nextToken lx).1 = .word w) ∨ (∃ t, (nextToken lx).1 = .text t) ∨
     (nextToken lx).1 = .hash ∨ (nextToken lx).1 = .eof) := by
  refine ⟨nextToken_no_kw lx h1 h2, ?_⟩
  rcases ht : (nextToken lx).1 with _ | w | t | k | _
  · exact Or.inr (Or.inr (Or.inl rfl))
  · exact Or.inl ⟨w, rfl⟩
  · exact Or.inr (Or.inl ⟨t, rfl⟩)
  · exact absurd ht (nextToken_no_kw lx h1 h2 k)
  · exact Or.inr (Or.inr (Or.inr rfl))

/-- Witness for C8: the keyword spelling `LIST` in plain prose context is
lexed as a `Word`, not a `Kw`. -/
theorem C8_keyword_as_prose_witness :
    (∀ k, (nextToken ⟨"LIST of things".data, false, none⟩).1 ≠ .kw k) ∧
    (nextToken ⟨"LIST of things".data, false, none⟩).1 = .word "LIST".data :=
  ⟨(C8_keyword_as_prose ⟨"LIST of things".data, false, none⟩ rfl rfl).1, rfl⟩

/-- C9: parsing terminates on every input: `parse_lolcode` never exhausts
its fuel (the measure-based sufficiency theorem), hence returns `Ok` or a
Syntax error on every finite input; every `advance` over a non-`Eof`
lookahead strictly shrinks the unread-input measure (so every parser loop
either advances or exits); and a never-closed block fails at end-of-input
with a Syntax error instead of hanging. -/
theorem C9_parsing_terminates :
    (∀ input : List Char, parse_lolcode input ≠ .out) ∧
    (∀ input : List Char, (∃ ns, parse_lolcode input = .ok ns) ∨
      (∃ e, parse_lolcode input = .err e)) ∧
    (∀ s : PState, s.look ≠ .eof → mu (advance s) < mu s) ∧
    parse_lolcode "#HAI#MAEK LIST".data
      = .err (.synErr "#OIC for LIST".data "<EOF>".data) := by
  refine ⟨parse_lolcode_not_out, ?_, mu_advance_lt, rfl⟩
  intro input
  rcases h : parse_lolcode input with ns | e | _
  · exact Or.inl ⟨ns, rfl⟩
  · exact Or.inr ⟨e, rfl⟩
  · exact absurd h (parse_lolcode_not_out input)

/-- Witness for C9: the strict measure decrease and fuel sufficiency at
concrete inputs. -/
theorem C9_parsing_terminates_witness :
    mu (advance ⟨⟨"x".data, false, none⟩, .hash, [], []⟩) <
      mu ⟨⟨"x".data, false, none⟩, .hash, [], []⟩ ∧
    parse_lolcode "#HAI#KTHXBYE".data ≠ .out :=
  ⟨C9_parsing_terminates.2.2.1 ⟨⟨"x".data, false, none⟩, .hash, [], []⟩ (by decide),
   C9_parsing_terminates.1 "#HAI#KTHXBYE".data⟩

/-! ## Generic-word runs for the comment and head families. -/

theorem topInv_hash_look {s : PState} (h : s.look = .hash) : TopInv s := by
  constructor
  · intro k hk
    rw [h] at hk
    cases hk
  · intro hh
    rcases hh with ⟨x, hx⟩ | ⟨x, hx⟩ <;> rw [h] at hx <;> cases hx

/-- Evaluation of `parse_comment` on `OBTW <word> #TLDR...`, for an
arbitrary all-word-character word. -/
theorem comment_word_run (c0 : Char) (w' : List Char)
    (hw : ∀ c ∈ c0 :: w', isWordChar c = true) :
    ∀ n, 5 < n →
      parse_comment n
        ⟨⟨' ' :: ((c0 :: w') ++ " #TLDR#KTHXBYE".data), false, some .obtw⟩,
          .kw .obtw, [], [[]]⟩
        = .ok ⟨⟨"KTHXBYE".data, true, none⟩, .hash, [],
            [[.comment (c0 :: w')]]⟩ := by
  intro n hn
  have hc0w : isWordChar c0 = true := hw c0 (by simp)
  have hc0ws : isWsChar c0 = false := isWordChar_not_ws hc0w
  -- lexing the whitespace before the word
  have hnx1 : nextToken ⟨' ' :: ((c0 :: w') ++ " #TLDR#KTHXBYE".data), false, some .obtw⟩
      = (.text [' '],
         ⟨(c0 :: w') ++ " #TLDR#KTHXBYE".data, false, some .obtw⟩) := by
    show nextToken ⟨' ' :: (c0 :: (w' ++ " #TLDR#KTHXBYE".data)), false, some .obtw⟩ = _
    simp only [nextToken]
    rw [if_neg (by decide), if_pos (by decide)]
    rw [List.takeWhile_cons_of_pos (by decide), List.dropWhile_cons_of_pos (by decide)]
    rw [List.takeWhile_cons_of_neg (by simp [hc0ws]),
      List.dropWhile_cons_of_neg (by simp [hc0ws])]
    simp
  -- lexing the word itself (tail begins with a space)
  have hsp : isWordChar ' ' = false := by decide
  have htw := takeWhile_append_cons (c0 :: w') ' ' "#TLDR#KTHXBYE".data hw hsp
  have hnx2 : nextToken ⟨(c0 :: w') ++ " #TLDR#KTHXBYE".data, false, some .obtw⟩
      = (.word (c0 :: w'), ⟨" #TLDR#KTHXBYE".data, false, none⟩) := by
    show nextToken ⟨c0 :: (w' ++ " #TLDR#KTHXBYE".data), false, some .obtw⟩ = _
    simp only [nextToken]
    rw [if_neg (by intro hc; rw [hc] at hc0w; exact absurd hc0w (by decide))]
    rw [if_neg (by simp [hc0ws]), if_pos (by simp [hc0w])]
    have e1 : (c0 :: (w' ++ " #TLDR#KTHXBYE".data)).takeWhile isWordChar = c0 :: w' := htw.1
    have e2 : (c0 :: (w' ++ " #TLDR#KTHXBYE".data)).dropWhile isWordChar
        = ' ' :: "#TLDR#KTHXBYE".data := htw.2
    rw [e1, e2]
    rfl
  -- now run the comment loop with explicit fuel peeling
  obtain ⟨n1, rfl⟩ : ∃ m, n = m + 1 := ⟨n - 1, by omega⟩
  unfold parse_comment
  rw [expect_kw_eval rfl]
  simp only [PRes.bind]
  have hadv1 : advance ⟨⟨' ' :: ((c0 :: w') ++ " #TLDR#KTHXBYE".data), false, some .obtw⟩,
      .kw .obtw, [], [[]]⟩
      = ⟨⟨(c0 :: w') ++ " #TLDR#KTHXBYE".data, false, some .obtw⟩,
          .text [' '], [], [[]]⟩ := by
    simp only [advance, hnx1]
  rw [hadv1]
  obtain ⟨n2, rfl⟩ : ∃ m, n1 = m + 1 := ⟨n1 - 1, by omega⟩
  simp only [commentLoop]
  have hadv2 : advance ⟨⟨(c0 :: w') ++ " #TLDR#KTHXBYE".data, false, some .obtw⟩,
      .text [' '], [], [[]]⟩
      = ⟨⟨" #TLDR#KTHXBYE".data, false, none⟩, .word (c0 :: w'), [], [[]]⟩ := by
    simp only [advance, hnx2]
  rw [hadv2]
  obtain ⟨n3, rfl⟩ : ∃ m, n2 = m + 1 := ⟨n2 - 1, by omega⟩
  simp only [commentLoop]
  have hadv3 : advance ⟨⟨" #TLDR#KTHXBYE".data, false, none⟩,
      .word (c0 :: w'), [], [[]]⟩
      = ⟨⟨"#TLDR#KTHXBYE".data, false, none⟩, .text [' '], [], [[]]⟩ := rfl
  rw [hadv3]
  obtain ⟨n4, rfl⟩ : ∃ m, n3 = m + 1 := ⟨n3 - 1, by omega⟩
  simp only [commentLoop]
  have hadv4 : advance ⟨⟨"#TLDR#KTHXBYE".data, false, none⟩,
      .text [' '], [], [[]]⟩
      = ⟨⟨"TLDR#KTHXBYE".data, true, none⟩, .hash, [], [[]]⟩ := rfl
  rw [hadv4]
  obtain ⟨n5, rfl⟩ : ∃ m, n4 = m + 1 := ⟨n4 - 1, by omega⟩
  simp only [commentLoop]
  have hadv5 : advance ⟨⟨"TLDR#KTHXBYE".data, true, none⟩, .hash, [], [[]]⟩
      = ⟨⟨"#KTHXBYE".data, false, some .tldr⟩, .kw .tldr, [], [[]]⟩ := rfl
  rw [hadv5]
  rw [skip_ws_nontext (by omega) (fun t h => Token.noConfusion h)]
  simp only [PRes.bind]
  rw [expect_kw_eval rfl]
  simp only [PRes.bind]
  have hadv6 : advance ⟨⟨"#KTHXBYE".data, false, some .tldr⟩, .kw .tldr, [], [[]]⟩
      = ⟨⟨"KTHXBYE".data, true, none⟩, .hash, [], [[]]⟩ := rfl
  rw [hadv6]
  simp only [PRes.bind, push_node]
  have htrim : trimChars ([' '] ++ ((c0 :: w') ++ ([' '] ++ []))) = c0 :: w' := by
    have : ([' '] ++ ((c0 :: w') ++ ([' '] ++ []))) = ' ' :: ((c0 :: w') ++ [' ']) := by simp
    rw [this]
    exact trim_space_wrap (fun c hc => isWordChar_not_ws (hw c hc)) (by simp)
  rw [htrim]
  simp

/-- C6: CORRECTION (counterexample).  The spec claims a stray `#` inside an
`OBTW ... TLDR` comment (not followed by `TLDR`) is accumulated as text.  In
fact `parse_comment`, on a `#`, advances and *requires* the next token to be
the keyword `TLDR`: the comment `OBTW a # b TLDR` yields a syntax error
`expected TLDR, found b` instead of a Comment node. -/
theorem C6_comment_cex :
    parse_lolcode "#HAI#OBTW a # b #TLDR#KTHXBYE".data
      = .err (.synErr "TLDR".data "b".data) := rfl

/-- C6 (amended): a comment `#OBTW w #TLDR` whose body `w` is a single run of
word characters — in particular any raw keyword spelling such as `MAEK` —
is collected verbatim (not reinterpreted) into a Comment node; but a stray
`#` inside the comment is a syntax error, not accumulated text
(`C6_comment_cex`). -/
theorem C6_comment_amended (c0 : Char) (w' : List Char)
    (hw : ∀ c ∈ c0 :: w', isWordChar c = true) :
    parse_lolcode ("#HAI#OBTW ".data ++ (c0 :: w') ++ " #TLDR#KTHXBYE".data)
      = .ok [.comment (c0 :: w')] := by
  have hmu : mu (initState ("#HAI#OBTW ".data ++ (c0 :: w') ++ " #TLDR#KTHXBYE".data))
      = w'.length + 25 := by
    show ("HAI#OBTW ".data ++ (c0 :: w') ++ " #TLDR#KTHXBYE".data).length + 1
        = w'.length + 25
    simp [List.length_append]
  have E : parse_lolcode ("#HAI#OBTW ".data ++ (c0 :: w') ++ " #TLDR#KTHXBYE".data)
      = ((parse_comment
            (mu (initState ("#HAI#OBTW ".data ++ (c0 :: w') ++ " #TLDR#KTHXBYE".data)))
            ⟨⟨' ' :: ((c0 :: w') ++ " #TLDR#KTHXBYE".data), false, some .obtw⟩,
              .kw .obtw, [], [[]]⟩).bind
          fun s6 =>
            lolcodeLoop
              (mu (initState ("#HAI#OBTW ".data ++ (c0 :: w') ++ " #TLDR#KTHXBYE".data)))
              s6).bind
        fun sf =>
          match sf.stack with
          | kids :: _ => .ok kids
          | [] => .ok sf.ast := rfl
  rw [E, comment_word_run c0 w' hw
    (mu (initState ("#HAI#OBTW ".data ++ (c0 :: w') ++ " #TLDR#KTHXBYE".data)))
    (by omega)]
  simp only [PRes.bind]
  have e5 : lolcodeLoop
      (mu (initState ("#HAI#OBTW ".data ++ (c0 :: w') ++ " #TLDR#KTHXBYE".data)))
      ⟨⟨"KTHXBYE".data, true, none⟩, .hash, [], [[.comment (c0 :: w')]]⟩
      = lolcodeLoop 10
        ⟨⟨"KTHXBYE".data, true, none⟩, .hash, [], [[.comment (c0 :: w')]]⟩ := by
    refine lolcodeLoop_fuel _ _ _ ?_ ?_ (topInv_hash_look rfl)
    · have h8 : mu ⟨⟨"KTHXBYE".data, true, none⟩, .hash, [], [[.comment (c0 :: w')]]⟩
          = 8 := rfl
      omega
    · have h8 : mu ⟨⟨"KTHXBYE".data, true, none⟩, .hash, [], [[.comment (c0 :: w')]]⟩
          = 8 := rfl
      omega
  rw [e5]
  have e6 : lolcodeLoop 10
      ⟨⟨"KTHXBYE".data, true, none⟩, .hash, [], [[.comment (c0 :: w')]]⟩
      = .ok ⟨⟨[], false, some .kthxbye⟩, .eof, [], [[.comment (c0 :: w')]]⟩ := rfl
  rw [e6]

/-- Closed instance of `C6_comment_amended`: the raw keyword spelling `MAEK`
inside a comment is kept as comment text. -/
theorem C6_comment_amended_witness :
    parse_lolcode ("#HAI#OBTW ".data ++ ('M' :: "AEK".data) ++ " #TLDR#KTHXBYE".data)
      = .ok [.comment ('M' :: "AEK".data)] :=
  C6_comment_amended 'M' "AEK".data (by decide)

/-- Lexing a single space followed by a non-whitespace character: one
whitespace `Text` token, flags untouched. -/
theorem nextToken_spaceTok (c0 : Char) (w' rest : List Char) (ah : Bool) (pk : Option Kw)
    (hc0 : isWsChar c0 = false) :
    nextToken ⟨' ' :: ((c0 :: w') ++ rest), ah, pk⟩
      = (.text [' '], ⟨(c0 :: w') ++ rest, ah, pk⟩) := by
  show nextToken ⟨' ' :: (c0 :: (w' ++ rest)), ah, pk⟩ = _
  simp only [nextToken]
  rw [if_neg (by decide), if_pos (by decide)]
  rw [List.takeWhile_cons_of_pos (by decide), List.dropWhile_cons_of_pos (by decide)]
  rw [List.takeWhile_cons_of_neg (by simp [hc0]),
    List.dropWhile_cons_of_neg (by simp [hc0])]
  simp

/-- Lexing a maximal word-character run that does not spell an applicable
keyword: a `Word` token carrying exactly the run. -/
theorem nextToken_wordTok (c0 : Char) (w' : List Char) (r0 : Char) (rs : List Char)
    (ah : Bool) (pk : Option Kw)
    (hw : ∀ c ∈ c0 :: w', isWordChar c = true) (hr0 : isWordChar r0 = false)
    (hkw : (if (ah || prevKwExpectsKeyword pk)
            then mapKw ((c0 :: w').map Char.toUpper) else none) = none) :
    nextToken ⟨(c0 :: w') ++ (r0 :: rs), ah, pk⟩
      = (.word (c0 :: w'), ⟨r0 :: rs, false, none⟩) := by
  have hc0w : isWordChar c0 = true := hw c0 (by simp)
  have hc0ws : isWsChar c0 = false := isWordChar_not_ws hc0w
  have htw := takeWhile_append_cons (c0 :: w') r0 rs hw hr0
  show nextToken ⟨c0 :: (w' ++ (r0 :: rs)), ah, pk⟩ = _
  simp only [nextToken]
  rw [if_neg (by intro hc; rw [hc] at hc0w; exact absurd hc0w (by decide))]
  rw [if_neg (by simp [hc0ws]), if_pos (by simp [hc0w])]
  have e1 : (c0 :: (w' ++ (r0 :: rs))).takeWhile isWordChar = c0 :: w' := htw.1
  have e2 : (c0 :: (w' ++ (r0 :: rs))).dropWhile isWordChar = r0 :: rs := htw.2
  rw [e1, e2, hkw]

/-- Evaluation of `parse_head` on `HEAD <word> #OIC...` for an arbitrary
all-word-character word: the word is silently skipped by the loop's
catch-all `advance` arm and the block closes as an empty `Head`. -/
theorem head_word_run (c0 : Char) (w' : List Char)
    (hw : ∀ c ∈ c0 :: w', isWordChar c = true) :
    ∀ n, 6 < n →
      parse_head n
        ⟨⟨' ' :: ((c0 :: w') ++ " #OIC#KTHXBYE".data), false, some .head⟩,
          .kw .head, [], [[]]⟩
        = .ok ⟨⟨"KTHXBYE".data, true, none⟩, .hash, [], [[.head []]]⟩ := by
  intro n hn
  have hc0w : isWordChar c0 = true := hw c0 (by simp)
  have hc0ws : isWsChar c0 = false := isWordChar_not_ws hc0w
  unfold parse_head
  rw [expect_kw_eval rfl]
  simp only [PRes.bind]
  have hadv1 : advance ⟨⟨' ' :: ((c0 :: w') ++ " #OIC#KTHXBYE".data), false, some .head⟩,
      .kw .head, [], [[]]⟩
      = ⟨⟨(c0 :: w') ++ " #OIC#KTHXBYE".data, false, some .head⟩,
          .text [' '], [], [[]]⟩ := by
    simp only [advance, nextToken_spaceTok c0 w' " #OIC#KTHXBYE".data false (some .head) hc0ws]
  rw [hadv1]
  show (headLoop n ⟨⟨(c0 :: w') ++ " #OIC#KTHXBYE".data, false, some .head⟩,
      .text [' '], [], [[], []]⟩).bind _ = _
  obtain ⟨n1, rfl⟩ : ∃ m, n = m + 1 := ⟨n - 1, by omega⟩
  simp only [headLoop]
  have hadv2 : advance ⟨⟨(c0 :: w') ++ " #OIC#KTHXBYE".data, false, some .head⟩,
      .text [' '], [], [[], []]⟩
      = ⟨⟨" #OIC#KTHXBYE".data, false, none⟩, .word (c0 :: w'), [], [[], []]⟩ := by
    simp only [advance,
      nextToken_wordTok c0 w' ' ' "#OIC#KTHXBYE".data false (some .head) hw (by decide)
        (by simp [prevKwExpectsKeyword])]
  have hskip : skip_ws n1 ⟨⟨(c0 :: w') ++ " #OIC#KTHXBYE".data, false, some .head⟩,
      .text [' '], [], [[], []]⟩
      = .ok ⟨⟨" #OIC#KTHXBYE".data, false, none⟩, .word (c0 :: w'), [], [[], []]⟩ := by
    obtain ⟨n2, rfl⟩ : ∃ m, n1 = m + 1 := ⟨n1 - 1, by omega⟩
    simp only [skip_ws]
    rw [if_pos (by decide)]
    rw [hadv2]
    exact skip_ws_nontext (by omega) (fun t h => Token.noConfusion h)
  rw [hskip]
  simp only [PRes.bind]
  -- the Word lookahead falls into the catch-all arm and is advanced over
  have hadv3 : advance ⟨⟨" #OIC#KTHXBYE".data, false, none⟩,
      .word (c0 :: w'), [], [[], []]⟩
      = ⟨⟨"#OIC#KTHXBYE".data, false, none⟩, .text [' '], [], [[], []]⟩ := rfl
  rw [hadv3]
  obtain ⟨n2, rfl⟩ : ∃ m, n1 = m + 1 := ⟨n1 - 1, by omega⟩
  simp only [headLoop]
  have hskip2 : skip_ws n2 ⟨⟨"#OIC#KTHXBYE".data, false, none⟩,
      .text [' '], [], [[], []]⟩
      = .ok ⟨⟨"OIC#KTHXBYE".data, true, none⟩, .hash, [], [[], []]⟩ := by
    obtain ⟨n3, rfl⟩ : ∃ m, n2 = m + 1 := ⟨n2 - 1, by omega⟩
    simp only [skip_ws]
    rw [if_pos (by decide)]
    have hadv4 : advance ⟨⟨"#OIC#KTHXBYE".data, false, none⟩,
        .text [' '], [], [[], []]⟩
        = ⟨⟨"OIC#KTHXBYE".data, true, none⟩, .hash, [], [[], []]⟩ := rfl
    rw [hadv4]
    exact skip_ws_nontext (by omega) (fun t h => Token.noConfusion h)
  rw [hskip2]
  simp only [PRes.bind]
  have hadv5 : advance ⟨⟨"OIC#KTHXBYE".data, true, none⟩, .hash, [], [[], []]⟩
      = ⟨⟨"#KTHXBYE".data, false, some .oic⟩, .kw .oic, [], [[], []]⟩ := rfl
  rw [hadv5]
  rw [skip_ws_nontext (by omega) (fun t h => Token.noConfusion h)]
  simp only [PRes.bind]
  have hadv6 : advance ⟨⟨"#KTHXBYE".data, false, some .oic⟩, .kw .oic, [], [[], []]⟩
      = ⟨⟨"KTHXBYE".data, true, none⟩, .hash, [], [[], []]⟩ := rfl
  rw [hadv6]
  simp only [PRes.bind, push_node]
  simp

/-- Evaluation of `parse_head` on `HEAD#<word>...` where the word after the
`#` spells no keyword: the hash-introduced annotation is checked and
rejected with `expected GIMMEH TITLE or OBTW or OIC`. -/
theorem head_err_run (c0 : Char) (w' : List Char)
    (hw : ∀ c ∈ c0 :: w', isWordChar c = true)
    (hkw : mapKw ((c0 :: w').map Char.toUpper) = none) :
    ∀ n, 4 < n →
      parse_head n
        ⟨⟨'#' :: ((c0 :: w') ++ "#OIC#KTHXBYE".data), false, some .head⟩,
          .kw .head, [], [[]]⟩
        = .err (.synErr "GIMMEH TITLE or OBTW or OIC".data (c0 :: w')) := by
  intro n hn
  unfold parse_head
  rw [expect_kw_eval rfl]
  simp only [PRes.bind]
  have hadv1 : advance ⟨⟨'#' :: ((c0 :: w') ++ "#OIC#KTHXBYE".data), false, some .head⟩,
      .kw .head, [], [[]]⟩
      = ⟨⟨(c0 :: w') ++ "#OIC#KTHXBYE".data, true, none⟩, .hash, [], [[]]⟩ := rfl
  rw [hadv1]
  show (headLoop n ⟨⟨(c0 :: w') ++ "#OIC#KTHXBYE".data, true, none⟩,
      .hash, [], [[], []]⟩).bind _ = _
  obtain ⟨n1, rfl⟩ : ∃ m, n = m + 1 := ⟨n - 1, by omega⟩
  simp only [headLoop]
  rw [skip_ws_nontext (by omega) (fun t h => Token.noConfusion h)]
  simp only [PRes.bind]
  have hadv2 : advance ⟨⟨(c0 :: w') ++ "#OIC#KTHXBYE".data, true, none⟩,
      .hash, [], [[], []]⟩
      = ⟨⟨"#OIC#KTHXBYE".data, false, none⟩, .word (c0 :: w'), [], [[], []]⟩ := by
    simp only [advance,
      nextToken_wordTok c0 w' '#' "OIC#KTHXBYE".data true none hw (by decide)
        (by simpa using hkw)]
  rw [hadv2]
  rw [skip_ws_nontext (by omega) (fun t h => Token.noConfusion h)]
  simp only [PRes.bind]
  rfl

/-- C5: CORRECTION (counterexample).  The spec claims any unrecognized
content inside `#MAEK HEAD ... #OIC` — such as plain words — is a syntax
error and parse_head never silently skips tokens.  In fact the loop's
catch-all arm advances over non-`#` content without error: the words
`hello there` are silently dropped and the block parses as an empty Head. -/
theorem C5_head_cex :
    parse_lolcode "#HAI#MAEK HEAD hello there #OIC#KTHXBYE".data
      = .ok [.head []] := rfl

/-- C5 (amended): inside a `#MAEK HEAD ... #OIC` block, only hash-introduced
annotations are validated: a `#` followed by a word that is not
`GIMMEH`/`OBTW`/`OIC` is a syntax error `expected GIMMEH TITLE or OBTW or
OIC`, but plain (non-`#`) words between annotations are silently skipped
and do not appear in the resulting Head node. -/
theorem C5_head_amended :
    (∀ c0 w', (∀ c ∈ c0 :: w', isWordChar c = true) →
       parse_lolcode ("#HAI#MAEK HEAD ".data ++ (c0 :: w') ++ " #OIC#KTHXBYE".data)
         = .ok [.head []])
    ∧ (∀ c0 w', (∀ c ∈ c0 :: w', isWordChar c = true) →
       mapKw ((c0 :: w').map Char.toUpper) = none →
       parse_lolcode ("#HAI#MAEK HEAD#".data ++ (c0 :: w') ++ "#OIC#KTHXBYE".data)
         = .err (.synErr "GIMMEH TITLE or OBTW or OIC".data (c0 :: w'))) := by
  constructor
  · intro c0 w' hw
    have hmu : mu (initState ("#HAI#MAEK HEAD ".data ++ (c0 :: w') ++ " #OIC#KTHXBYE".data))
        = w'.length + 29 := by
      show ("HAI#MAEK HEAD ".data ++ (c0 :: w') ++ " #OIC#KTHXBYE".data).length + 1
          = w'.length + 29
      simp [List.length_append]
    have E : parse_lolcode ("#HAI#MAEK HEAD ".data ++ (c0 :: w') ++ " #OIC#KTHXBYE".data)
        = ((parse_head
              (mu (initState ("#HAI#MAEK HEAD ".data ++ (c0 :: w') ++ " #OIC#KTHXBYE".data)))
              ⟨⟨' ' :: ((c0 :: w') ++ " #OIC#KTHXBYE".data), false, some .head⟩,
                .kw .head, [], [[]]⟩).bind
            fun s6 =>
              lolcodeLoop
                (mu (initState ("#HAI#MAEK HEAD ".data ++ (c0 :: w') ++ " #OIC#KTHXBYE".data)))
                s6).bind
          fun sf =>
            match sf.stack with
            | kids :: _ => .ok kids
            | [] => .ok sf.ast := rfl
    rw [E, head_word_run c0 w' hw
      (mu (initState ("#HAI#MAEK HEAD ".data ++ (c0 :: w') ++ " #OIC#KTHXBYE".data)))
      (by omega)]
    simp only [PRes.bind]
    have e5 : lolcodeLoop
        (mu (initState ("#HAI#MAEK HEAD ".data ++ (c0 :: w') ++ " #OIC#KTHXBYE".data)))
        ⟨⟨"KTHXBYE".data, true, none⟩, .hash, [], [[.head []]]⟩
        = lolcodeLoop 10 ⟨⟨"KTHXBYE".data, true, none⟩, .hash, [], [[.head []]]⟩ := by
      refine lolcodeLoop_fuel _ _ _ ?_ ?_ (topInv_hash_look rfl)
      · have h8 : mu ⟨⟨"KTHXBYE".data, true, none⟩, .hash, [], [[.head []]]⟩ = 8 := rfl
        omega
      · have h8 : mu ⟨⟨"KTHXBYE".data, true, none⟩, .hash, [], [[.head []]]⟩ = 8 := rfl
        omega
    rw [e5]
    have e6 : lolcodeLoop 10 ⟨⟨"KTHXBYE".data, true, none⟩, .hash, [], [[.head []]]⟩
        = .ok ⟨⟨[], false, some .kthxbye⟩, .eof, [], [[.head []]]⟩ := rfl
    rw [e6]
  · intro c0 w' hw hkw
    have hmu : mu (initState ("#HAI#MAEK HEAD#".data ++ (c0 :: w') ++ "#OIC#KTHXBYE".data))
        = w'.length + 28 := by
      show ("HAI#MAEK HEAD#".data ++ (c0 :: w') ++ "#OIC#KTHXBYE".data).length + 1
          = w'.length + 28
      simp [List.length_append]
    have E : parse_lolcode ("#HAI#MAEK HEAD#".data ++ (c0 :: w') ++ "#OIC#KTHXBYE".data)
        = ((parse_head
              (mu (initState ("#HAI#MAEK HEAD#".data ++ (c0 :: w') ++ "#OIC#KTHXBYE".data)))
              ⟨⟨'#' :: ((c0 :: w') ++ "#OIC#KTHXBYE".data), false, some .head⟩,
                .kw .head, [], [[]]⟩).bind
            fun s6 =>
              lolcodeLoop
                (mu (initState ("#HAI#MAEK HEAD#".data ++ (c0 :: w') ++ "#OIC#KTHXBYE".data)))
                s6).bind
          fun sf =>
            match sf.stack with
            | kids :: _ => .ok kids
            | [] => .ok sf.ast := rfl
    rw [E, head_err_run c0 w' hw hkw
      (mu (initState ("#HAI#MAEK HEAD#".data ++ (c0 :: w') ++ "#OIC#KTHXBYE".data)))
      (by omega)]
    simp only [PRes.bind]

/-- Closed instance of `C5_head_amended`: the plain word `junk` inside a
head block is silently skipped, while `#junk` is a syntax error. -/
theorem C5_head_amended_witness :
    parse_lolcode ("#HAI#MAEK HEAD ".data ++ ('j' :: "unk".data) ++ " #OIC#KTHXBYE".data)
      = .ok [.head []]
    ∧ parse_lolcode ("#HAI#MAEK HEAD#".data ++ ('j' :: "unk".data) ++ "#OIC#KTHXBYE".data)
      = .err (.synErr "GIMMEH TITLE or OBTW or OIC".data ('j' :: "unk".data)) :=
  ⟨C5_head_amended.1 'j' "unk".data (by decide),
   C5_head_amended.2 'j' "unk".data (by decide) (by decide)⟩

/-- C10: CORRECTION (counterexample).  The spec claims arbitrary trailing
characters after `#KTHXBYE` are silently ignored.  But the lexer takes the
maximal word-character run: with trailing input `z`, the final token is the
word `KTHXBYEz` (not the keyword), and parsing fails with
`expected valid top-level annotation, found KTHXBYEz`, while the prefix
alone parses to Ok []. -/
theorem C10_trailing_cex :
    parse_lolcode "#HAI#KTHXBYE".data = .ok []
    ∧ parse_lolcode "#HAI#KTHXBYEz".data
      = .err (.synErr "valid top-level annotation".data "KTHXBYEz".data) :=
  ⟨rfl, rfl⟩

/-- C10 (amended): trailing input after `#KTHXBYE` is ignored provided it
does not begin with a word character (a leading word character would extend
the `KTHXBYE` token itself, cf. `C10_trailing_cex`): for the well-formed
prefix `#HAI#MAEK HEAD#OIC#KTHXBYE`, appending any such trailer yields the
same result as parsing the prefix alone. -/
theorem C10_trailing_amended (t : List Char)
    (ht : ∀ c, t.head? = some c → isWordChar c = false) :
    parse_lolcode ("#HAI#MAEK HEAD#OIC#KTHXBYE".data ++ t)
      = parse_lolcode "#HAI#MAEK HEAD#OIC#KTHXBYE".data := by
  have hmu : mu (initState ("#HAI#MAEK HEAD#OIC#KTHXBYE".data ++ t))
      = t.length + 26 := by
    show ("HAI#MAEK HEAD#OIC#KTHXBYE".data ++ t).length + 1 = t.length + 26
    simp [List.length_append]
  have E : parse_lolcode ("#HAI#MAEK HEAD#OIC#KTHXBYE".data ++ t)
      = (lolcodeLoop (mu (initState ("#HAI#MAEK HEAD#OIC#KTHXBYE".data ++ t)))
          ⟨⟨"KTHXBYE".data ++ t, true, none⟩, .hash, [], [[.head []]]⟩).bind
        fun sf =>
          match sf.stack with
          | kids :: _ => .ok kids
          | [] => .ok sf.ast := rfl
  have hadvSD : advance ⟨⟨"KTHXBYE".data ++ t, true, none⟩, .hash, [], [[.head []]]⟩
      = ⟨⟨t, false, some .kthxbye⟩, .kw .kthxbye, [], [[.head []]]⟩ := by
    rcases t with _ | ⟨c, t'⟩
    · rfl
    · have hc : isWordChar c = false := ht c rfl
      have htk := takeWhile_append_cons "KTHXBYE".data c t' (by decide) hc
      have hnx : nextToken ⟨"KTHXBYE".data ++ (c :: t'), true, none⟩
          = (.kw .kthxbye, ⟨c :: t', false, some .kthxbye⟩) := by
        show nextToken ⟨'K' :: ("THXBYE".data ++ (c :: t')), true, none⟩ = _
        simp only [nextToken]
        rw [if_neg (by decide), if_neg (by decide), if_pos (by decide)]
        have e1 : ('K' :: ("THXBYE".data ++ (c :: t'))).takeWhile isWordChar
            = "KTHXBYE".data := htk.1
        have e2 : ('K' :: ("THXBYE".data ++ (c :: t'))).dropWhile isWordChar
            = c :: t' := htk.2
        rw [e1, e2]
        rfl
      simp only [advance, hnx]
  obtain ⟨n1, hn1⟩ : ∃ m, mu (initState ("#HAI#MAEK HEAD#OIC#KTHXBYE".data ++ t))
      = m + 1 := ⟨mu (initState ("#HAI#MAEK HEAD#OIC#KTHXBYE".data ++ t)) - 1, by omega⟩
  rw [E, hn1]
  simp only [lolcodeLoop]
  rw [skip_ws_nontext (by omega) (fun u h => Token.noConfusion h)]
  simp only [PRes.bind]
  rw [hadvSD]
  rw [skip_ws_nontext (by omega) (fun u h => Token.noConfusion h)]
  simp only [PRes.bind]
  rfl

/-- Closed instance of `C10_trailing_amended`: trailing ` junk!` after
`#KTHXBYE` is ignored. -/
theorem C10_trailing_amended_witness :
    parse_lolcode ("#HAI#MAEK HEAD#OIC#KTHXBYE".data ++ " junk!".data)
      = parse_lolcode "#HAI#MAEK HEAD#OIC#KTHXBYE".data :=
  C10_trailing_amended " junk!".data (by decide)
